import Mathlib

/-!
Shallow embedding of the order-statistic red-black tree of `pyrbt.py`
(class `pyRBT`, with the node-swap delete engine and the in-order iterator)
and, where a claim refers to it, of the older `pyRBT.py` (value-swap delete).

Representation choices:

* `RBNode α` mirrors `RBNode`/`RBLeaf`: an internal node stores its color
  (`black : Bool`), its STORED subtree size (`size : Nat`, as the Python
  objects do), two children and a value.  The sentinel leaf is `leaf`.
* Parent pointers are represented by zipper contexts: a `Frame` records the
  data of a parent node together with the direction the focused child hangs
  on and the parent's other child, so that `plug` reconstructs the tree.
  Invariant 7 (correct parent back-links) is maintained by construction in
  this representation; its observable content (upward navigation in the
  iterator and in `check()`) is captured by the iterator embedding
  `nextPath`, which performs exactly the parent-walk of `next_node`.
* Positions of nodes are `Path`s (lists of turns from the root).
* Branches where the Python code would raise `AttributeError` on a sentinel
  (they are unreachable while the invariants hold) are embedded as inert
  branches that return the tree unchanged; every such spot is commented.
* Machine behaviour: `__hash__` masks with `0xffffffffffffffff`, embedded as
  `% 2 ^ 64` on `Nat` (the accumulator is non-negative throughout).
-/

namespace PyRBT

/-- Direction from a parent node to one of its two children. -/
inductive Dir : Type where
  | left : Dir
  | right : Dir
deriving DecidableEq, Repr

/-- A position in a tree: the turns taken from the root. -/
abbrev Path : Type := List Dir

/-- The node structure of `pyrbt.py`: `RBLeaf` (sentinel, black, size 0) or
`RBNode` with stored color, stored subtree size, children and value. -/
inductive RBNode (α : Type) : Type where
  | leaf : RBNode α
  | node (black : Bool) (size : Nat) (l : RBNode α) (value : α) (r : RBNode α) : RBNode α
deriving DecidableEq, Repr

namespace RBNode

/-- `isleaf()`. -/
def isleaf : RBNode α → Bool
  | .leaf => true
  | .node _ _ _ _ _ => false

/-- `__len__`: the STORED size field (0 for the sentinel). -/
def len : RBNode α → Nat
  | .leaf => 0
  | .node _ s _ _ _ => s

/-- Actual number of internal nodes (not stored; used to state invariant 6). -/
def count : RBNode α → Nat
  | .leaf => 0
  | .node _ _ l _ r => count l + 1 + count r

/-- In-order list of values. -/
def inorder : RBNode α → List α
  | .leaf => []
  | .node _ _ l v r => inorder l ++ v :: inorder r

/-- `isblack()` of the root object (the sentinel is black). -/
def rootBlack : RBNode α → Bool
  | .leaf => true
  | .node b _ _ _ _ => b

/-- `isred()` of the root object. -/
def rootRed (t : RBNode α) : Bool := !rootBlack t

/-- Invariant 6: every internal node's stored size is `1 + left + right`. -/
def sizeOk : RBNode α → Bool
  | .leaf => true
  | .node _ s l _ r => (s == len l + 1 + len r) && sizeOk l && sizeOk r

/-- Invariant 4: a red node has two black children. -/
def redOk : RBNode α → Bool
  | .leaf => true
  | .node b _ l _ r => (b || (rootBlack l && rootBlack r)) && redOk l && redOk r

/-- Black height, counting the sentinel as one black node; `none` when two
root-to-leaf paths disagree (invariant 5 fails). -/
def bh : RBNode α → Option Nat
  | .leaf => some 1
  | .node b _ l _ r =>
      match bh l, bh r with
      | some m, some n => if m = n then some (m + (if b then 1 else 0)) else none
      | _, _ => none

/-- Paint the root black (`node.black = True`). -/
def blacken : RBNode α → RBNode α
  | .leaf => .leaf
  | .node _ s l v r => .node true s l v r

end RBNode

open RBNode

/-- One step of parent context: the parent's stored data, which side the
focused child hangs on (`dir`), and the parent's other child. -/
structure Frame (α : Type) where
  dir : Dir
  black : Bool
  size : Nat
  value : α
  other : RBNode α
deriving DecidableEq, Repr

/-- A chain of ancestors, innermost parent first.  This is the embedding of
the `parent` pointers of the Python objects. -/
abbrev Ctx (α : Type) := List (Frame α)

/-- Rebuild the parent node from a frame and the focused child. -/
def assemble (f : Frame α) (c : RBNode α) : RBNode α :=
  match f.dir with
  | .left => .node f.black f.size c f.value f.other
  | .right => .node f.black f.size f.other f.value c

/-- Rebuild the whole tree from a focus and its context. -/
def plug (c : RBNode α) : Ctx α → RBNode α
  | [] => c
  | f :: fs => plug (assemble f c) fs

/-- `_rotate_left(pa)`: the right child rotates into the parent position and
both stored sizes are recomputed from the (stored) child sizes, exactly as in
the source.  If the right child is the sentinel the Python code would raise;
that shape is returned unchanged (unreachable in the verified executions). -/
def rotate_left : RBNode α → RBNode α
  | .node pb _ a v (.node cb _ b w c) =>
      .node cb ((len a + 1 + len b) + 1 + len c) (.node pb (len a + 1 + len b) a v b) w c
  | t => t

/-- `_rotate_right(pa)`, mirror of `rotate_left`. -/
def rotate_right : RBNode α → RBNode α
  | .node pb _ (.node cb _ a w b) v c =>
      .node cb (len a + 1 + (len b + 1 + len c)) a w (.node pb (len b + 1 + len c) b v c)
  | t => t

/-- The size increments `while node is not None: node.size += 1` performed on
the whole ancestor chain after attaching a new node. -/
def bumpSizes (ctx : Ctx α) : Ctx α :=
  ctx.map fun f => ⟨f.dir, f.black, f.size + 1, f.value, f.other⟩

/-- `_insert_case5`: grandparent painted red, parent painted black, then a
rotation at the grandparent (right when the focus is a left child).  With no
grandparent the Python code would raise; the tree is returned unchanged. -/
def insert_case5 (t : RBNode α) : Ctx α → RBNode α
  | paF :: gpF :: rest =>
      let paT := assemble ⟨paF.dir, true, paF.size, paF.value, paF.other⟩ t
      let gpT := assemble ⟨gpF.dir, false, gpF.size, gpF.value, gpF.other⟩ paT
      plug (match paF.dir with | .left => rotate_right gpT | .right => rotate_left gpT) rest
  | ctx => plug t ctx

/-- `_insert_case4`: if the focus is an inner grandchild, rotate the parent
outward and continue with the former parent as focus. -/
def insert_case4 (t : RBNode α) : Ctx α → RBNode α
  | paF :: gpF :: rest =>
      match paF.dir, gpF.dir with
      | .right, .left =>
          match rotate_left (assemble paF t) with
          | .node cb cs cl cv cr => insert_case5 cl (⟨.left, cb, cs, cv, cr⟩ :: gpF :: rest)
          | .leaf => plug t (paF :: gpF :: rest)
      | .left, .right =>
          match rotate_right (assemble paF t) with
          | .node cb cs cl cv cr => insert_case5 cr (⟨.right, cb, cs, cv, cl⟩ :: gpF :: rest)
          | .leaf => plug t (paF :: gpF :: rest)
      | _, _ => insert_case5 t (paF :: gpF :: rest)
  | ctx => plug t ctx

mutual

/-- `_insert_case1`: at the root, paint black; under a red parent run case 3;
under a black parent nothing remains to fix. -/
def insert_case1 : RBNode α → Ctx α → RBNode α
  | t, [] => blacken t
  | t, f :: fs => if f.black then plug t (f :: fs) else insert_case3 t (f :: fs)
termination_by t ctx => (ctx.length, 1)

/-- `_insert_case3`: red parent.  Red uncle: recolor and recurse at the
grandparent; otherwise case 4.  A red parent that is the root would make the
Python code raise on the missing grandparent (unreachable). -/
def insert_case3 : RBNode α → Ctx α → RBNode α
  | t, paF :: gpF :: rest =>
      match gpF.other with
      | .node false us ul uv ur =>
          insert_case1
            (assemble ⟨gpF.dir, false, gpF.size, gpF.value, .node true us ul uv ur⟩
              (assemble ⟨paF.dir, true, paF.size, paF.value, paF.other⟩ t)) rest
      | _ => insert_case4 t (paF :: gpF :: rest)
  | t, ctx => plug t ctx
termination_by t ctx => (ctx.length, 0)

end

/-- The descent loop of `insert`: replace on equality in set mode, otherwise
go left on `item < value` and right otherwise, attach a red node at the first
sentinel child, bump all ancestor sizes, and run the fix-up. -/
def insertGo (lt eq : α → α → Bool) (item : α) (multiset : Bool) :
    RBNode α → Ctx α → RBNode α
  | .node b s l v r, ctx =>
      if !multiset && eq item v then plug (.node b s l item r) ctx
      else if lt item v then
        match l with
        | .leaf => insert_case1 (.node false 1 .leaf item .leaf)
            (bumpSizes (⟨.left, b, s, v, r⟩ :: ctx))
        | .node .. => insertGo lt eq item multiset l (⟨.left, b, s, v, r⟩ :: ctx)
      else
        match r with
        | .leaf => insert_case1 (.node false 1 .leaf item .leaf)
            (bumpSizes (⟨.right, b, s, v, l⟩ :: ctx))
        | .node .. => insertGo lt eq item multiset r (⟨.right, b, s, v, l⟩ :: ctx)
  | .leaf, ctx => plug .leaf ctx

/-- `insert(item, multiset)`: a black singleton when `len(self) == 0`,
otherwise the descent loop from the root. -/
def insert (lt eq : α → α → Bool) (item : α) (multiset : Bool) (t : RBNode α) : RBNode α :=
  if len t = 0 then .node true 1 .leaf item .leaf
  else insertGo lt eq item multiset t []

/-- `extend(l, multiset)`. -/
def extend (lt eq : α → α → Bool) (l : List α) (multiset : Bool) (t : RBNode α) : RBNode α :=
  l.foldl (fun acc x => insert lt eq x multiset acc) t

/-- `_delete_case6`: sibling takes the parent's color, parent and the
sibling's far child become black, then a rotation at the parent toward the
focus.  A sentinel in place of the sibling or of its far child would make
the Python code raise (unreachable); those shapes are returned unchanged. -/
def delete_case6 (t : RBNode α) : Ctx α → RBNode α
  | paF :: rest =>
      match paF.other with
      | .node _sb ss sl sv sr =>
          match paF.dir with
          | .left =>
              match sr with
              | .node _ srs srl srv srr =>
                  plug (rotate_left (.node true paF.size t paF.value
                    (.node paF.black ss sl sv (.node true srs srl srv srr)))) rest
              | .leaf => plug t (paF :: rest)
          | .right =>
              match sl with
              | .node _ sls sll slv slr =>
                  plug (rotate_right (.node true paF.size
                    (.node paF.black ss (.node true sls sll slv slr) sv sr) paF.value t)) rest
              | .leaf => plug t (paF :: rest)
      | .leaf => plug t (paF :: rest)
  | [] => t

/-- `_delete_case5`: with a black sibling whose near child is red and far
child black, recolor and rotate at the sibling, then case 6. -/
def delete_case5 (t : RBNode α) : Ctx α → RBNode α
  | paF :: rest =>
      match paF.other with
      | .node sb ss sl sv sr =>
          if sb then
            match paF.dir with
            | .left =>
                if rootBlack sr && rootRed sl then
                  delete_case6 t (⟨paF.dir, paF.black, paF.size, paF.value,
                    rotate_right (.node false ss (blacken sl) sv sr)⟩ :: rest)
                else delete_case6 t (paF :: rest)
            | .right =>
                if rootBlack sl && rootRed sr then
                  delete_case6 t (⟨paF.dir, paF.black, paF.size, paF.value,
                    rotate_left (.node false ss sl sv (blacken sr))⟩ :: rest)
                else delete_case6 t (paF :: rest)
          else delete_case6 t (paF :: rest)
      | .leaf => delete_case6 t (paF :: rest)
  | [] => t

/-- `_delete_case4`: red parent, black sibling with two black children:
swap the colors of parent and sibling and stop; otherwise case 5. -/
def delete_case4 (t : RBNode α) : Ctx α → RBNode α
  | paF :: rest =>
      match paF.other with
      | .node sb ss sl sv sr =>
          if !paF.black && sb && rootBlack sl && rootBlack sr then
            plug (assemble ⟨paF.dir, true, paF.size, paF.value, .node false ss sl sv sr⟩ t) rest
          else delete_case5 t (paF :: rest)
      | .leaf => delete_case5 t (paF :: rest)
  | [] => t

mutual

/-- `_delete_case2`: stop at the root; with a red sibling, paint the parent
red and the sibling black and rotate the parent toward the focus; then
case 3.  The `fuel` argument only forces termination; `delete_one_child`
supplies enough of it for every execution the Python code performs. -/
def delete_case2 : Nat → RBNode α → Ctx α → RBNode α
  | 0, t, ctx => plug t ctx
  | _ + 1, t, [] => t
  | fuel + 1, t, paF :: rest =>
      match paF.other with
      | .node false ss sl sv sr =>
          match paF.dir with
          | .left =>
              delete_case3 fuel t
                (⟨.left, false, len t + 1 + len sl, paF.value, sl⟩ ::
                 ⟨.left, true, (len t + 1 + len sl) + 1 + len sr, sv, sr⟩ :: rest)
          | .right =>
              delete_case3 fuel t
                (⟨.right, false, len sr + 1 + len t, paF.value, sr⟩ ::
                 ⟨.right, true, len sl + 1 + (len sr + 1 + len t), sv, sl⟩ :: rest)
      | _ => delete_case3 fuel t (paF :: rest)
termination_by fuel t ctx => (fuel, 0)

/-- `_delete_case3`: all of parent, sibling and the sibling's children black:
paint the sibling red and recurse at the parent; otherwise case 4.  A
sentinel sibling would make the Python code raise (unreachable). -/
def delete_case3 : Nat → RBNode α → Ctx α → RBNode α
  | fuel, t, paF :: rest =>
      match paF.other with
      | .node sb ss sl sv sr =>
          if paF.black && sb && rootBlack sl && rootBlack sr then
            delete_case2 fuel
              (assemble ⟨paF.dir, paF.black, paF.size, paF.value, .node false ss sl sv sr⟩ t) rest
          else delete_case4 t (paF :: rest)
      | .leaf => plug t (paF :: rest)
  | _, t, [] => t
termination_by fuel t ctx => (fuel, 1)

end

/-- `_delete_node_with_one_child(node)`: splice the focus (which has at most
one internal child) out in favour of that child, then repair: nothing if the
focus was red, repaint a red child black, otherwise run the fix-up. -/
def delete_one_child (t : RBNode α) (ctx : Ctx α) : RBNode α :=
  match t with
  | .node b _ l _ r =>
      let child := match r with | .leaf => l | .node .. => r
      if b then
        match child with
        | .node false cs cl cv cr => plug (.node true cs cl cv cr) ctx
        | _ => delete_case2 (ctx.length + 1) child ctx
      else plug child ctx
  | .leaf => plug t ctx

/-- Subtree at a path (`leaf` when the path runs off the tree). -/
def subtreeAt : RBNode α → Path → RBNode α
  | t, [] => t
  | .node _ _ l _ _, .left :: p => subtreeAt l p
  | .node _ _ _ _ r, .right :: p => subtreeAt r p
  | .leaf, _ :: _ => .leaf

/-- Value stored at a path. -/
def valueAt : RBNode α → Path → Option α
  | .node _ _ _ v _, [] => some v
  | .node _ _ l _ _, .left :: p => valueAt l p
  | .node _ _ _ _ r, .right :: p => valueAt r p
  | .leaf, _ => none

/-- Replace the value stored at a path (identity off the tree). -/
def setValueAt : RBNode α → Path → α → RBNode α
  | .node b s l _ r, [], x => .node b s l x r
  | .node b s l v r, .left :: p, x => .node b s (setValueAt l p x) v r
  | .node b s l v r, .right :: p, x => .node b s l v (setValueAt r p x)
  | .leaf, _, _ => .leaf

/-- Net effect of `_swap_nodes(a, b)` on the tree shape: the two objects
exchange `l`, `r`, `parent`, `size` and `black` (everything except `value`),
with self-loops repaired and both re-registered with their new parents and
children, so the shape, colors and sizes at every POSITION are unchanged and
only the two values are transposed. -/
def swapValuesAt (t : RBNode α) (p q : Path) : RBNode α :=
  match valueAt t p, valueAt t q with
  | some a, some b => setValueAt (setValueAt t p b) q a
  | _, _ => t

/-- `for v in node.path(): v.size -= 1`: decrement the stored size of the
node at the given path and of all its ancestors. -/
def decSizesAlong : RBNode α → Path → RBNode α
  | .leaf, _ => .leaf
  | .node b s l v r, [] => .node b (s - 1) l v r
  | .node b s l v r, .left :: p => .node b (s - 1) (decSizesAlong l p) v r
  | .node b s l v r, .right :: p => .node b (s - 1) l v (decSizesAlong r p)

/-- Decompose a tree at a path into the focused subtree and its ancestor
chain (the zipper that models the node's `parent` links). -/
def unzipGo : RBNode α → Path → Ctx α → Option (RBNode α × Ctx α)
  | t, [], ctx => some (t, ctx)
  | .node b s l v r, .left :: p, ctx => unzipGo l p (⟨.left, b, s, v, r⟩ :: ctx)
  | .node b s l v r, .right :: p, ctx => unzipGo r p (⟨.right, b, s, v, l⟩ :: ctx)
  | .leaf, _ :: _, _ => none

/-- Decompose a tree at a path. -/
def unzip (t : RBNode α) (p : Path) : Option (RBNode α × Ctx α) := unzipGo t p []

/-- `while not node.r.isleaf(): node = node.r` as a path. -/
def rightSpine : RBNode α → Path
  | .leaf => []
  | .node _ _ _ _ r => match r with | .leaf => [] | .node .. => .right :: rightSpine r

/-- `while not node.l.isleaf(): node = node.l` as a path. -/
def leftSpine : RBNode α → Path
  | .leaf => []
  | .node _ _ l _ _ => match l with | .leaf => [] | .node .. => .left :: leftSpine l

/-- `_adjacent_node` of `pyrbt.py` as a path relative to the node: the
maximum of the LEFT subtree when it is not a sentinel, else the minimum of
the right subtree when that is not a sentinel, else the node itself. -/
def adjacentSub : RBNode α → Path
  | .node _ _ (.node lb ls ll lv lr) _ _ => .left :: rightSpine (.node lb ls ll lv lr)
  | .node _ _ .leaf _ (.node rb rs rl rv rr) => .right :: leftSpine (.node rb rs rl rv rr)
  | _ => []

/-- In-order neighbor selection of the `_delete_node` of the OLD `pyRBT.py`
(lines 296-301), as a path relative to the node: minimum of the RIGHT
subtree first, else maximum of the left subtree, else the node itself. -/
def oldAdjacentSub : RBNode α → Path
  | .node _ _ _ _ (.node rb rs rl rv rr) => .right :: leftSpine (.node rb rs rl rv rr)
  | .node _ _ (.node lb ls ll lv lr) _ .leaf => .left :: rightSpine (.node lb ls ll lv lr)
  | _ => []

/-- `_delete_node(node)` of `pyrbt.py`, for the node at path `p`: choose the
adjacent node, swap the two nodes (transposing the values, see
`swapValuesAt`), decrement the sizes on the ancestor chain of the swapped
target, then splice it out with `delete_one_child`.  The returned value of
the Python method is the target's original value, i.e. `valueAt t p`. -/
def delete_node (t : RBNode α) (p : Path) : RBNode α :=
  match unzip t p with
  | none => t
  | some (target, _) =>
      let q := p ++ adjacentSub target
      let t2 := decSizesAlong (swapValuesAt t p q) q
      match unzip t2 q with
      | some (victim, ctx) => delete_one_child victim ctx
      | none => t2

/-- `findnode(item)`: returns the STORED value of the first node met with
`item == node.value`, descending left on `item < node.value`. -/
def findnode (lt eq : α → α → Bool) : RBNode α → α → Option α
  | .node _ _ l v r, item =>
      if eq item v then some v
      else if lt item v then findnode lt eq l item else findnode lt eq r item
  | .leaf, _ => none

/-- The path of the node `findnode` returns. -/
def findnodePath (lt eq : α → α → Bool) : RBNode α → α → Option Path
  | .node _ _ l v r, item =>
      if eq item v then some []
      else if lt item v then (findnodePath lt eq l item).map (.left :: ·)
      else (findnodePath lt eq r item).map (.right :: ·)
  | .leaf, _ => none

/-- The error kinds the claims mention: `KeyError` on a missing key,
`IndexError` on an out-of-range index, `RuntimeError` on the unreachable
final line of `getnode`. -/
inductive Err : Type where
  | keyMissing : Err
  | indexOutOfRange : Err
  | internalError : Err
deriving DecidableEq, Repr

/-- The descent loop of `getnode`, on a non-negative in-range index, keyed by
the STORED sizes. -/
def getnodeGo : RBNode α → Nat → Except Err (Path × α)
  | .node _ _ l v r, i =>
      if i < len l then (getnodeGo l i).map (fun x => (.left :: x.1, x.2))
      else if i = len l then .ok ([], v)
      else (getnodeGo r (i - (len l + 1))).map (fun x => (.right :: x.1, x.2))
  | .leaf, _ => .error .internalError

/-- `getnode(i)`: negative indices are normalized by `i += len(node)`, then
indices outside `[0, len)` raise `IndexError`. -/
def getnodeLoc (t : RBNode α) (i : Int) : Except Err (Path × α) :=
  let j : Int := if i < 0 then i + len t else i
  if j < 0 || j ≥ (len t : Int) then .error .indexOutOfRange
  else getnodeGo t j.toNat

/-- `get(i)`. -/
def get (t : RBNode α) (i : Int) : Except Err α := (getnodeLoc t i).map (·.2)

/-- The loop of `index(item)`: `i` counts the values in-order before the
current subtree, `idx` the best candidate found so far. -/
def indexGo (lt eq : α → α → Bool) (item : α) :
    RBNode α → Nat → Option Nat → Option Nat
  | .node _ _ l v r, i, idx =>
      if lt item v then indexGo lt eq item l i idx
      else if eq item v then indexGo lt eq item l i (some (i + len l))
      else indexGo lt eq item r (i + len l + 1) idx
  | .leaf, _, idx => idx

/-- `index(item)`: first in-order position of the value, `KeyError` if the
descent records no candidate. -/
def index (lt eq : α → α → Bool) (t : RBNode α) (item : α) : Except Err Nat :=
  match indexGo lt eq item t 0 none with
  | none => .error .keyMissing
  | some j => .ok j

/-- `pop(i)`: `i = len(self) - 1` when the index is omitted, then locate by
`getnode` and funnel into `_delete_node`.  On an error the tree is returned
as it was (the Python exception is raised before any mutation). -/
def pop (t : RBNode α) (oi : Option Int) : Except Err α × RBNode α :=
  let i : Int := match oi with | none => (len t : Int) - 1 | some j => j
  match getnodeLoc t i with
  | .error e => (.error e, t)
  | .ok (p, v) => (.ok v, delete_node t p)

/-- `remove(item)`: locate by `findnode`, `KeyError` when absent (before any
mutation), otherwise `_delete_node` and the deleted node's stored value. -/
def remove (lt eq : α → α → Bool) (t : RBNode α) (item : α) :
    Except Err α × RBNode α :=
  match findnodePath lt eq t item with
  | none => (.error .keyMissing, t)
  | some p => ((valueAt t p).elim (.error .internalError) .ok, delete_node t p)

/-- The upward walk of `next_node` (forward: `while node is node.parent.r:
node = node.parent`, then `node = node.parent`), on the REVERSED path: drop
the trailing `d` turns, then one more turn; `none` when the walk runs off
the root. -/
def climbRev (d : Dir) : Path → Option Path
  | [] => none
  | e :: rest => if e = d then climbRev d rest else some rest

/-- `next_node(node, ...)` for a node given by its path: descend into the
secondary fork when it is not a sentinel, otherwise walk up through the
parent links. -/
def nextPath (fwd : Bool) (t : RBNode α) (p : Path) : Option Path :=
  match subtreeAt t p with
  | .node _ _ l _ r =>
      if fwd then
        match r with
        | .node .. => some (p ++ .right :: leftSpine r)
        | .leaf => (climbRev .right p.reverse).map List.reverse
      else
        match l with
        | .node .. => some (p ++ .left :: rightSpine l)
        | .leaf => (climbRev .left p.reverse).map List.reverse
  | .leaf => none

/-- The initial `nxt` of `RBTIterator.__init__`: the leftmost (forward) or
rightmost (reverse) node of a non-empty tree. -/
def seedPath (fwd : Bool) (t : RBNode α) : Option Path :=
  match t with
  | .leaf => none
  | .node .. => some (if fwd then leftSpine t else rightSpine t)

/-- Successive values produced by the iterator, starting from an optional
pending position; the fuel only bounds the number of steps (the Python loop
stops at `None`, after exactly `count t` yields). -/
def iterFrom (fwd : Bool) (t : RBNode α) : Nat → Option Path → List α
  | 0, _ => []
  | _ + 1, none => []
  | fuel + 1, some p =>
      match valueAt t p with
      | none => []
      | some v => v :: iterFrom fwd t fuel (nextPath fwd t p)

/-- The full forward value iteration (`for v in self`). -/
def iterList (t : RBNode α) : List α := iterFrom true t (count t) (seedPath true t)

/-- One DJB2 step: `h = ((h * 33) ^ hash(v)) & 0xffffffffffffffff`. -/
def djb2step (hv : α → Nat) (h : Nat) (v : α) : Nat := ((h * 33) ^^^ hv v) % (2 ^ 64)

/-- `__hash__`: 0 when `len(self) == 0`, else the DJB2 fold over the values
produced by the iterator, starting from the prime 5381.  `hv` models the
host `hash` function on elements. -/
def pyhash (hv : α → Nat) (t : RBNode α) : Nat :=
  if len t = 0 then 0 else (iterList t).foldl (djb2step hv) 5381

/-- The spec wording of the hash: DJB2 fold over the IN-ORDER value list. -/
def djb2 (hv : α → Nat) (l : List α) : Nat := l.foldl (djb2step hv) 5381

/-- The pairwise scan of `__cmp__`. -/
def cmpZip (lt eq : α → α → Bool) : List (α × α) → Int
  | [] => 0
  | (a, b) :: rest => if !eq a b then (if lt a b then -1 else 1) else cmpZip lt eq rest

/-- `__cmp__`: by stored length first, then the first differing pair of the
zipped iterations. -/
def cmp (lt eq : α → α → Bool) (x y : RBNode α) : Int :=
  if len x ≠ len y then (len x : Int) - (len y : Int)
  else cmpZip lt eq ((iterList x).zip (iterList y))

/-- `RBTIterator` state: the current node and the pending next node.  For
the iterator theorems the tree carries pairwise-distinct `Nat` labels that
stand for the identity of the Python node objects (node-swap keeps `value`
with the object, so the label travels exactly as the object does). -/
structure IterSt : Type where
  node : Option Nat
  nxt : Option Nat
deriving DecidableEq, Repr

/-- Path of the node object labelled `x` (in-order-first occurrence; unique
when the labels are pairwise distinct). -/
def idPath : RBNode Nat → Nat → Option Path
  | .leaf, _ => none
  | .node _ _ l v r, x =>
      match idPath l x with
      | some p => some (.left :: p)
      | none => if v = x then some [] else (idPath r x).map (.right :: ·)

/-- `next_node(self.node, self.tree, self.fwd, self.nxt)`: the pending node
when there is no current node, otherwise the in-order step from the current
node's position. -/
def iterPeek (t : RBNode Nat) (s : IterSt) : Option Nat :=
  match s.node with
  | none => s.nxt
  | some x =>
      match idPath t x with
      | some p => (nextPath true t p).bind (valueAt t)
      | none => none

/-- `__next__`: move to `next_node(...)`; on `None` raise `StopIteration`
(current node cleared, pending node kept), else clear the pending node. -/
def iterStepNode (t : RBNode Nat) (s : IterSt) : Option Nat × IterSt :=
  match iterPeek t s with
  | none => (none, ⟨none, s.nxt⟩)
  | some y => (some y, ⟨some y, none⟩)

/-- `RBTIterator.delete`: store `next_node(...)` (computed BEFORE the
structural change) as the pending node, run `_delete_node(self.node)`, clear
the current node.  With no current node the Python code would raise inside
`_delete_node` (unreachable in the verified driver). -/
def iterDeleteOp (t : RBNode Nat) (s : IterSt) : RBNode Nat × IterSt :=
  let nxt2 := iterPeek t s
  match s.node with
  | none => (t, ⟨none, nxt2⟩)
  | some x =>
      match idPath t x with
      | some p => (delete_node t p, ⟨none, nxt2⟩)
      | none => (t, ⟨none, nxt2⟩)

/-- Drive a forward iterator to exhaustion, calling `delete()` after a visit
exactly when the policy list says so (a policy shorter than the iteration
means no further deletes).  Returns the visited labels and the final tree. -/
def driveDel (policy : List Bool) : Nat → RBNode Nat → IterSt → List Nat × RBNode Nat
  | 0, t, _ => ([], t)
  | fuel + 1, t, s =>
      match iterStepNode t s with
      | (none, _) => ([], t)
      | (some x, s1) =>
          match policy with
          | true :: rest =>
              match iterDeleteOp t s1 with
              | (t2, s2) =>
                  match driveDel rest fuel t2 s2 with
                  | (vs, tfin) => (x :: vs, tfin)
          | false :: rest =>
              match driveDel rest fuel t s1 with
              | (vs, tfin) => (x :: vs, tfin)
          | [] =>
              match driveDel [] fuel t s1 with
              | (vs, tfin) => (x :: vs, tfin)

/-- The labels that survive a drive: those whose visit had policy `false`
(or fell past the end of the policy list). -/
def survivors : List Nat → List Bool → List Nat
  | [], _ => []
  | x :: xs, [] => x :: survivors xs []
  | x :: xs, b :: bs => if b then survivors xs bs else x :: survivors xs bs

/-- Comparators of the plain integer tree (`<` and `==` on values). -/
def intLt (a b : Int) : Bool := decide (a < b)

/-- Equality comparator of the plain integer tree. -/
def intEq (a b : Int) : Bool := a == b

/-- The public mutations of claim C1.  `iterDel p` is the iterator-scoped
`delete()` on the current node at path `p` (the iterator only ever deletes a
node present in the tree, hence the validity guard). -/
inductive Mutation : Type where
  | ins (v : Int) (multiset : Bool) : Mutation
  | ext (l : List Int) (multiset : Bool) : Mutation
  | rem (v : Int) : Mutation
  | popAt (i : Option Int) : Mutation
  | clear : Mutation
  | iterDel (p : Path) : Mutation

/-- Apply one public mutation. -/
def applyMut (t : RBNode Int) : Mutation → RBNode Int
  | .ins v ms => insert intLt intEq v ms t
  | .ext l ms => extend intLt intEq l ms t
  | .rem v => (remove intLt intEq t v).2
  | .popAt i => (pop t i).2
  | .clear => .leaf
  | .iterDel p =>
      match unzip t p with
      | some (.node .., _) => delete_node t p
      | _ => t

/-- Apply a sequence of public mutations to a tree. -/
def applyMuts (ms : List Mutation) (t : RBNode Int) : RBNode Int := ms.foldl applyMut t

/-- Invariants 1-8 as observable on the embedding, i.e. what `check()`
verifies: node colors are a `Bool` (inv. 1) and the sentinel is black by
definition of `rootBlack` (inv. 3); the root is black (inv. 2); no red node
has a red child (inv. 4); all root-to-leaf paths carry the same number of
black nodes (inv. 5); stored sizes are consistent, so `nnodes == len(self)`
(inv. 6 and the node-count assert); the parent-link traversal of `nodes()`
enumerates exactly the in-order values (inv. 7 as observable); the in-order
values are non-decreasing (inv. 8). -/
def invariantsHold (t : RBNode Int) : Prop :=
  rootBlack t = true ∧ redOk t = true ∧ (bh t).isSome ∧ sizeOk t = true ∧
    count t = len t ∧ iterList t = inorder t ∧ List.Sorted (· ≤ ·) (inorder t)

/-- `RBKeyValue` of the map view: a key with an associated value; ordering
and equality use the key only. -/
structure KV : Type where
  k : Int
  payload : Int
deriving DecidableEq, Repr

/-- `RBKeyValue.__lt__`: compare keys only. -/
def kvLt (a b : KV) : Bool := decide (a.k < b.k)

/-- `RBKeyValue.__eq__`: compare keys only. -/
def kvEq (a b : KV) : Bool := a.k == b.k

/-- `pyRBMap.__getitem__(key)` (integer key): `self.find(RBKeyValue(key)).v`;
`none` models the `AttributeError` on a missing key. -/
def mapGetitem (t : RBNode KV) (key : Int) : Option Int :=
  (findnode kvLt kvEq t ⟨key, 0⟩).map KV.payload

/-! ### Basic structural lemmas -/

@[simp] lemma len_leaf : len (.leaf : RBNode α) = 0 := rfl

@[simp] lemma len_node : len (.node b s l v r : RBNode α) = s := rfl

@[simp] lemma count_leaf : count (.leaf : RBNode α) = 0 := rfl

@[simp] lemma count_node : count (.node b s l v r : RBNode α) = count l + 1 + count r := rfl

@[simp] lemma inorder_leaf : inorder (.leaf : RBNode α) = [] := rfl

@[simp] lemma inorder_node :
    inorder (.node b s l v r : RBNode α) = inorder l ++ v :: inorder r := rfl

@[simp] lemma rootBlack_leaf : rootBlack (.leaf : RBNode α) = true := rfl

@[simp] lemma rootBlack_node : rootBlack (.node b s l v r : RBNode α) = b := rfl

@[simp] lemma sizeOk_leaf : sizeOk (.leaf : RBNode α) = true := rfl

@[simp] lemma sizeOk_node :
    sizeOk (.node b s l v r : RBNode α) =
      ((s == len l + 1 + len r) && sizeOk l && sizeOk r) := rfl

@[simp] lemma redOk_leaf : redOk (.leaf : RBNode α) = true := rfl

@[simp] lemma redOk_node :
    redOk (.node b s l v r : RBNode α) =
      ((b || (rootBlack l && rootBlack r)) && redOk l && redOk r) := rfl

@[simp] lemma bh_leaf : bh (.leaf : RBNode α) = some 1 := rfl

lemma bh_node :
    bh (.node b s l v r : RBNode α) =
      match bh l, bh r with
      | some m, some n => if m = n then some (m + (if b then 1 else 0)) else none
      | _, _ => none := rfl

@[simp] lemma blacken_leaf : blacken (.leaf : RBNode α) = .leaf := rfl

@[simp] lemma blacken_node :
    blacken (.node b s l v r : RBNode α) = .node true s l v r := rfl

@[simp] lemma inorder_blacken (t : RBNode α) : inorder (blacken t) = inorder t := by
  cases t <;> rfl

@[simp] lemma assemble_left (b : Bool) (s : Nat) (v : α) (o c : RBNode α) :
    assemble ⟨.left, b, s, v, o⟩ c = .node b s c v o := rfl

@[simp] lemma assemble_right (b : Bool) (s : Nat) (v : α) (o c : RBNode α) :
    assemble ⟨.right, b, s, v, o⟩ c = .node b s o v c := rfl

@[simp] lemma plug_nil (c : RBNode α) : plug c [] = c := rfl

@[simp] lemma plug_cons (c : RBNode α) (f : Frame α) (fs : Ctx α) :
    plug c (f :: fs) = plug (assemble f c) fs := rfl

lemma plug_append (c : RBNode α) (c₁ c₂ : Ctx α) :
    plug c (c₁ ++ c₂) = plug (plug c c₁) c₂ := by
  induction c₁ generalizing c with
  | nil => rfl
  | cons f fs ih => simp [plug_cons, ih]

@[simp] lemma inorder_rotate_left (t : RBNode α) : inorder (rotate_left t) = inorder t := by
  cases t with
  | leaf => rfl
  | node pb ps a v r =>
      cases r with
      | leaf => rfl
      | node cb cs b w c => simp [rotate_left]

@[simp] lemma inorder_rotate_right (t : RBNode α) : inorder (rotate_right t) = inorder t := by
  cases t with
  | leaf => rfl
  | node pb ps l v c =>
      cases l with
      | leaf => rfl
      | node cb cs a w b => simp [rotate_right]

/-- Values to the left of the hole once a context is plugged. -/
def ctxInL : Ctx α → List α
  | [] => []
  | f :: fs =>
      ctxInL fs ++ (match f.dir with | .left => [] | .right => inorder f.other ++ [f.value])

/-- Values to the right of the hole once a context is plugged. -/
def ctxInR : Ctx α → List α
  | [] => []
  | f :: fs =>
      (match f.dir with | .left => f.value :: inorder f.other | .right => []) ++ ctxInR fs

@[simp] lemma ctxInL_nil : ctxInL ([] : Ctx α) = [] := rfl

@[simp] lemma ctxInR_nil : ctxInR ([] : Ctx α) = [] := rfl

lemma ctxInL_cons (f : Frame α) (fs : Ctx α) :
    ctxInL (f :: fs) =
      ctxInL fs ++ (match f.dir with | .left => [] | .right => inorder f.other ++ [f.value]) := rfl

lemma ctxInR_cons (f : Frame α) (fs : Ctx α) :
    ctxInR (f :: fs) =
      (match f.dir with | .left => f.value :: inorder f.other | .right => []) ++ ctxInR fs := rfl

lemma inorder_assemble (f : Frame α) (c : RBNode α) :
    inorder (assemble f c) =
      (match f.dir with | .left => [] | .right => inorder f.other ++ [f.value]) ++
        inorder c ++
        (match f.dir with | .left => f.value :: inorder f.other | .right => []) := by
  obtain ⟨d, b, s, v, o⟩ := f
  cases d <;> simp

lemma inorder_plug (c : RBNode α) (ctx : Ctx α) :
    inorder (plug c ctx) = ctxInL ctx ++ inorder c ++ ctxInR ctx := by
  induction ctx generalizing c with
  | nil => simp
  | cons f fs ih =>
      simp only [plug_cons, ih, inorder_assemble, ctxInL_cons, ctxInR_cons]
      simp

lemma ctxInL_append (c₁ c₂ : Ctx α) : ctxInL (c₁ ++ c₂) = ctxInL c₂ ++ ctxInL c₁ := by
  induction c₁ with
  | nil => simp
  | cons f fs ih => simp [ctxInL_cons, ih]

lemma ctxInR_append (c₁ c₂ : Ctx α) : ctxInR (c₁ ++ c₂) = ctxInR c₁ ++ ctxInR c₂ := by
  induction c₁ with
  | nil => simp
  | cons f fs ih => simp [ctxInR_cons, ih]

/-- Plugging the same context: the surrounding value lists do not depend on
the plugged subtree, only on the context. -/
lemma inorder_plug_congr (c c' : RBNode α) (ctx : Ctx α) (h : inorder c = inorder c') :
    inorder (plug c ctx) = inorder (plug c' ctx) := by
  simp [inorder_plug, h]

/-! ### The fix-up cascades permute colors and rotate links only: the
in-order value sequence of the whole tree is untouched. -/

lemma inorder_insert_case5 (t : RBNode α) (ctx : Ctx α) :
    inorder (insert_case5 t ctx) = inorder (plug t ctx) := by
  match ctx with
  | [] => simp [insert_case5]
  | [f] => simp [insert_case5]
  | paF :: gpF :: rest =>
      obtain ⟨pd, pb, ps, pv, po⟩ := paF
      obtain ⟨gd, gb, gs, gv, go⟩ := gpF
      cases pd <;> cases gd <;>
        · simp only [insert_case5, assemble_left, assemble_right]
          cases po <;> cases go <;>
            simp [rotate_left, rotate_right, inorder_plug]

lemma inorder_insert_case4 (t : RBNode α) (ctx : Ctx α) :
    inorder (insert_case4 t ctx) = inorder (plug t ctx) := by
  match ctx with
  | [] => simp [insert_case4]
  | [f] => simp [insert_case4]
  | paF :: gpF :: rest =>
      obtain ⟨pd, pb, ps, pv, po⟩ := paF
      obtain ⟨gd, gb, gs, gv, go⟩ := gpF
      cases pd <;> cases gd <;>
        simp only [insert_case4, assemble_left, assemble_right]
      case left.left => exact inorder_insert_case5 ..
      case left.right =>
        cases t with
        | leaf => simp [rotate_right, inorder_insert_case5, inorder_plug]
        | node tb ts tl tv tr => simp [rotate_right, inorder_insert_case5, inorder_plug]
      case right.left =>
        cases t with
        | leaf => simp [rotate_left, inorder_insert_case5, inorder_plug]
        | node tb ts tl tv tr => simp [rotate_left, inorder_insert_case5, inorder_plug]
      case right.right => exact inorder_insert_case5 ..

lemma inorder_insert_case13 (n : Nat) :
    ∀ (t : RBNode α) (ctx : Ctx α), ctx.length ≤ n →
      inorder (insert_case3 t ctx) = inorder (plug t ctx) ∧
      inorder (insert_case1 t ctx) = inorder (plug t ctx) := by
  induction n with
  | zero =>
      intro t ctx h
      have : ctx = [] := List.length_eq_zero.mp (Nat.le_zero.mp h)
      subst this
      exact ⟨by simp [insert_case3], by simp [insert_case1]⟩
  | succ n ih =>
      intro t ctx h
      have h3 : inorder (insert_case3 t ctx) = inorder (plug t ctx) := by
        match ctx with
        | [] => simp [insert_case3]
        | [f] => simp [insert_case3]
        | paF :: gpF :: rest =>
            rw [insert_case3]
            match hu : gpF.other with
            | .node false us ul uv ur =>
                have hr : rest.length ≤ n := by
                  have := h; simp at this; omega
                rw [(ih _ rest hr).2]
                obtain ⟨pd, pb, ps, pv, po⟩ := paF
                obtain ⟨gd, gb, gs, gv, go⟩ := gpF
                simp only at hu
                subst hu
                cases pd <;> cases gd <;> simp [inorder_plug]
            | .leaf => exact inorder_insert_case4 ..
            | .node true us ul uv ur => exact inorder_insert_case4 ..
      refine ⟨h3, ?_⟩
      match ctx with
      | [] => simp [insert_case1]
      | f :: fs =>
          rw [insert_case1]
          by_cases hb : f.black
          · simp [hb]
          · simp only [hb, if_neg, Bool.false_eq_true, if_false]
            exact h3

lemma inorder_insert_case1 (t : RBNode α) (ctx : Ctx α) :
    inorder (insert_case1 t ctx) = inorder (plug t ctx) :=
  (inorder_insert_case13 ctx.length t ctx le_rfl).2

lemma inorder_delete_case6 (t : RBNode α) (ctx : Ctx α) :
    inorder (delete_case6 t ctx) = inorder (plug t ctx) := by
  match ctx with
  | [] => simp [delete_case6]
  | paF :: rest =>
      obtain ⟨pd, pb, ps, pv, po⟩ := paF
      match po with
      | .leaf => cases pd <;> simp [delete_case6]
      | .node sb ss sl sv sr =>
          cases pd with
          | left =>
              match sr with
              | .leaf => simp [delete_case6]
              | .node srb srs srl srv srr => simp [delete_case6, rotate_left, inorder_plug]
          | right =>
              match sl with
              | .leaf => simp [delete_case6]
              | .node slb sls sll slv slr => simp [delete_case6, rotate_right, inorder_plug]

lemma inorder_delete_case5 (t : RBNode α) (ctx : Ctx α) :
    inorder (delete_case5 t ctx) = inorder (plug t ctx) := by
  match ctx with
  | [] => simp [delete_case5]
  | paF :: rest =>
      obtain ⟨pd, pb, ps, pv, po⟩ := paF
      match po with
      | .leaf => simp [delete_case5, inorder_delete_case6]
      | .node sb ss sl sv sr =>
          cases pd with
          | left =>
              by_cases hc : (rootBlack sr && rootRed sl) = true
              · cases hsb : sb
                · simp [delete_case5, hsb, inorder_delete_case6]
                · match sl with
                  | .leaf => simp [rootRed, rootBlack] at hc
                  | .node slb sls sll slv slr =>
                      rw [delete_case5]
                      simp only [hsb, hc, if_true]
                      rw [inorder_delete_case6]
                      simp [inorder_plug, rotate_right]
              · cases hsb : sb <;> simp [delete_case5, hsb, hc, inorder_delete_case6]
          | right =>
              by_cases hc : (rootBlack sl && rootRed sr) = true
              · cases hsb : sb
                · simp [delete_case5, hsb, inorder_delete_case6]
                · match sr with
                  | .leaf => simp [rootRed, rootBlack] at hc
                  | .node srb srs srl srv srr =>
                      rw [delete_case5]
                      simp only [hsb, hc, if_true]
                      rw [inorder_delete_case6]
                      simp [inorder_plug, rotate_left]
              · cases hsb : sb <;> simp [delete_case5, hsb, hc, inorder_delete_case6]

lemma inorder_delete_case4 (t : RBNode α) (ctx : Ctx α) :
    inorder (delete_case4 t ctx) = inorder (plug t ctx) := by
  match ctx with
  | [] => simp [delete_case4, inorder_delete_case5]
  | paF :: rest =>
      obtain ⟨pd, pb, ps, pv, po⟩ := paF
      match po with
      | .leaf => simp [delete_case4, inorder_delete_case5]
      | .node sb ss sl sv sr =>
          by_cases hc : (!pb && sb && rootBlack sl && rootBlack sr) = true
          · rw [delete_case4]
            simp only [hc, if_true]
            cases pd <;> simp [inorder_plug]
          · simp [delete_case4, hc, inorder_delete_case5]

lemma inorder_delete_case23 (fuel : Nat) :
    (∀ (t : RBNode α) (ctx : Ctx α),
      inorder (delete_case2 fuel t ctx) = inorder (plug t ctx)) ∧
    (∀ (t : RBNode α) (ctx : Ctx α),
      inorder (delete_case3 fuel t ctx) = inorder (plug t ctx)) := by
  induction fuel with
  | zero =>
      have h2 : ∀ (t : RBNode α) (ctx : Ctx α),
          inorder (delete_case2 0 t ctx) = inorder (plug t ctx) := by
        intro t ctx; simp [delete_case2]
      refine ⟨h2, ?_⟩
      intro t ctx
      match ctx with
      | [] => simp [delete_case3]
      | paF :: rest =>
          obtain ⟨pd, pb, ps, pv, po⟩ := paF
          match po with
          | .leaf => simp [delete_case3]
          | .node sb ss sl sv sr =>
              by_cases hc : (pb && sb && rootBlack sl && rootBlack sr) = true
              · rw [delete_case3]
                simp only [hc, if_true]
                rw [h2]
                cases pd <;> simp [inorder_plug]
              · simp [delete_case3, hc, inorder_delete_case4]
  | succ fuel ih =>
      have h2 : ∀ (t : RBNode α) (ctx : Ctx α),
          inorder (delete_case2 (fuel + 1) t ctx) = inorder (plug t ctx) := by
        intro t ctx
        match ctx with
        | [] => simp [delete_case2]
        | paF :: rest =>
            obtain ⟨pd, pb, ps, pv, po⟩ := paF
            match po with
            | .leaf => simp [delete_case2, ih.2]
            | .node sbb ss sl sv sr =>
                cases sbb with
                | false =>
                    rw [delete_case2]
                    cases pd <;>
                      · rw [ih.2]
                        simp [inorder_plug]
                | true => simp [delete_case2, ih.2]
      refine ⟨h2, ?_⟩
      intro t ctx
      match ctx with
      | [] => simp [delete_case3]
      | paF :: rest =>
          obtain ⟨pd, pb, ps, pv, po⟩ := paF
          match po with
          | .leaf => simp [delete_case3]
          | .node sb ss sl sv sr =>
              by_cases hc : (pb && sb && rootBlack sl && rootBlack sr) = true
              · rw [delete_case3]
                simp only [hc, if_true]
                rw [h2]
                cases pd <;> simp [inorder_plug]
              · simp [delete_case3, hc, inorder_delete_case4]

lemma inorder_delete_case2 (fuel : Nat) (t : RBNode α) (ctx : Ctx α) :
    inorder (delete_case2 fuel t ctx) = inorder (plug t ctx) :=
  (inorder_delete_case23 fuel).1 t ctx

/-- The child that `_delete_node_with_one_child` splices up. -/
def pickChild : RBNode α → RBNode α
  | .leaf => .leaf
  | .node _ _ l _ r => match r with | .leaf => l | .node .. => r

lemma inorder_delete_one_child (t : RBNode α) (ctx : Ctx α) :
    inorder (delete_one_child t ctx) = inorder (plug (pickChild t) ctx) := by
  match t with
  | .leaf => simp [delete_one_child, pickChild]
  | .node b s l v r =>
      rw [delete_one_child.eq_def]
      simp only
      match b with
      | false => cases r <;> simp [pickChild]
      | true =>
          cases r with
          | leaf =>
              match hl : l with
              | .leaf => simp [inorder_delete_case2, pickChild]
              | .node false cs cl cv cr => simp [pickChild, inorder_plug]
              | .node true cs cl cv cr => simp [inorder_delete_case2, pickChild]
          | node rb rs rl rv rr =>
              match rb with
              | false => simp [pickChild, inorder_plug]
              | true => simp [inorder_delete_case2, pickChild]

/-! ### Paths, decompositions and their algebra -/

/-- The path from the root down to the hole of a context. -/
def ctxPath (ctx : Ctx α) : Path := (ctx.map Frame.dir).reverse

@[simp] lemma ctxPath_nil : ctxPath ([] : Ctx α) = [] := rfl

lemma ctxPath_cons (f : Frame α) (fs : Ctx α) :
    ctxPath (f :: fs) = ctxPath fs ++ [f.dir] := by
  simp [ctxPath]

lemma ctxPath_append (c₁ c₂ : Ctx α) :
    ctxPath (c₁ ++ c₂) = ctxPath c₂ ++ ctxPath c₁ := by
  simp [ctxPath]

lemma unzipGo_ctx (t : RBNode α) (p : Path) (ctx0 : Ctx α) :
    unzipGo t p ctx0 = (unzipGo t p []).map (fun x => (x.1, x.2 ++ ctx0)) := by
  induction p generalizing t ctx0 with
  | nil => simp [unzipGo]
  | cons d p ih =>
      cases t with
      | leaf => cases d <;> simp [unzipGo]
      | node b s l v r =>
          cases d with
          | left =>
              rw [unzipGo, ih, unzipGo, ih l [⟨.left, b, s, v, r⟩]]
              cases unzipGo l p [] <;> simp
          | right =>
              rw [unzipGo, ih, unzipGo, ih r [⟨.right, b, s, v, l⟩]]
              cases unzipGo r p [] <;> simp

lemma unzip_cons_left (b : Bool) (s : Nat) (l : RBNode α) (v : α) (r : RBNode α) (p : Path) :
    unzip (.node b s l v r) (.left :: p) =
      (unzip l p).map (fun x => (x.1, x.2 ++ [⟨.left, b, s, v, r⟩])) := by
  rw [unzip, unzipGo, unzipGo_ctx]; rfl

lemma unzip_cons_right (b : Bool) (s : Nat) (l : RBNode α) (v : α) (r : RBNode α) (p : Path) :
    unzip (.node b s l v r) (.right :: p) =
      (unzip r p).map (fun x => (x.1, x.2 ++ [⟨.right, b, s, v, l⟩])) := by
  rw [unzip, unzipGo, unzipGo_ctx]; rfl

@[simp] lemma unzip_nil (t : RBNode α) : unzip t [] = some (t, []) := by
  cases t <;> rfl

lemma unzip_plug {t : RBNode α} {p : Path} {sub : RBNode α} {ctx : Ctx α}
    (h : unzip t p = some (sub, ctx)) : plug sub ctx = t := by
  induction p generalizing t ctx with
  | nil =>
      rw [unzip_nil] at h
      obtain ⟨h1, h2⟩ := Prod.mk.injEq .. ▸ Option.some.injEq .. ▸ h
      rw [← h1, ← h2]
      rfl
  | cons d p ih =>
      cases t with
      | leaf => cases d <;> simp [unzip, unzipGo] at h
      | node b s l v r =>
          cases d with
          | left =>
              rw [unzip_cons_left] at h
              match hx : unzip l p with
              | none => rw [hx] at h; simp at h
              | some (sub', ctx') =>
                  rw [hx] at h
                  simp only [Option.map_some', Option.some.injEq, Prod.mk.injEq] at h
                  obtain ⟨h1, h2⟩ := h
                  subst h1
                  rw [← h2, plug_append, ih hx]
                  rfl
          | right =>
              rw [unzip_cons_right] at h
              match hx : unzip r p with
              | none => rw [hx] at h; simp at h
              | some (sub', ctx') =>
                  rw [hx] at h
                  simp only [Option.map_some', Option.some.injEq, Prod.mk.injEq] at h
                  obtain ⟨h1, h2⟩ := h
                  subst h1
                  rw [← h2, plug_append, ih hx]
                  rfl

lemma ctxPath_of_unzip {t : RBNode α} {p : Path} {sub : RBNode α} {ctx : Ctx α}
    (h : unzip t p = some (sub, ctx)) : ctxPath ctx = p := by
  induction p generalizing t sub ctx with
  | nil =>
      rw [unzip_nil] at h
      obtain ⟨_, h2⟩ := Prod.mk.injEq .. ▸ Option.some.injEq .. ▸ h
      rw [← h2]
      rfl
  | cons d p ih =>
      cases t with
      | leaf => cases d <;> simp [unzip, unzipGo] at h
      | node b s l v r =>
          cases d with
          | left =>
              rw [unzip_cons_left] at h
              match hx : unzip l p with
              | none => rw [hx] at h; simp at h
              | some (sub', ctx') =>
                  rw [hx] at h
                  simp only [Option.map_some', Option.some.injEq, Prod.mk.injEq] at h
                  rw [← h.2, ctxPath_append, ih hx]
                  rfl
          | right =>
              rw [unzip_cons_right] at h
              match hx : unzip r p with
              | none => rw [hx] at h; simp at h
              | some (sub', ctx') =>
                  rw [hx] at h
                  simp only [Option.map_some', Option.some.injEq, Prod.mk.injEq] at h
                  rw [← h.2, ctxPath_append, ih hx]
                  rfl

lemma unzipGo_append (t : RBNode α) (p q : Path) (ctx0 : Ctx α) :
    unzipGo t (p ++ q) ctx0 =
      match unzipGo t p ctx0 with
      | some x => unzipGo x.1 q x.2
      | none => none := by
  induction p generalizing t ctx0 with
  | nil => simp [unzipGo]
  | cons d p ih =>
      cases t with
      | leaf => cases d <;> simp [unzipGo]
      | node b s l v r => cases d <;> simp [unzipGo, ih]

lemma unzip_plug_self (Y : RBNode α) (ctx : Ctx α) :
    unzip (plug Y ctx) (ctxPath ctx) = some (Y, ctx) := by
  induction ctx generalizing Y with
  | nil => simp
  | cons f fs ih =>
      rw [ctxPath_cons, plug_cons, unzip, unzipGo_append]
      have := ih (Y := assemble f Y)
      rw [unzip] at this
      rw [this]
      obtain ⟨d, b, s, v, o⟩ := f
      cases d <;> simp [unzipGo]

lemma unzip_plug_append (Y : RBNode α) (ctx : Ctx α) (q : Path) :
    unzip (plug Y ctx) (ctxPath ctx ++ q) =
      (unzip Y q).map (fun x => (x.1, x.2 ++ ctx)) := by
  rw [unzip, unzipGo_append]
  have h := unzip_plug_self Y ctx
  rw [unzip] at h
  rw [h]
  simp only
  rw [unzipGo_ctx, unzip]

lemma setValueAt_of_unzip {t : RBNode α} {p : Path} {b : Bool} {s : Nat}
    {l : RBNode α} {v : α} {r : RBNode α} {ctx : Ctx α}
    (h : unzip t p = some (.node b s l v r, ctx)) (x : α) :
    setValueAt t p x = plug (.node b s l x r) ctx := by
  induction p generalizing t ctx with
  | nil =>
      rw [unzip_nil] at h
      obtain ⟨h1, h2⟩ := Prod.mk.injEq .. ▸ Option.some.injEq .. ▸ h
      rw [h1, ← h2]
      rfl
  | cons d p ih =>
      cases t with
      | leaf => cases d <;> simp [unzip, unzipGo] at h
      | node b' s' l' v' r' =>
          cases d with
          | left =>
              rw [unzip_cons_left] at h
              match hx : unzip l' p with
              | none => rw [hx] at h; simp at h
              | some (sub', ctx') =>
                  rw [hx] at h
                  simp only [Option.map_some', Option.some.injEq, Prod.mk.injEq] at h
                  obtain ⟨h1, h2⟩ := h
                  rw [setValueAt, ih (h1 ▸ hx), ← h2, plug_append]
                  rfl
          | right =>
              rw [unzip_cons_right] at h
              match hx : unzip r' p with
              | none => rw [hx] at h; simp at h
              | some (sub', ctx') =>
                  rw [hx] at h
                  simp only [Option.map_some', Option.some.injEq, Prod.mk.injEq] at h
                  obtain ⟨h1, h2⟩ := h
                  rw [setValueAt, ih (h1 ▸ hx), ← h2, plug_append]
                  rfl

lemma valueAt_of_unzip {t : RBNode α} {p : Path} {b : Bool} {s : Nat}
    {l : RBNode α} {v : α} {r : RBNode α} {ctx : Ctx α}
    (h : unzip t p = some (.node b s l v r, ctx)) :
    valueAt t p = some v := by
  induction p generalizing t ctx with
  | nil =>
      rw [unzip_nil] at h
      obtain ⟨h1, _⟩ := Prod.mk.injEq .. ▸ Option.some.injEq .. ▸ h
      rw [h1]
      rfl
  | cons d p ih =>
      cases t with
      | leaf => cases d <;> simp [unzip, unzipGo] at h
      | node b' s' l' v' r' =>
          cases d with
          | left =>
              rw [unzip_cons_left] at h
              match hx : unzip l' p with
              | none => rw [hx] at h; simp at h
              | some (sub', ctx') =>
                  rw [hx] at h
                  simp only [Option.map_some', Option.some.injEq, Prod.mk.injEq] at h
                  have := ih (h.1 ▸ hx)
                  rw [← this]
                  rfl
          | right =>
              rw [unzip_cons_right] at h
              match hx : unzip r' p with
              | none => rw [hx] at h; simp at h
              | some (sub', ctx') =>
                  rw [hx] at h
                  simp only [Option.map_some', Option.some.injEq, Prod.mk.injEq] at h
                  have := ih (h.1 ▸ hx)
                  rw [← this]
                  rfl

/-- Size decrement on a single frame (an ancestor on the deletion path). -/
def decFrame (f : Frame α) : Frame α := ⟨f.dir, f.black, f.size - 1, f.value, f.other⟩

/-- Size decrement on a whole ancestor chain. -/
def decCtx (ctx : Ctx α) : Ctx α := ctx.map decFrame

@[simp] lemma decCtx_nil : decCtx ([] : Ctx α) = [] := rfl

@[simp] lemma decCtx_cons (f : Frame α) (fs : Ctx α) :
    decCtx (f :: fs) = decFrame f :: decCtx fs := rfl

lemma decCtx_append (c₁ c₂ : Ctx α) : decCtx (c₁ ++ c₂) = decCtx c₁ ++ decCtx c₂ := by
  simp [decCtx]

@[simp] lemma ctxPath_decCtx (ctx : Ctx α) : ctxPath (decCtx ctx) = ctxPath ctx := by
  simp [ctxPath, decCtx, decFrame, Function.comp]

@[simp] lemma ctxInL_decCtx (ctx : Ctx α) : ctxInL (decCtx ctx) = ctxInL ctx := by
  induction ctx with
  | nil => rfl
  | cons f fs ih => simp [ctxInL_cons, ih, decFrame]

@[simp] lemma ctxInR_decCtx (ctx : Ctx α) : ctxInR (decCtx ctx) = ctxInR ctx := by
  induction ctx with
  | nil => rfl
  | cons f fs ih => simp [ctxInR_cons, ih, decFrame]

lemma decSizesAlong_assemble (f : Frame α) (Y : RBNode α) (q : Path) :
    decSizesAlong (assemble f Y) (f.dir :: q) =
      assemble (decFrame f) (decSizesAlong Y q) := by
  obtain ⟨d, b, s, v, o⟩ := f
  cases d <;> rfl

lemma decSizesAlong_plug (ctx : Ctx α) (q : Path) (Y : RBNode α) :
    decSizesAlong (plug Y ctx) (ctxPath ctx ++ q) =
      plug (decSizesAlong Y q) (decCtx ctx) := by
  induction ctx generalizing Y q with
  | nil => simp
  | cons f fs ih =>
      rw [ctxPath_cons, plug_cons, List.append_assoc, List.singleton_append]
      rw [ih (f.dir :: q) (assemble f Y)]
      rw [decSizesAlong_assemble]
      rfl

@[simp] lemma inorder_decSizesAlong (t : RBNode α) (p : Path) :
    inorder (decSizesAlong t p) = inorder t := by
  induction t generalizing p with
  | leaf => simp [decSizesAlong]
  | node b s l v r ihl ihr =>
      match p with
      | [] => simp [decSizesAlong]
      | .left :: p => simp [decSizesAlong, ihl]
      | .right :: p => simp [decSizesAlong, ihr]

/-- Decomposition at the rightmost node: the in-order maximum of an internal
tree, whose right child is the sentinel. -/
lemma unzip_rightSpine (b : Bool) (s : Nat) (l : RBNode α) (v : α) (r : RBNode α) :
    ∃ b' s' l' v' lctx, unzip (.node b s l v r) (rightSpine (.node b s l v r)) =
        some (.node b' s' l' v' .leaf, lctx) ∧
      ctxInR lctx = [] ∧
      ctxInL lctx ++ inorder l' ++ [v'] = inorder (.node b s l v r : RBNode α) := by
  induction r generalizing b s l v with
  | leaf =>
      refine ⟨b, s, l, v, [], ?_, rfl, by simp⟩
      have h0 : rightSpine (.node b s l v .leaf : RBNode α) = [] := rfl
      rw [h0, unzip_nil]
  | node rb rs rl rv rr ihl ihr =>
      obtain ⟨b', s', l', v', rctx, h1, h2, h3⟩ := ihr (b := rb) (s := rs) (l := rl) (v := rv)
      refine ⟨b', s', l', v', rctx ++ [⟨.right, b, s, v, l⟩], ?_, ?_, ?_⟩
      · have h0 : rightSpine (.node b s l v (.node rb rs rl rv rr) : RBNode α) =
            .right :: rightSpine (.node rb rs rl rv rr : RBNode α) := rfl
        rw [h0, unzip_cons_right, h1]
        rfl
      · simp [ctxInR_append, h2, ctxInR_cons]
      · rw [ctxInL_append]
        simp only [ctxInL_cons, ctxInL_nil, List.nil_append]
        rw [List.append_assoc, List.append_assoc]
        rw [show ctxInL rctx ++ (inorder l' ++ [v']) = inorder (.node rb rs rl rv rr : RBNode α) from by
          rw [← h3]; simp]
        simp

/-- Decomposition at the leftmost node: the in-order minimum of an internal
tree, whose left child is the sentinel. -/
lemma unzip_leftSpine (b : Bool) (s : Nat) (l : RBNode α) (v : α) (r : RBNode α) :
    ∃ b' s' r' v' rctx, unzip (.node b s l v r) (leftSpine (.node b s l v r)) =
        some (.node b' s' .leaf v' r', rctx) ∧
      ctxInL rctx = [] ∧
      v' :: inorder r' ++ ctxInR rctx = inorder (.node b s l v r : RBNode α) := by
  induction l generalizing b s r v with
  | leaf =>
      refine ⟨b, s, r, v, [], ?_, rfl, by simp⟩
      have h0 : leftSpine (.node b s .leaf v r : RBNode α) = [] := rfl
      rw [h0, unzip_nil]
  | node lb ls ll lv lr ihl ihr =>
      obtain ⟨b', s', r', v', lctx, h1, h2, h3⟩ := ihl (b := lb) (s := ls) (r := lr) (v := lv)
      refine ⟨b', s', r', v', lctx ++ [⟨.left, b, s, v, r⟩], ?_, ?_, ?_⟩
      · have h0 : leftSpine (.node b s (.node lb ls ll lv lr) v r : RBNode α) =
            .left :: leftSpine (.node lb ls ll lv lr : RBNode α) := rfl
        rw [h0, unzip_cons_left, h1]
        rfl
      · simp [ctxInL_append, h2, ctxInL_cons]
      · rw [ctxInR_append]
        simp only [ctxInR_cons, ctxInR_nil, List.append_nil]
        have h3' : v' :: (inorder r' ++ ctxInR lctx) =
            inorder (.node lb ls ll lv lr : RBNode α) := by
          rw [← h3]; simp
        simp only [inorder_node]
        rw [List.append_assoc, List.cons_append, ← List.append_assoc, ← List.cons_append, h3']
        simp

lemma valueAt_assemble (f : Frame α) (Y : RBNode α) (q : Path) :
    valueAt (assemble f Y) (f.dir :: q) = valueAt Y q := by
  obtain ⟨d, b, s, v, o⟩ := f
  cases d <;> rfl

lemma valueAt_plug_append (ctx : Ctx α) (q : Path) (Y : RBNode α) :
    valueAt (plug Y ctx) (ctxPath ctx ++ q) = valueAt Y q := by
  induction ctx generalizing Y q with
  | nil => simp
  | cons f fs ih =>
      rw [ctxPath_cons, plug_cons, List.append_assoc, List.singleton_append]
      rw [ih (f.dir :: q) (assemble f Y)]
      exact valueAt_assemble ..

/-! ### `_delete_node` decomposed: the three shapes of the target -/

/-- `_delete_node` when the target has both children sentinels: it is its own
adjacent node; no swap, sizes decremented along its ancestor chain, then the
splice. -/
lemma delete_node_caseC {t : RBNode α} {p : Path} {b : Bool} {s : Nat} {v : α}
    {ctxT : Ctx α}
    (hu : unzip t p = some (.node b s .leaf v .leaf, ctxT)) :
    delete_node t p = delete_one_child (.node b (s - 1) .leaf v .leaf) (decCtx ctxT) := by
  have hplug := unzip_plug hu
  have hpath := ctxPath_of_unzip hu
  have hval := valueAt_of_unzip hu
  have hadj : adjacentSub (.node b s .leaf v .leaf : RBNode α) = [] := rfl
  have hsv : setValueAt t p v = t := by
    rw [setValueAt_of_unzip hu v, hplug]
  have hswap : swapValuesAt t p p = t := by
    rw [swapValuesAt, hval]
    exact (by rw [hsv, hsv] : setValueAt (setValueAt t p v) p v = t)
  have hdec : decSizesAlong t p = plug (.node b (s - 1) .leaf v .leaf) (decCtx ctxT) := by
    conv =>
      lhs
      rw [← hplug, ← hpath, show ctxPath ctxT = ctxPath ctxT ++ [] by simp]
    rw [decSizesAlong_plug]
    rfl
  rw [delete_node, hu]
  simp only [hadj, List.append_nil]
  rw [hswap, hdec]
  rw [show (p : Path) = ctxPath (decCtx ctxT) by rw [ctxPath_decCtx, hpath]]
  rw [unzip_plug_self]

/-- `_delete_node` when the target has an internal left child: the adjacent
node is the in-order predecessor (maximum of the left subtree); the two nodes
swap, sizes are decremented down to the predecessor's position, and the
predecessor's old position is spliced. -/
lemma delete_node_caseA {t : RBNode α} {p : Path} {b : Bool} {s ls : Nat}
    {lb : Bool} {ll lr r : RBNode α} {v lv : α} {ctxT : Ctx α}
    (hu : unzip t p = some (.node b s (.node lb ls ll lv lr) v r, ctxT)) :
    ∃ (b' : Bool) (s' : Nat) (l' : RBNode α) (m : α) (lctx : Ctx α),
      ctxInR lctx = [] ∧
      ctxInL lctx ++ inorder l' ++ [m] = inorder (.node lb ls ll lv lr : RBNode α) ∧
      unzip (setValueAt t p m) (p ++ .left :: rightSpine (.node lb ls ll lv lr : RBNode α)) =
        some (.node b' s' l' m .leaf, (lctx ++ [⟨.left, b, s, m, r⟩]) ++ ctxT) ∧
      delete_node t p =
        delete_one_child (.node b' (s' - 1) l' v .leaf)
          (decCtx (lctx ++ [⟨.left, b, s, m, r⟩] ++ ctxT)) := by
  obtain ⟨b', s', l', m, lctx, hL, h2, h3⟩ := unzip_rightSpine lb ls ll lv lr
  refine ⟨b', s', l', m, lctx, h2, h3, ?_, ?_⟩
  case _ =>
    rw [setValueAt_of_unzip hu m, ← ctxPath_of_unzip hu, unzip_plug_append, unzip_cons_left, hL]
    rfl
  have hplug := unzip_plug hu
  have hpath := ctxPath_of_unzip hu
  have hval := valueAt_of_unzip hu
  have hLpath := ctxPath_of_unzip hL
  have hadj : adjacentSub (.node b s (.node lb ls ll lv lr) v r : RBNode α) =
      .left :: rightSpine (.node lb ls ll lv lr : RBNode α) := rfl
  set qrel : Path := .left :: rightSpine (.node lb ls ll lv lr : RBNode α) with hqrel
  have hvq : valueAt t (p ++ qrel) = some m := by
    rw [← hplug, ← hpath, valueAt_plug_append, hqrel]
    show valueAt (.node lb ls ll lv lr : RBNode α)
      (rightSpine (.node lb ls ll lv lr : RBNode α)) = some m
    exact valueAt_of_unzip hL
  have hT1 : setValueAt t p m =
      plug (.node b s (.node lb ls ll lv lr) m r) ctxT := setValueAt_of_unzip hu m
  have hu2 : unzip (plug (.node b s (.node lb ls ll lv lr) m r) ctxT) (p ++ qrel) =
      some (.node b' s' l' m .leaf, (lctx ++ [⟨.left, b, s, m, r⟩]) ++ ctxT) := by
    rw [← hpath, unzip_plug_append, hqrel, unzip_cons_left, hL]
    rfl
  have hT2 : swapValuesAt t p (p ++ qrel) =
      plug (.node b' s' l' v .leaf) ((lctx ++ [⟨.left, b, s, m, r⟩]) ++ ctxT) := by
    rw [swapValuesAt, hval, hvq]
    exact (by rw [hT1, setValueAt_of_unzip hu2] :
      setValueAt (setValueAt t p m) (p ++ qrel) v =
        plug (.node b' s' l' v .leaf) ((lctx ++ [⟨.left, b, s, m, r⟩]) ++ ctxT))
  have hctxpath : ctxPath ((lctx ++ [⟨.left, b, s, m, r⟩]) ++ ctxT) = p ++ qrel := by
    rw [ctxPath_append, ctxPath_append, hpath, hLpath]
    simp [ctxPath, hqrel]
  have hdec : decSizesAlong (swapValuesAt t p (p ++ qrel)) (p ++ qrel) =
      plug (.node b' (s' - 1) l' v .leaf)
        (decCtx ((lctx ++ [⟨.left, b, s, m, r⟩]) ++ ctxT)) := by
    rw [hT2, ← hctxpath, show ctxPath ((lctx ++ [⟨.left, b, s, m, r⟩]) ++ ctxT) =
      ctxPath ((lctx ++ [⟨.left, b, s, m, r⟩]) ++ ctxT) ++ [] by simp, decSizesAlong_plug]
    rfl
  rw [delete_node, hu]
  simp only [hadj, ← hqrel, hdec]
  rw [show (p ++ qrel : Path) = ctxPath (decCtx ((lctx ++ [⟨.left, b, s, m, r⟩]) ++ ctxT)) by
    rw [ctxPath_decCtx, hctxpath]]
  rw [unzip_plug_self]

/-- `_delete_node` when the target's left child is a sentinel but its right
child is internal: the adjacent node is the in-order successor (minimum of
the right subtree). -/
lemma delete_node_caseB {t : RBNode α} {p : Path} {b : Bool} {s rs : Nat}
    {rb : Bool} {rl rr : RBNode α} {v rv : α} {ctxT : Ctx α}
    (hu : unzip t p = some (.node b s .leaf v (.node rb rs rl rv rr), ctxT)) :
    ∃ (b' : Bool) (s' : Nat) (r' : RBNode α) (m : α) (rctx : Ctx α),
      ctxInL rctx = [] ∧
      m :: inorder r' ++ ctxInR rctx = inorder (.node rb rs rl rv rr : RBNode α) ∧
      unzip (setValueAt t p m) (p ++ .right :: leftSpine (.node rb rs rl rv rr : RBNode α)) =
        some (.node b' s' .leaf m r', (rctx ++ [⟨.right, b, s, m, .leaf⟩]) ++ ctxT) ∧
      delete_node t p =
        delete_one_child (.node b' (s' - 1) .leaf v r')
          (decCtx (rctx ++ [⟨.right, b, s, m, .leaf⟩] ++ ctxT)) := by
  obtain ⟨b', s', r', m, rctx, hR, h2, h3⟩ := unzip_leftSpine rb rs rl rv rr
  refine ⟨b', s', r', m, rctx, h2, h3, ?_, ?_⟩
  case _ =>
    rw [setValueAt_of_unzip hu m, ← ctxPath_of_unzip hu, unzip_plug_append, unzip_cons_right, hR]
    rfl
  have hplug := unzip_plug hu
  have hpath := ctxPath_of_unzip hu
  have hval := valueAt_of_unzip hu
  have hRpath := ctxPath_of_unzip hR
  have hadj : adjacentSub (.node b s .leaf v (.node rb rs rl rv rr) : RBNode α) =
      .right :: leftSpine (.node rb rs rl rv rr : RBNode α) := rfl
  set qrel : Path := .right :: leftSpine (.node rb rs rl rv rr : RBNode α) with hqrel
  have hvq : valueAt t (p ++ qrel) = some m := by
    rw [← hplug, ← hpath, valueAt_plug_append, hqrel]
    show valueAt (.node rb rs rl rv rr : RBNode α)
      (leftSpine (.node rb rs rl rv rr : RBNode α)) = some m
    exact valueAt_of_unzip hR
  have hT1 : setValueAt t p m =
      plug (.node b s .leaf m (.node rb rs rl rv rr)) ctxT := setValueAt_of_unzip hu m
  have hu2 : unzip (plug (.node b s .leaf m (.node rb rs rl rv rr)) ctxT) (p ++ qrel) =
      some (.node b' s' .leaf m r', (rctx ++ [⟨.right, b, s, m, .leaf⟩]) ++ ctxT) := by
    rw [← hpath, unzip_plug_append, hqrel, unzip_cons_right, hR]
    rfl
  have hT2 : swapValuesAt t p (p ++ qrel) =
      plug (.node b' s' .leaf v r') ((rctx ++ [⟨.right, b, s, m, .leaf⟩]) ++ ctxT) := by
    rw [swapValuesAt, hval, hvq]
    exact (by rw [hT1, setValueAt_of_unzip hu2] :
      setValueAt (setValueAt t p m) (p ++ qrel) v =
        plug (.node b' s' .leaf v r') ((rctx ++ [⟨.right, b, s, m, .leaf⟩]) ++ ctxT))
  have hctxpath : ctxPath ((rctx ++ [⟨.right, b, s, m, .leaf⟩]) ++ ctxT) = p ++ qrel := by
    rw [ctxPath_append, ctxPath_append, hpath, hRpath]
    simp [ctxPath, hqrel]
  have hdec : decSizesAlong (swapValuesAt t p (p ++ qrel)) (p ++ qrel) =
      plug (.node b' (s' - 1) .leaf v r')
        (decCtx ((rctx ++ [⟨.right, b, s, m, .leaf⟩]) ++ ctxT)) := by
    rw [hT2, ← hctxpath, show ctxPath ((rctx ++ [⟨.right, b, s, m, .leaf⟩]) ++ ctxT) =
      ctxPath ((rctx ++ [⟨.right, b, s, m, .leaf⟩]) ++ ctxT) ++ [] by simp, decSizesAlong_plug]
    rfl
  rw [delete_node, hu]
  simp only [hadj, ← hqrel, hdec]
  rw [show (p ++ qrel : Path) = ctxPath (decCtx ((rctx ++ [⟨.right, b, s, m, .leaf⟩]) ++ ctxT)) by
    rw [ctxPath_decCtx, hctxpath]]
  rw [unzip_plug_self]

lemma pickChild_left_leaf (b : Bool) (s : Nat) (v : α) (r : RBNode α) :
    pickChild (.node b s .leaf v r) = r := by
  cases r <;> rfl

/-- `_delete_node` removes exactly the target's value from the in-order
sequence: everything before the target and everything after it is kept. -/
theorem inorder_delete_node {t : RBNode α} {p : Path} {b : Bool} {s : Nat}
    {l : RBNode α} {v : α} {r : RBNode α} {ctxT : Ctx α}
    (hu : unzip t p = some (.node b s l v r, ctxT)) :
    inorder (delete_node t p) =
      ctxInL ctxT ++ inorder l ++ inorder r ++ ctxInR ctxT := by
  match l, r with
  | .leaf, .leaf =>
      rw [delete_node_caseC hu, inorder_delete_one_child]
      have : pickChild (.node b (s - 1) .leaf v .leaf : RBNode α) = .leaf := rfl
      rw [this, inorder_plug]
      simp
  | .node lb ls ll lv lr, _ =>
      obtain ⟨b', s', l', m, lctx, h2, h3, hu2, heq⟩ := delete_node_caseA hu
      rw [heq, inorder_delete_one_child]
      have : pickChild (.node b' (s' - 1) l' v .leaf : RBNode α) = l' := by
        cases l' <;> rfl
      rw [this, inorder_plug]
      rw [← h3]
      simp [ctxInL_append, ctxInR_append, ctxInL_cons, ctxInR_cons, h2]
  | .leaf, .node rb rs rl rv rr =>
      obtain ⟨b', s', r', m, rctx, h2, h3, hu2, heq⟩ := delete_node_caseB hu
      rw [heq, inorder_delete_one_child, pickChild_left_leaf, inorder_plug]
      rw [← h3]
      simp [ctxInL_append, ctxInR_append, ctxInL_cons, ctxInR_cons, h2]

/-- The in-order sequence after `_delete_node` is a sublist of the original
one (needed for sortedness preservation). -/
lemma inorder_delete_node_sublist {t : RBNode α} {p : Path} {b : Bool} {s : Nat}
    {l : RBNode α} {v : α} {r : RBNode α} {ctxT : Ctx α}
    (hu : unzip t p = some (.node b s l v r, ctxT)) :
    List.Sublist (inorder (delete_node t p)) (inorder t) := by
  rw [inorder_delete_node hu, ← unzip_plug hu, inorder_plug]
  simp only [inorder_node]
  have h0 : List.Sublist (inorder r ++ ctxInR ctxT) (v :: inorder r ++ ctxInR ctxT) :=
    (List.sublist_cons_self v (inorder r)).append_right _
  have h2 := (h0.append_left (inorder l)).append_left (ctxInL ctxT)
  simp only [List.append_assoc]
  exact h2

/-! ### Invariant 6: stored sizes through the fix-ups -/

/-- Size consistency of an ancestor chain around a hole of stored length
`n`: every frame's stored size is `1 + hole + other`, and the other child's
sizes are consistent. -/
def ctxSizeOk : Ctx α → Nat → Prop
  | [], _ => True
  | f :: fs, n => f.size = n + 1 + len f.other ∧ sizeOk f.other = true ∧ ctxSizeOk fs f.size

lemma sizeOk_node_iff {b : Bool} {s : Nat} {l : RBNode α} {v : α} {r : RBNode α} :
    sizeOk (.node b s l v r : RBNode α) = true ↔
      s = len l + 1 + len r ∧ sizeOk l = true ∧ sizeOk r = true := by
  simp [Bool.and_assoc]

lemma plug_sizeOk {c : RBNode α} {ctx : Ctx α} (hc : sizeOk c = true)
    (hctx : ctxSizeOk ctx (len c)) : sizeOk (plug c ctx) = true := by
  induction ctx generalizing c with
  | nil => exact hc
  | cons f fs ih =>
      obtain ⟨d, fb, fsz, fv, fo⟩ := f
      obtain ⟨h1, h2, h3⟩ := hctx
      simp only at h1 h2 h3
      rw [plug_cons]
      cases d with
      | left =>
          refine ih ?_ (by simp only [assemble_left, len_node]; exact h3)
          rw [assemble_left, sizeOk_node_iff]
          exact ⟨by omega, hc, h2⟩
      | right =>
          refine ih ?_ (by simp only [assemble_right, len_node]; exact h3)
          rw [assemble_right, sizeOk_node_iff]
          exact ⟨by omega, h2, hc⟩

lemma len_eq_count {t : RBNode α} (h : sizeOk t = true) : len t = count t := by
  induction t with
  | leaf => rfl
  | node b s l v r ihl ihr =>
      rw [sizeOk_node_iff] at h
      simp [h.1, ihl h.2.1, ihr h.2.2]

lemma sizeOk_rotate_left {t : RBNode α} (h : sizeOk t = true) :
    sizeOk (rotate_left t) = true ∧ len (rotate_left t) = len t := by
  match t with
  | .leaf => exact ⟨h, rfl⟩
  | .node pb ps a v .leaf => exact ⟨h, rfl⟩
  | .node pb ps a v (.node cb cs b' w c) =>
      rw [sizeOk_node_iff] at h
      obtain ⟨h1, h2, h3⟩ := h
      rw [sizeOk_node_iff] at h3
      rw [rotate_left]
      refine ⟨?_, ?_⟩
      · rw [sizeOk_node_iff]
        exact ⟨rfl, by rw [sizeOk_node_iff]; exact ⟨rfl, h2, h3.2.1⟩, h3.2.2⟩
      · simp only [len_node] at h1 ⊢
        omega

lemma sizeOk_rotate_right {t : RBNode α} (h : sizeOk t = true) :
    sizeOk (rotate_right t) = true ∧ len (rotate_right t) = len t := by
  match t with
  | .leaf => exact ⟨h, rfl⟩
  | .node pb ps .leaf v c => exact ⟨h, rfl⟩
  | .node pb ps (.node cb cs a w b') v c =>
      rw [sizeOk_node_iff] at h
      obtain ⟨h1, h2, h3⟩ := h
      rw [sizeOk_node_iff] at h2
      rw [rotate_right]
      refine ⟨?_, ?_⟩
      · rw [sizeOk_node_iff]
        exact ⟨rfl, h2.2.1, by rw [sizeOk_node_iff]; exact ⟨rfl, h2.2.2, h3⟩⟩
      · simp only [len_node] at h1 ⊢
        omega

lemma ctxSizeOk_bumpSizes {ctx : Ctx α} {n : Nat} (h : ctxSizeOk ctx n) :
    ctxSizeOk (bumpSizes ctx) (n + 1) := by
  induction ctx generalizing n with
  | nil => trivial
  | cons f fs ih =>
      obtain ⟨h1, h2, h3⟩ := h
      refine ⟨?_, ?_, ?_⟩
      · show f.size + 1 = (n + 1) + 1 + len f.other
        omega
      · exact h2
      · exact ih h3

lemma ctxSizeOk_cons {d : Dir} {b : Bool} {sz : Nat} {v : α} {o : RBNode α}
    {fs : Ctx α} {n : Nat} (h1 : sz = n + 1 + len o) (h2 : sizeOk o = true)
    (h3 : ctxSizeOk fs sz) : ctxSizeOk (⟨d, b, sz, v, o⟩ :: fs) n := ⟨h1, h2, h3⟩

lemma sizeOk_insert_case5 {t : RBNode α} {ctx : Ctx α} (hc : sizeOk t = true)
    (hctx : ctxSizeOk ctx (len t)) : sizeOk (insert_case5 t ctx) = true := by
  match ctx with
  | [] => exact plug_sizeOk hc hctx
  | [f] => exact plug_sizeOk hc hctx
  | paF :: gpF :: rest =>
      obtain ⟨pd, pb0, psz, pvv, poo⟩ := paF
      obtain ⟨gd, gb0, gsz, gvv, goo⟩ := gpF
      obtain ⟨hp1, hp2, hp3⟩ := hctx
      obtain ⟨hg1, hg2, hg3⟩ := hp3
      simp only at hp1 hp2 hg1 hg2 hg3
      rw [insert_case5]
      simp only
      have hpaT : sizeOk (assemble ⟨pd, true, psz, pvv, poo⟩ t) = true ∧
          len (assemble ⟨pd, true, psz, pvv, poo⟩ t) = psz := by
        cases pd with
        | left => rw [assemble_left, sizeOk_node_iff]; exact ⟨⟨by omega, hc, hp2⟩, rfl⟩
        | right => rw [assemble_right, sizeOk_node_iff]; exact ⟨⟨by omega, hp2, hc⟩, rfl⟩
      have hgpT : sizeOk (assemble ⟨gd, false, gsz, gvv, goo⟩
            (assemble ⟨pd, true, psz, pvv, poo⟩ t)) = true ∧
          len (assemble ⟨gd, false, gsz, gvv, goo⟩
            (assemble ⟨pd, true, psz, pvv, poo⟩ t)) = gsz := by
        cases gd with
        | left =>
            rw [assemble_left, sizeOk_node_iff]
            exact ⟨⟨by rw [hpaT.2]; omega, hpaT.1, hg2⟩, rfl⟩
        | right =>
            rw [assemble_right, sizeOk_node_iff]
            exact ⟨⟨by rw [hpaT.2]; omega, hg2, hpaT.1⟩, rfl⟩
      cases pd with
      | left =>
          have hr := sizeOk_rotate_right hgpT.1
          exact plug_sizeOk hr.1 (by rw [hr.2, hgpT.2]; exact hg3)
      | right =>
          have hr := sizeOk_rotate_left hgpT.1
          exact plug_sizeOk hr.1 (by rw [hr.2, hgpT.2]; exact hg3)

lemma rotate_left_ne_leaf (b : Bool) (s : Nat) (l : RBNode α) (v : α) (r : RBNode α) :
    rotate_left (.node b s l v r) ≠ .leaf := by
  cases r <;> simp [rotate_left]

lemma rotate_right_ne_leaf (b : Bool) (s : Nat) (l : RBNode α) (v : α) (r : RBNode α) :
    rotate_right (.node b s l v r) ≠ .leaf := by
  cases l <;> simp [rotate_right]

lemma sizeOk_insert_case4 {t : RBNode α} {ctx : Ctx α} (hc : sizeOk t = true)
    (hctx : ctxSizeOk ctx (len t)) : sizeOk (insert_case4 t ctx) = true := by
  match ctx with
  | [] => exact plug_sizeOk hc hctx
  | [f] => exact plug_sizeOk hc hctx
  | paF :: gpF :: rest =>
      obtain ⟨pd, pb0, psz, pvv, poo⟩ := paF
      obtain ⟨gd, gb0, gsz, gvv, goo⟩ := gpF
      obtain ⟨hp1, hp2, hp3⟩ := hctx
      obtain ⟨hg1, hg2, hg3⟩ := hp3
      simp only at hp1 hp2 hg1 hg2 hg3
      rw [insert_case4]
      simp only
      cases pd with
      | left =>
          cases gd with
          | left =>
              exact sizeOk_insert_case5 hc ⟨hp1, hp2, hg1, hg2, hg3⟩
          | right =>
              have hpa : sizeOk (assemble ⟨.left, pb0, psz, pvv, poo⟩ t) = true ∧
                  len (assemble ⟨.left, pb0, psz, pvv, poo⟩ t) = psz := by
                rw [assemble_left, sizeOk_node_iff]
                exact ⟨⟨by omega, hc, hp2⟩, rfl⟩
              have hr := sizeOk_rotate_right hpa.1
              match hrot : rotate_right (assemble ⟨.left, pb0, psz, pvv, poo⟩ t) with
              | .leaf => exact absurd hrot (by rw [assemble_left]; exact rotate_right_ne_leaf _ _ _ _ _)
              | .node cb cs cl cv cr =>
                  rw [hrot] at hr
                  rw [sizeOk_node_iff] at hr
                  obtain ⟨⟨hcs, hcl, hcr⟩, hlen⟩ := hr
                  refine sizeOk_insert_case5 hcr ⟨?_, hcl, ?_, hg2, hg3⟩
                  · simp only [len_node] at hlen ⊢
                    omega
                  · simp only [len_node] at hlen ⊢
                    omega
      | right =>
          cases gd with
          | left =>
              have hpa : sizeOk (assemble ⟨.right, pb0, psz, pvv, poo⟩ t) = true ∧
                  len (assemble ⟨.right, pb0, psz, pvv, poo⟩ t) = psz := by
                rw [assemble_right, sizeOk_node_iff]
                exact ⟨⟨by omega, hp2, hc⟩, rfl⟩
              have hr := sizeOk_rotate_left hpa.1
              match hrot : rotate_left (assemble ⟨.right, pb0, psz, pvv, poo⟩ t) with
              | .leaf => exact absurd hrot (by rw [assemble_right]; exact rotate_left_ne_leaf _ _ _ _ _)
              | .node cb cs cl cv cr =>
                  rw [hrot] at hr
                  rw [sizeOk_node_iff] at hr
                  obtain ⟨⟨hcs, hcl, hcr⟩, hlen⟩ := hr
                  refine sizeOk_insert_case5 hcl ⟨?_, hcr, ?_, hg2, hg3⟩
                  · simp only [len_node] at hlen ⊢
                    omega
                  · simp only [len_node] at hlen ⊢
                    omega
          | right =>
              exact sizeOk_insert_case5 hc ⟨hp1, hp2, hg1, hg2, hg3⟩

lemma sizeOk_insert_case13 (n : Nat) :
    (∀ (t : RBNode α) (ctx : Ctx α), ctx.length ≤ n → sizeOk t = true →
      ctxSizeOk ctx (len t) → sizeOk (insert_case3 t ctx) = true) ∧
    (∀ (t : RBNode α) (ctx : Ctx α), ctx.length ≤ n → sizeOk t = true →
      ctxSizeOk ctx (len t) → sizeOk (insert_case1 t ctx) = true) := by
  induction n with
  | zero =>
      constructor <;>
        · intro t ctx hlen hc hctx
          have : ctx = [] := List.length_eq_zero.mp (Nat.le_zero.mp hlen)
          subst this
          first
          | exact (by simpa [insert_case3] using plug_sizeOk hc hctx)
          | · rw [insert_case1]
              cases t <;> simpa using hc
  | succ n ih =>
      have h3 : ∀ (t : RBNode α) (ctx : Ctx α), ctx.length ≤ n + 1 → sizeOk t = true →
          ctxSizeOk ctx (len t) → sizeOk (insert_case3 t ctx) = true := by
        intro t ctx hlen hc hctx
        match ctx with
        | [] => exact (by simpa [insert_case3] using plug_sizeOk hc hctx)
        | [f] => exact (by simpa [insert_case3] using plug_sizeOk hc hctx)
        | paF :: gpF :: rest =>
            rw [insert_case3]
            match hu : gpF.other with
            | .node false us ul uv ur =>
                obtain ⟨hp1, hp2, hp3⟩ := hctx
                obtain ⟨hg1, hg2, hg3⟩ := hp3
                have hrest : rest.length ≤ n := by simp at hlen; omega
                obtain ⟨pd, pb0, psz, pvv, poo⟩ := paF
                obtain ⟨gd, gb0, gsz, gvv, goo⟩ := gpF
                simp only at hp1 hp2 hg1 hg2 hg3 hu
                subst hu
                rw [sizeOk_node_iff] at hg2
                obtain ⟨hu1, hu2, hu3⟩ := hg2
                simp only [len_node] at hg1
                refine (ih.2) _ rest hrest ?_ ?_
                · cases pd <;> cases gd <;>
                    · simp only [assemble_left, assemble_right]
                      rw [sizeOk_node_iff]
                      refine ⟨by simp only [len_node]; omega, ?_, ?_⟩ <;>
                        first
                        | (rw [sizeOk_node_iff]
                           exact ⟨hp1, hc, hp2⟩)
                        | (rw [sizeOk_node_iff]
                           exact ⟨by omega, hp2, hc⟩)
                        | (rw [sizeOk_node_iff]
                           exact ⟨hu1, hu2, hu3⟩)
                · cases pd <;> cases gd <;>
                    · simp only [assemble_left, assemble_right, len_node]
                      exact hg3
            | .leaf => exact sizeOk_insert_case4 hc hctx
            | .node true us ul uv ur => exact sizeOk_insert_case4 hc hctx
      refine ⟨h3, ?_⟩
      intro t ctx hlen hc hctx
      match ctx with
      | [] =>
          rw [insert_case1]
          cases t <;> simpa using hc
      | f :: fs =>
          rw [insert_case1]
          by_cases hb : f.black
          · simp only [hb, if_true]
            exact plug_sizeOk hc hctx
          · simp only [hb, Bool.false_eq_true, if_false]
            exact h3 t (f :: fs) hlen hc hctx

lemma sizeOk_insert_case1 {t : RBNode α} {ctx : Ctx α} (hc : sizeOk t = true)
    (hctx : ctxSizeOk ctx (len t)) : sizeOk (insert_case1 t ctx) = true :=
  (sizeOk_insert_case13 ctx.length).2 t ctx le_rfl hc hctx

lemma sizeOk_insertGo (lt eq : α → α → Bool) (item : α) (ms : Bool)
    {t : RBNode α} {ctx : Ctx α} (hc : sizeOk t = true)
    (hctx : ctxSizeOk ctx (len t)) :
    sizeOk (insertGo lt eq item ms t ctx) = true := by
  induction t generalizing ctx with
  | leaf => rw [insertGo.eq_def]; exact plug_sizeOk hc hctx
  | node b s l v r ihl ihr =>
      obtain ⟨hs, hcl, hcr⟩ := sizeOk_node_iff.mp hc
      rw [insertGo.eq_def]
      simp only
      by_cases heq : (!ms && eq item v) = true
      · simp only [heq, if_true]
        exact plug_sizeOk (sizeOk_node_iff.mpr ⟨hs, hcl, hcr⟩) hctx
      · simp only [heq, Bool.false_eq_true, if_false]
        by_cases hlt : lt item v = true
        · simp only [hlt, if_true]
          match l, hs, hcl with
          | .leaf, hs, hcl =>
              refine sizeOk_insert_case1 (by rfl)
                (ctxSizeOk_bumpSizes (ctxSizeOk_cons ?_ hcr hctx))
              simp only [len_leaf] at hs
              omega
          | .node lb ls ll lv lr, hs, hcl =>
              refine ihl hcl (ctxSizeOk_cons ?_ hcr hctx)
              simp only [len_node] at hs ⊢
              omega
        · simp only [hlt, Bool.false_eq_true, if_false]
          match r, hs, hcr with
          | .leaf, hs, hcr =>
              refine sizeOk_insert_case1 (by rfl)
                (ctxSizeOk_bumpSizes (ctxSizeOk_cons ?_ hcl hctx))
              simp only [len_leaf] at hs
              omega
          | .node rb rs rl rv rr, hs, hcr =>
              refine ihr hcr (ctxSizeOk_cons ?_ hcl hctx)
              simp only [len_node] at hs ⊢
              omega

lemma sizeOk_insert (lt eq : α → α → Bool) (item : α) (ms : Bool)
    {t : RBNode α} (hc : sizeOk t = true) :
    sizeOk (insert lt eq item ms t) = true := by
  rw [insert]
  by_cases h0 : len t = 0
  · simp [h0]
  · simp only [h0, if_false]
    exact sizeOk_insertGo lt eq item ms hc trivial

lemma sizeOk_delete_case6 {t : RBNode α} {ctx : Ctx α} (hc : sizeOk t = true)
    (hctx : ctxSizeOk ctx (len t)) : sizeOk (delete_case6 t ctx) = true := by
  match ctx with
  | [] => exact hc
  | paF :: rest =>
      obtain ⟨pd, pb0, psz, pvv, poo⟩ := paF
      obtain ⟨hp1, hp2, hp3⟩ := hctx
      simp only at hp1 hp2 hp3
      rw [delete_case6]
      simp only
      match poo, hp1, hp2, hp3 with
      | .leaf, hp1, hp2, hp3 =>
          cases pd <;> exact plug_sizeOk hc (ctxSizeOk_cons hp1 hp2 hp3)
      | .node sb ss sl sv sr, hp1, hp2, hp3 =>
          obtain ⟨hss, hsl, hsr⟩ := sizeOk_node_iff.mp hp2
          cases pd with
          | left =>
              match sr, hss, hsr with
              | .leaf, hss, hsr => exact plug_sizeOk hc (ctxSizeOk_cons hp1 hp2 hp3)
              | .node srb srs srl srv srr, hss, hsr =>
                  obtain ⟨hsrs, hsrl, hsrr⟩ := sizeOk_node_iff.mp hsr
                  have hX : sizeOk (.node true psz t pvv
                      (.node pb0 ss sl sv (.node true srs srl srv srr)) : RBNode α) = true := by
                    rw [sizeOk_node_iff]
                    refine ⟨by simp only [len_node] at hp1 ⊢; omega, hc, ?_⟩
                    rw [sizeOk_node_iff]
                    refine ⟨by simp only [len_node] at hss ⊢; omega, hsl, ?_⟩
                    rw [sizeOk_node_iff]
                    exact ⟨hsrs, hsrl, hsrr⟩
                  have hrot := sizeOk_rotate_left hX
                  exact plug_sizeOk hrot.1 (by rw [hrot.2]; exact hp3)
          | right =>
              match sl, hss, hsl with
              | .leaf, hss, hsl => exact plug_sizeOk hc (ctxSizeOk_cons hp1 hp2 hp3)
              | .node slb sls sll slv slr, hss, hsl =>
                  obtain ⟨hsls, hsll, hslr⟩ := sizeOk_node_iff.mp hsl
                  have hX : sizeOk (.node true psz
                      (.node pb0 ss (.node true sls sll slv slr) sv sr) pvv t : RBNode α) = true := by
                    rw [sizeOk_node_iff]
                    refine ⟨by simp only [len_node] at hp1 ⊢; omega, ?_, hc⟩
                    rw [sizeOk_node_iff]
                    refine ⟨by simp only [len_node] at hss ⊢; omega, ?_, hsr⟩
                    rw [sizeOk_node_iff]
                    exact ⟨hsls, hsll, hslr⟩
                  have hrot := sizeOk_rotate_right hX
                  exact plug_sizeOk hrot.1 (by rw [hrot.2]; exact hp3)

lemma sizeOk_delete_case5 {t : RBNode α} {ctx : Ctx α} (hc : sizeOk t = true)
    (hctx : ctxSizeOk ctx (len t)) : sizeOk (delete_case5 t ctx) = true := by
  match ctx with
  | [] => exact hc
  | paF :: rest =>
      obtain ⟨pd, pb0, psz, pvv, poo⟩ := paF
      obtain ⟨hp1, hp2, hp3⟩ := hctx
      simp only at hp1 hp2 hp3
      match poo, hp1, hp2 with
      | .leaf, hp1, hp2 =>
          simp only [delete_case5]
          exact sizeOk_delete_case6 hc (ctxSizeOk_cons hp1 hp2 hp3)
      | .node sb ss sl sv sr, hp1, hp2 =>
          obtain ⟨hss, hsl, hsr⟩ := sizeOk_node_iff.mp hp2
          have hpre : ∀ X : RBNode α, sizeOk X = true → len X = ss →
              sizeOk (delete_case6 t (⟨pd, pb0, psz, pvv, X⟩ :: rest)) = true := by
            intro X hX hlenX
            refine sizeOk_delete_case6 hc (ctxSizeOk_cons ?_ hX hp3)
            simp only [len_node] at hp1
            omega
          cases sb with
          | false =>
              simp only [delete_case5, Bool.false_eq_true, if_false]
              exact sizeOk_delete_case6 hc (ctxSizeOk_cons hp1 hp2 hp3)
          | true =>
              cases pd with
              | left =>
                  by_cases hcond : (rootBlack sr && rootRed sl) = true
                  · simp only [delete_case5, if_true, hcond]
                    have hb : sizeOk (.node false ss (blacken sl) sv sr : RBNode α) = true := by
                      rw [sizeOk_node_iff]
                      refine ⟨?_, ?_, hsr⟩
                      · cases sl <;> simpa using hss
                      · cases sl <;> simpa using hsl
                    have hrot := sizeOk_rotate_right hb
                    exact hpre _ hrot.1 (by rw [hrot.2]; rfl)
                  · simp only [delete_case5, if_true, hcond, Bool.false_eq_true, if_false]
                    exact sizeOk_delete_case6 hc (ctxSizeOk_cons hp1 hp2 hp3)
              | right =>
                  by_cases hcond : (rootBlack sl && rootRed sr) = true
                  · simp only [delete_case5, if_true, hcond]
                    have hb : sizeOk (.node false ss sl sv (blacken sr) : RBNode α) = true := by
                      rw [sizeOk_node_iff]
                      refine ⟨?_, hsl, ?_⟩
                      · cases sr <;> simpa using hss
                      · cases sr <;> simpa using hsr
                    have hrot := sizeOk_rotate_left hb
                    exact hpre _ hrot.1 (by rw [hrot.2]; rfl)
                  · simp only [delete_case5, if_true, hcond, Bool.false_eq_true, if_false]
                    exact sizeOk_delete_case6 hc (ctxSizeOk_cons hp1 hp2 hp3)

lemma sizeOk_delete_case4 {t : RBNode α} {ctx : Ctx α} (hc : sizeOk t = true)
    (hctx : ctxSizeOk ctx (len t)) : sizeOk (delete_case4 t ctx) = true := by
  match ctx with
  | [] => exact sizeOk_delete_case5 hc hctx
  | paF :: rest =>
      obtain ⟨pd, pb0, psz, pvv, poo⟩ := paF
      obtain ⟨hp1, hp2, hp3⟩ := hctx
      simp only at hp1 hp2 hp3
      rw [delete_case4]
      simp only
      match poo, hp1, hp2, hp3 with
      | .leaf, hp1, hp2, hp3 =>
          exact sizeOk_delete_case5 hc (ctxSizeOk_cons hp1 hp2 hp3)
      | .node sb ss sl sv sr, hp1, hp2, hp3 =>
          obtain ⟨hss, hsl, hsr⟩ := sizeOk_node_iff.mp hp2
          by_cases hcond : (!pb0 && sb && rootBlack sl && rootBlack sr) = true
          · simp only [hcond, if_true]
            refine plug_sizeOk ?_ ?_
            · cases pd <;>
                · first
                  | rw [assemble_left, sizeOk_node_iff]
                  | rw [assemble_right, sizeOk_node_iff]
                  first
                  | exact ⟨by simp only [len_node] at hp1 ⊢; omega, hc,
                      sizeOk_node_iff.mpr ⟨hss, hsl, hsr⟩⟩
                  | exact ⟨by simp only [len_node] at hp1 ⊢; omega,
                      sizeOk_node_iff.mpr ⟨hss, hsl, hsr⟩, hc⟩
            · cases pd <;> simpa using hp3
          · simp only [hcond, Bool.false_eq_true, if_false]
            exact sizeOk_delete_case5 hc (ctxSizeOk_cons hp1 hp2 hp3)

lemma sizeOk_delete_case23 (fuel : Nat) :
    (∀ (t : RBNode α) (ctx : Ctx α), sizeOk t = true → ctxSizeOk ctx (len t) →
      sizeOk (delete_case2 fuel t ctx) = true) ∧
    (∀ (t : RBNode α) (ctx : Ctx α), sizeOk t = true → ctxSizeOk ctx (len t) →
      sizeOk (delete_case3 fuel t ctx) = true) := by
  induction fuel with
  | zero =>
      have h2 : ∀ (t : RBNode α) (ctx : Ctx α), sizeOk t = true → ctxSizeOk ctx (len t) →
          sizeOk (delete_case2 0 t ctx) = true := by
        intro t ctx hc hctx
        rw [delete_case2]
        exact plug_sizeOk hc hctx
      refine ⟨h2, ?_⟩
      intro t ctx hc hctx
      match ctx with
      | [] => rw [delete_case3]; exact hc
      | paF :: rest =>
          obtain ⟨pd, pb0, psz, pvv, poo⟩ := paF
          obtain ⟨hp1, hp2, hp3⟩ := hctx
          simp only at hp1 hp2 hp3
          rw [delete_case3]
          simp only
          match poo, hp1, hp2, hp3 with
          | .leaf, hp1, hp2, hp3 => exact plug_sizeOk hc (ctxSizeOk_cons hp1 hp2 hp3)
          | .node sb ss sl sv sr, hp1, hp2, hp3 =>
              obtain ⟨hss, hsl, hsr⟩ := sizeOk_node_iff.mp hp2
              by_cases hcond : (pb0 && sb && rootBlack sl && rootBlack sr) = true
              · simp only [hcond, if_true]
                refine h2 _ rest ?_ ?_
                · cases pd <;>
                    · first
                      | rw [assemble_left, sizeOk_node_iff]
                      | rw [assemble_right, sizeOk_node_iff]
                      first
                      | exact ⟨by simp only [len_node] at hp1 ⊢; omega, hc,
                          sizeOk_node_iff.mpr ⟨hss, hsl, hsr⟩⟩
                      | exact ⟨by simp only [len_node] at hp1 ⊢; omega,
                          sizeOk_node_iff.mpr ⟨hss, hsl, hsr⟩, hc⟩
                · cases pd <;> simpa using hp3
              · simp only [hcond, Bool.false_eq_true, if_false]
                exact sizeOk_delete_case4 hc (ctxSizeOk_cons hp1 hp2 hp3)
  | succ fuel ih =>
      have h2 : ∀ (t : RBNode α) (ctx : Ctx α), sizeOk t = true → ctxSizeOk ctx (len t) →
          sizeOk (delete_case2 (fuel + 1) t ctx) = true := by
        intro t ctx hc hctx
        match ctx with
        | [] => rw [delete_case2]; exact hc
        | paF :: rest =>
            obtain ⟨pd, pb0, psz, pvv, poo⟩ := paF
            obtain ⟨hp1, hp2, hp3⟩ := hctx
            simp only at hp1 hp2 hp3
            rw [delete_case2]
            simp only
            match poo, hp1, hp2, hp3 with
            | .leaf, hp1, hp2, hp3 => exact ih.2 t _ hc (ctxSizeOk_cons hp1 hp2 hp3)
            | .node true ss sl sv sr, hp1, hp2, hp3 => exact ih.2 t _ hc (ctxSizeOk_cons hp1 hp2 hp3)
            | .node false ss sl sv sr, hp1, hp2, hp3 =>
                obtain ⟨hss, hsl, hsr⟩ := sizeOk_node_iff.mp hp2
                simp only [len_node] at hp1
                cases pd with
                | left =>
                    refine ih.2 t _ hc
                      (ctxSizeOk_cons rfl hsl (ctxSizeOk_cons rfl hsr ?_))
                    have : (len t + 1 + len sl) + 1 + len sr = psz := by omega
                    rw [this]
                    exact hp3
                | right =>
                    refine ih.2 t _ hc
                      (ctxSizeOk_cons (by omega) hsr (ctxSizeOk_cons (by omega) hsl ?_))
                    have : len sl + 1 + (len sr + 1 + len t) = psz := by omega
                    rw [this]
                    exact hp3
      refine ⟨h2, ?_⟩
      intro t ctx hc hctx
      match ctx with
      | [] => rw [delete_case3]; exact hc
      | paF :: rest =>
          obtain ⟨pd, pb0, psz, pvv, poo⟩ := paF
          obtain ⟨hp1, hp2, hp3⟩ := hctx
          simp only at hp1 hp2 hp3
          rw [delete_case3]
          simp only
          match poo, hp1, hp2, hp3 with
          | .leaf, hp1, hp2, hp3 => exact plug_sizeOk hc (ctxSizeOk_cons hp1 hp2 hp3)
          | .node sb ss sl sv sr, hp1, hp2, hp3 =>
              obtain ⟨hss, hsl, hsr⟩ := sizeOk_node_iff.mp hp2
              by_cases hcond : (pb0 && sb && rootBlack sl && rootBlack sr) = true
              · simp only [hcond, if_true]
                refine h2 _ rest ?_ ?_
                · cases pd <;>
                    · first
                      | rw [assemble_left, sizeOk_node_iff]
                      | rw [assemble_right, sizeOk_node_iff]
                      first
                      | exact ⟨by simp only [len_node] at hp1 ⊢; omega, hc,
                          sizeOk_node_iff.mpr ⟨hss, hsl, hsr⟩⟩
                      | exact ⟨by simp only [len_node] at hp1 ⊢; omega,
                          sizeOk_node_iff.mpr ⟨hss, hsl, hsr⟩, hc⟩
                · cases pd <;> simpa using hp3
              · simp only [hcond, Bool.false_eq_true, if_false]
                exact sizeOk_delete_case4 hc (ctxSizeOk_cons hp1 hp2 hp3)

lemma sizeOk_delete_one_child_left {b : Bool} {s : Nat} {l : RBNode α} {v : α}
    {ctx : Ctx α} (hl : sizeOk l = true) (hctx : ctxSizeOk ctx (len l)) :
    sizeOk (delete_one_child (.node b s l v .leaf) ctx) = true := by
  rw [delete_one_child.eq_def]
  simp only
  cases b with
  | false => exact plug_sizeOk hl hctx
  | true =>
      match l, hl, hctx with
      | .leaf, hl, hctx => exact (sizeOk_delete_case23 _).1 _ _ rfl hctx
      | .node false cs cl cv cr, hl, hctx => exact plug_sizeOk hl hctx
      | .node true cs cl cv cr, hl, hctx => exact (sizeOk_delete_case23 _).1 _ _ hl hctx

lemma sizeOk_delete_one_child_right {b rb : Bool} {s rs : Nat} {rl rr : RBNode α}
    {v rv : α} {ctx : Ctx α} (hr : sizeOk (.node rb rs rl rv rr : RBNode α) = true)
    (hctx : ctxSizeOk ctx rs) :
    sizeOk (delete_one_child (.node b s .leaf v (.node rb rs rl rv rr)) ctx) = true := by
  rw [delete_one_child.eq_def]
  simp only
  cases b with
  | false => exact plug_sizeOk hr hctx
  | true =>
      cases rb with
      | false => exact plug_sizeOk (sizeOk_node_iff.mpr (sizeOk_node_iff.mp hr)) hctx
      | true => exact (sizeOk_delete_case23 _).1 _ _ hr hctx

lemma sizeOk_setValueAt {t : RBNode α} (p : Path) (x : α) (h : sizeOk t = true) :
    sizeOk (setValueAt t p x) = true ∧ len (setValueAt t p x) = len t := by
  induction t generalizing p with
  | leaf => exact ⟨h, rfl⟩
  | node b s l v r ihl ihr =>
      obtain ⟨hs, hl, hr⟩ := sizeOk_node_iff.mp h
      match p with
      | [] => exact ⟨sizeOk_node_iff.mpr ⟨hs, hl, hr⟩, rfl⟩
      | .left :: p =>
          rw [setValueAt]
          exact ⟨sizeOk_node_iff.mpr ⟨by rw [(ihl p hl).2]; exact hs, (ihl p hl).1, hr⟩, rfl⟩
      | .right :: p =>
          rw [setValueAt]
          exact ⟨sizeOk_node_iff.mpr ⟨by rw [(ihr p hr).2]; exact hs, hl, (ihr p hr).1⟩, rfl⟩

lemma ctxSizeOk_unzipGo {t : RBNode α} {p : Path} {ctx0 : Ctx α} {sub : RBNode α}
    {ctx : Ctx α} (hs : sizeOk t = true) (hctx0 : ctxSizeOk ctx0 (len t))
    (h : unzipGo t p ctx0 = some (sub, ctx)) :
    sizeOk sub = true ∧ ctxSizeOk ctx (len sub) := by
  induction p generalizing t ctx0 with
  | nil =>
      rw [unzipGo] at h
      obtain ⟨h1, h2⟩ := Prod.mk.injEq .. ▸ Option.some.injEq .. ▸ h
      subst h1
      rw [← h2]
      exact ⟨hs, hctx0⟩
  | cons d p ih =>
      cases t with
      | leaf => cases d <;> simp [unzipGo] at h
      | node b s l v r =>
          obtain ⟨hsz, hl, hr⟩ := sizeOk_node_iff.mp hs
          cases d with
          | left =>
              rw [unzipGo] at h
              exact ih hl (ctxSizeOk_cons (by simpa using hsz) hr hctx0) h
          | right =>
              rw [unzipGo] at h
              exact ih hr (ctxSizeOk_cons (by simp; omega) hl hctx0) h

lemma ctxSizeOk_of_unzip {t : RBNode α} {p : Path} {sub : RBNode α} {ctx : Ctx α}
    (hs : sizeOk t = true) (h : unzip t p = some (sub, ctx)) :
    sizeOk sub = true ∧ ctxSizeOk ctx (len sub) := by
  rw [unzip] at h
  have hz : ctxSizeOk ([] : Ctx α) (len t) := trivial
  exact ctxSizeOk_unzipGo hs hz h

lemma ctxSizeOk_decCtx {ctx : Ctx α} {n : Nat} (h : ctxSizeOk ctx n) (hn : 1 ≤ n) :
    ctxSizeOk (decCtx ctx) (n - 1) := by
  induction ctx generalizing n with
  | nil => trivial
  | cons f fs ih =>
      obtain ⟨h1, h2, h3⟩ := h
      refine ⟨?_, h2, ?_⟩
      · show f.size - 1 = (n - 1) + 1 + len f.other
        omega
      · show ctxSizeOk (decCtx fs) (f.size - 1)
        exact ih h3 (by omega)

lemma delete_node_invalid {t : RBNode α} {p : Path} (h : unzip t p = none) :
    delete_node t p = t := by
  rw [delete_node, h]

/-- `_delete_node` keeps invariant 6 when applied to an internal node: all
stored sizes stay consistent. -/
theorem sizeOk_delete_node {t : RBNode α} {p : Path} {b : Bool} {s : Nat}
    {l : RBNode α} {v : α} {r : RBNode α} {ctxT : Ctx α} (hs : sizeOk t = true)
    (hu : unzip t p = some (.node b s l v r, ctxT)) :
    sizeOk (delete_node t p) = true := by
  match l, r, hu with
  | .leaf, .leaf, hu =>
      obtain ⟨hsub, hctx⟩ := ctxSizeOk_of_unzip hs hu
      obtain ⟨hss, _, _⟩ := sizeOk_node_iff.mp hsub
      rw [delete_node_caseC hu]
      refine sizeOk_delete_one_child_left rfl ?_
      simp only [len_leaf] at hss
      have hs1 : s = 1 := by omega
      subst hs1
      simpa using ctxSizeOk_decCtx hctx (by simp)
  | .node lb ls ll lv lr, _, hu =>
      obtain ⟨b', s', l', m, lctx, h2, h3, hu2, heq⟩ := delete_node_caseA hu
      obtain ⟨hsub, hctx⟩ := ctxSizeOk_of_unzip (sizeOk_setValueAt p m hs).1 hu2
      obtain ⟨hss, hsl', _⟩ := sizeOk_node_iff.mp hsub
      rw [heq]
      refine sizeOk_delete_one_child_left hsl' ?_
      simp only [len_leaf] at hss
      rw [show len l' = s' - 1 from by omega]
      simpa using ctxSizeOk_decCtx hctx (by simp only [len_node]; omega)
  | .leaf, .node rb rs rl rv rr, hu =>
      obtain ⟨b', s', r', m, rctx, h2, h3, hu2, heq⟩ := delete_node_caseB hu
      obtain ⟨hsub, hctx⟩ := ctxSizeOk_of_unzip (sizeOk_setValueAt p m hs).1 hu2
      obtain ⟨hss, _, hsr'⟩ := sizeOk_node_iff.mp hsub
      rw [heq]
      match r', hss, hsr' with
      | .leaf, hss, hsr' =>
          refine sizeOk_delete_one_child_left rfl ?_
          simp only [len_leaf] at hss
          have hs1 : s' = 1 := by omega
          subst hs1
          simpa using ctxSizeOk_decCtx hctx (by simp)
      | .node rb2 rs2 rl2 rv2 rr2, hss, hsr' =>
          refine sizeOk_delete_one_child_right hsr' ?_
          simp only [len_leaf, len_node] at hss
          rw [show rs2 = s' - 1 from by omega]
          simpa using ctxSizeOk_decCtx hctx (by simp only [len_node]; omega)

/-! ### Red-black color and black-height layer (invariants 2, 4, 5) -/

/-- Color of the innermost pending parent frame (`false` when the focus is
at the root, which has no parent). -/
def frBlack : Ctx α → Bool
  | [] => false
  | f :: _ => f.black

@[simp] lemma frBlack_nil : frBlack ([] : Ctx α) = false := rfl

@[simp] lemma frBlack_cons (f : Frame α) (fs : Ctx α) : frBlack (f :: fs) = f.black := rfl

/-- Color/height well-formedness of a pending context around a hole of
black-height `h`: every frame hangs a valid fragment of the black-height the
position requires, and a red frame has a black other child and a black
parent frame. -/
def ctxRB : Ctx α → Nat → Prop
  | [], _ => True
  | f :: fs, h =>
      redOk f.other = true ∧ bh f.other = some h ∧
        (f.black = false → rootBlack f.other = true ∧ frBlack fs = true) ∧
        ctxRB fs (h + (if f.black then 1 else 0))

lemma ctxRB_nil (h : Nat) : ctxRB ([] : Ctx α) h := trivial

lemma ctxRB_cons {f : Frame α} {fs : Ctx α} {h : Nat}
    (h1 : redOk f.other = true) (h2 : bh f.other = some h)
    (h3 : f.black = false → rootBlack f.other = true ∧ frBlack fs = true)
    (h4 : ctxRB fs (h + (if f.black then 1 else 0))) : ctxRB (f :: fs) h :=
  ⟨h1, h2, h3, h4⟩

/-- The color/height part of the invariants: black root (inv. 2), no red
node with a red child (inv. 4), equal black counts on every root-to-leaf
path (inv. 5). -/
def isRB (t : RBNode α) : Prop :=
  rootBlack t = true ∧ redOk t = true ∧ (bh t).isSome

lemma bh_node_of {b : Bool} {s m : Nat} {l r : RBNode α} {v : α}
    (hl : bh l = some m) (hr : bh r = some m) :
    bh (.node b s l v r : RBNode α) = some (m + (if b then 1 else 0)) := by
  rw [bh_node, hl, hr]
  show (if m = m then some (m + if b = true then 1 else 0) else none) = _
  rw [if_pos rfl]

lemma bh_node_elim {b : Bool} {s n : Nat} {l r : RBNode α} {v : α}
    (h : bh (.node b s l v r : RBNode α) = some n) :
    ∃ m, bh l = some m ∧ bh r = some m ∧ n = m + (if b then 1 else 0) := by
  rw [bh_node] at h
  match hl : bh l, hr : bh r, h with
  | none, _, h => exact Option.noConfusion h
  | some m, none, h => exact Option.noConfusion h
  | some m, some m2, h =>
      have h2 : (if m = m2 then some (m + if b = true then 1 else 0) else none) = some n := h
      by_cases hm : m = m2
      · subst hm
        rw [if_pos rfl] at h2
        exact ⟨m, rfl, rfl, (Option.some.inj h2).symm⟩
      · rw [if_neg hm] at h2
        exact Option.noConfusion h2

lemma bh_pos : ∀ {t : RBNode α} {n : Nat}, bh t = some n → 1 ≤ n
  | .leaf, n, h => by
      rw [bh_leaf] at h
      exact le_of_eq (Option.some.inj h)
  | .node b s l v r, n, h => by
      obtain ⟨m, hl, _, he⟩ := bh_node_elim h
      have h1 := bh_pos hl
      omega

lemma redOk_node_elim {b : Bool} {s : Nat} {l r : RBNode α} {v : α}
    (h : redOk (.node b s l v r : RBNode α) = true) :
    redOk l = true ∧ redOk r = true ∧
      (b = false → rootBlack l = true ∧ rootBlack r = true) := by
  simp only [redOk_node, Bool.and_eq_true, Bool.or_eq_true] at h
  refine ⟨h.1.2, h.2, ?_⟩
  intro hb
  subst hb
  rcases h.1.1 with h1 | h1
  · exact Bool.noConfusion h1
  · exact h1

lemma eq_leaf_of_bh_one {t : RBNode α} (h : bh t = some 1) (hb : rootBlack t = true) :
    t = .leaf := by
  cases t with
  | leaf => rfl
  | node b s l v r =>
      obtain ⟨m, hl, hr, he⟩ := bh_node_elim h
      have h1 := bh_pos hl
      rw [rootBlack_node] at hb
      subst hb
      rw [if_pos rfl] at he
      exact absurd he (by omega)

@[simp] lemma rootBlack_blacken (t : RBNode α) : rootBlack (blacken t) = true := by
  cases t <;> rfl

lemma redOk_blacken {t : RBNode α} (h : redOk t = true) : redOk (blacken t) = true := by
  cases t with
  | leaf => rfl
  | node b s l v r =>
      simp only [blacken_node, redOk_node, Bool.true_or, Bool.true_and]
      simp only [redOk_node, Bool.and_eq_true] at h
      exact (Bool.and_eq_true _ _).mpr ⟨h.1.2, h.2⟩

lemma bh_blacken {t : RBNode α} {n : Nat} (h : bh t = some n) :
    (bh (blacken t)).isSome = true := by
  cases t with
  | leaf => rfl
  | node b s l v r =>
      obtain ⟨m, hl, hr, _⟩ := bh_node_elim h
      rw [blacken_node, bh_node_of hl hr]
      rfl

lemma assemble_rb {f : Frame α} {t : RBNode α} {h : Nat}
    (hred : redOk t = true) (hbh : bh t = some h)
    (h1 : redOk f.other = true) (h2 : bh f.other = some h)
    (hcol : f.black = false → rootBlack f.other = true ∧ rootBlack t = true) :
    redOk (assemble f t) = true ∧
      bh (assemble f t) = some (h + (if f.black then 1 else 0)) ∧
      rootBlack (assemble f t) = f.black := by
  obtain ⟨d, fb, fsz, fv, fo⟩ := f
  simp only at h1 h2 hcol
  cases d with
  | left =>
      refine ⟨?_, bh_node_of hbh h2, rfl⟩
      rw [assemble_left, redOk_node]
      cases fb with
      | true => simp [hred, h1]
      | false => simp [hred, h1, (hcol rfl).1, (hcol rfl).2]
  | right =>
      refine ⟨?_, bh_node_of h2 hbh, rfl⟩
      rw [assemble_right, redOk_node]
      cases fb with
      | true => simp [hred, h1]
      | false => simp [hred, h1, (hcol rfl).1, (hcol rfl).2]

/-- Plugging a balanced, locally valid focus into a well-formed context
yields a tree satisfying the color/height invariants. -/
lemma plug_rb {ctx : Ctx α} : ∀ {t : RBNode α} {h : Nat},
    redOk t = true → bh t = some h → ctxRB ctx h →
    (rootBlack t = false → frBlack ctx = true) →
    (ctx = [] → rootBlack t = true) →
    isRB (plug t ctx) := by
  induction ctx with
  | nil =>
      intro t h hred hbh _ _ hroot
      exact ⟨hroot rfl, hred, by rw [plug_nil, hbh]; rfl⟩
  | cons f fs ih =>
      intro t h hred hbh hctx hcr _
      obtain ⟨h1, h2, h3, h4⟩ := hctx
      have hcol : f.black = false → rootBlack f.other = true ∧ rootBlack t = true := by
        intro hfb
        refine ⟨(h3 hfb).1, ?_⟩
        by_contra hcon
        have hx := hcr (Bool.not_eq_true _ ▸ hcon)
        rw [frBlack_cons, hfb] at hx
        exact Bool.noConfusion hx
      obtain ⟨ha1, ha2, ha3⟩ := assemble_rb hred hbh h1 h2 hcol
      rw [plug_cons]
      refine ih ha1 ha2 h4 ?_ ?_
      · intro hcon
        rw [ha3] at hcon
        exact (h3 hcon).2
      · intro hnil
        rw [ha3]
        by_contra hcon
        have hx := (h3 (Bool.not_eq_true _ ▸ hcon)).2
        rw [hnil, frBlack_nil] at hx
        exact Bool.noConfusion hx

/-- Decomposing a valid tree at any path yields a balanced focus inside a
well-formed context. -/
lemma ctxRB_unzipGo {p : Path} : ∀ {t : RBNode α} {ctx0 : Ctx α} {sub : RBNode α}
    {ctx : Ctx α} {h0 : Nat},
    redOk t = true → bh t = some h0 → ctxRB ctx0 h0 →
    (rootBlack t = false → frBlack ctx0 = true) →
    (ctx0 = [] → rootBlack t = true) →
    unzipGo t p ctx0 = some (sub, ctx) →
    ∃ h1, redOk sub = true ∧ bh sub = some h1 ∧ ctxRB ctx h1 ∧
      (rootBlack sub = false → frBlack ctx = true) ∧
      (ctx = [] → rootBlack sub = true) := by
  induction p with
  | nil =>
      intro t ctx0 sub ctx h0 hr hb hctx0 hcr hroot h
      rw [unzipGo] at h
      obtain ⟨h1, h2⟩ := Prod.mk.injEq .. ▸ Option.some.injEq .. ▸ h
      subst h1
      rw [← h2]
      exact ⟨h0, hr, hb, hctx0, hcr, hroot⟩
  | cons d p ih =>
      intro t ctx0 sub ctx h0 hr hb hctx0 hcr hroot h
      cases t with
      | leaf => cases d <;> simp [unzipGo] at h
      | node b s l v r =>
          obtain ⟨m, hbl, hbr, hbeq⟩ := bh_node_elim hb
          obtain ⟨hrl, hrr, hrc⟩ := redOk_node_elim hr
          subst hbeq
          cases d with
          | left =>
              rw [unzipGo] at h
              refine ih hrl hbl
                (ctxRB_cons (f := ⟨.left, b, s, v, r⟩) hrr hbr ?_ hctx0) ?_
                (fun hcon => List.noConfusion hcon) h
              · intro hfb
                exact ⟨(hrc hfb).2, hcr (by rw [rootBlack_node]; exact hfb)⟩
              · intro hcon
                rw [frBlack_cons]
                by_contra hcon2
                have hx := (hrc (Bool.not_eq_true _ ▸ hcon2)).1
                rw [hcon] at hx
                exact Bool.noConfusion hx
          | right =>
              rw [unzipGo] at h
              refine ih hrr hbr
                (ctxRB_cons (f := ⟨.right, b, s, v, l⟩) hrl hbl ?_ hctx0) ?_
                (fun hcon => List.noConfusion hcon) h
              · intro hfb
                exact ⟨(hrc hfb).1, hcr (by rw [rootBlack_node]; exact hfb)⟩
              · intro hcon
                rw [frBlack_cons]
                by_contra hcon2
                have hx := (hrc (Bool.not_eq_true _ ▸ hcon2)).2
                rw [hcon] at hx
                exact Bool.noConfusion hx

lemma ctxRB_of_unzip {t : RBNode α} {p : Path} {sub : RBNode α} {ctx : Ctx α}
    (hrb : isRB t) (h : unzip t p = some (sub, ctx)) :
    ∃ h1, redOk sub = true ∧ bh sub = some h1 ∧ ctxRB ctx h1 ∧
      (rootBlack sub = false → frBlack ctx = true) ∧
      (ctx = [] → rootBlack sub = true) := by
  obtain ⟨hroot, hred, hbh⟩ := hrb
  obtain ⟨h0, hh0⟩ := Option.isSome_iff_exists.mp hbh
  rw [unzip] at h
  have hz : ctxRB ([] : Ctx α) h0 := trivial
  exact ctxRB_unzipGo hred hh0 hz
    (fun hcon => Bool.noConfusion (hroot.symm.trans hcon))
    (fun _ => hroot) h

lemma insert_case5_rb {t : RBNode α} {paF gpF : Frame α} {rest : Ctx α} {h : Nat}
    (hdd : paF.dir = gpF.dir)
    (ht : rootBlack t = false) (htr : redOk t = true) (hth : bh t = some h)
    (hpb : paF.black = false) (hpo : rootBlack paF.other = true)
    (hpor : redOk paF.other = true) (hpoh : bh paF.other = some h)
    (hgb : gpF.black = true) (hgo : rootBlack gpF.other = true)
    (hgor : redOk gpF.other = true) (hgoh : bh gpF.other = some h)
    (hrest : ctxRB rest (h + 1)) :
    isRB (insert_case5 t (paF :: gpF :: rest)) := by
  obtain ⟨pd, pb, psz, pv, po⟩ := paF
  obtain ⟨gd, gb, gsz, gv, go⟩ := gpF
  simp only at hdd hpb hpo hpor hpoh hgb hgo hgor hgoh
  subst hdd
  subst hpb
  subst hgb
  cases pd with
  | left =>
      have hstep : insert_case5 t
          (⟨Dir.left, false, psz, pv, po⟩ :: ⟨Dir.left, true, gsz, gv, go⟩ :: rest) =
          plug (.node true (len t + 1 + (len po + 1 + len go)) t pv
            (.node false (len po + 1 + len go) po gv go)) rest := rfl
      rw [hstep]
      have hbin : bh (.node false (len po + 1 + len go) po gv go : RBNode α) = some h := by
        simpa using bh_node_of (b := false) (s := len po + 1 + len go) (v := gv) hpoh hgoh
      have hbR : bh (.node true (len t + 1 + (len po + 1 + len go)) t pv
          (.node false (len po + 1 + len go) po gv go) : RBNode α) = some (h + 1) := by
        simpa using bh_node_of (b := true) hth hbin
      have hrR : redOk (.node true (len t + 1 + (len po + 1 + len go)) t pv
          (.node false (len po + 1 + len go) po gv go) : RBNode α) = true := by
        simp [redOk_node, htr, hpor, hgor, hpo, hgo]
      exact plug_rb hrR hbR hrest (fun hcon => Bool.noConfusion hcon) (fun _ => rfl)
  | right =>
      have hstep : insert_case5 t
          (⟨Dir.right, false, psz, pv, po⟩ :: ⟨Dir.right, true, gsz, gv, go⟩ :: rest) =
          plug (.node true ((len go + 1 + len po) + 1 + len t)
            (.node false (len go + 1 + len po) go gv po) pv t) rest := rfl
      rw [hstep]
      have hbin : bh (.node false (len go + 1 + len po) go gv po : RBNode α) = some h := by
        simpa using bh_node_of (b := false) (s := len go + 1 + len po) (v := gv) hgoh hpoh
      have hbR : bh (.node true ((len go + 1 + len po) + 1 + len t)
          (.node false (len go + 1 + len po) go gv po) pv t : RBNode α) = some (h + 1) := by
        simpa using bh_node_of (b := true) hbin hth
      have hrR : redOk (.node true ((len go + 1 + len po) + 1 + len t)
          (.node false (len go + 1 + len po) go gv po) pv t : RBNode α) = true := by
        simp [redOk_node, htr, hpor, hgor, hpo, hgo]
      exact plug_rb hrR hbR hrest (fun hcon => Bool.noConfusion hcon) (fun _ => rfl)

lemma insert_case4_rb {t : RBNode α} {paF gpF : Frame α} {rest : Ctx α} {h : Nat}
    (ht : rootBlack t = false) (htr : redOk t = true) (hth : bh t = some h)
    (hpb : paF.black = false) (hpo : rootBlack paF.other = true)
    (hpor : redOk paF.other = true) (hpoh : bh paF.other = some h)
    (hgb : gpF.black = true) (hgo : rootBlack gpF.other = true)
    (hgor : redOk gpF.other = true) (hgoh : bh gpF.other = some h)
    (hrest : ctxRB rest (h + 1)) :
    isRB (insert_case4 t (paF :: gpF :: rest)) := by
  obtain ⟨pd, pb, psz, pv, po⟩ := paF
  obtain ⟨gd, gb, gsz, gv, go⟩ := gpF
  simp only at hpb hpo hpor hpoh hgb hgo hgor hgoh
  subst hpb
  subst hgb
  match pd, gd with
  | .left, .left =>
      show isRB (insert_case5 t
        (⟨Dir.left, false, psz, pv, po⟩ :: ⟨Dir.left, true, gsz, gv, go⟩ :: rest))
      exact insert_case5_rb rfl ht htr hth rfl hpo hpor hpoh rfl hgo hgor hgoh hrest
  | .right, .right =>
      show isRB (insert_case5 t
        (⟨Dir.right, false, psz, pv, po⟩ :: ⟨Dir.right, true, gsz, gv, go⟩ :: rest))
      exact insert_case5_rb rfl ht htr hth rfl hpo hpor hpoh rfl hgo hgor hgoh hrest
  | .right, .left =>
      match t, ht with
      | .node false ts tl tv tr, _ =>
          obtain ⟨m, htl, htr2, hmeq⟩ := bh_node_elim hth
          obtain ⟨hrtl, hrtr, hrc⟩ := redOk_node_elim htr
          have hm : m = h := by
            rw [if_neg Bool.false_ne_true] at hmeq
            omega
          subst hm
          show isRB (insert_case5 (.node false (len po + 1 + len tl) po pv tl)
            (⟨Dir.left, false, (len po + 1 + len tl) + 1 + len tr, tv, tr⟩ ::
             ⟨Dir.left, true, gsz, gv, go⟩ :: rest))
          refine insert_case5_rb rfl rfl ?_ ?_ rfl ((hrc rfl).2) hrtr htr2 rfl hgo hgor
            hgoh hrest
          · simp [redOk_node, hpor, hrtl, hpo, (hrc rfl).1]
          · simpa using bh_node_of (b := false) (s := len po + 1 + len tl) (v := pv)
              hpoh htl
  | .left, .right =>
      match t, ht with
      | .node false ts tl tv tr, _ =>
          obtain ⟨m, htl, htr2, hmeq⟩ := bh_node_elim hth
          obtain ⟨hrtl, hrtr, hrc⟩ := redOk_node_elim htr
          have hm : m = h := by
            rw [if_neg Bool.false_ne_true] at hmeq
            omega
          subst hm
          show isRB (insert_case5 (.node false (len tr + 1 + len po) tr pv po)
            (⟨Dir.right, false, len tl + 1 + (len tr + 1 + len po), tv, tl⟩ ::
             ⟨Dir.right, true, gsz, gv, go⟩ :: rest))
          refine insert_case5_rb rfl rfl ?_ ?_ rfl ((hrc rfl).1) hrtl htl rfl hgo hgor
            hgoh hrest
          · simp [redOk_node, hpor, hrtr, hpo, (hrc rfl).2]
          · simpa using bh_node_of (b := false) (s := len tr + 1 + len po) (v := pv)
              htr2 hpoh

lemma insert_case13_rb (n : Nat) :
    (∀ (t : RBNode α) (paF gpF : Frame α) (rest : Ctx α) (h : Nat),
      (paF :: gpF :: rest : Ctx α).length ≤ n →
      rootBlack t = false → redOk t = true → bh t = some h → paF.black = false →
      ctxRB (paF :: gpF :: rest) h →
      isRB (insert_case3 t (paF :: gpF :: rest))) ∧
    (∀ (t : RBNode α) (ctx : Ctx α) (h : Nat), ctx.length ≤ n →
      rootBlack t = false → redOk t = true → bh t = some h → ctxRB ctx h →
      isRB (insert_case1 t ctx)) := by
  induction n with
  | zero =>
      constructor
      · intro t paF gpF rest h hlen
        simp at hlen
      · intro t ctx h hlen ht htr hth hctx
        have hnil : ctx = [] := List.length_eq_zero.mp (Nat.le_zero.mp hlen)
        subst hnil
        rw [insert_case1]
        exact ⟨rootBlack_blacken t, redOk_blacken htr, bh_blacken hth⟩
  | succ n ih =>
      obtain ⟨ih3, ih1⟩ := ih
      have h3 : ∀ (t : RBNode α) (paF gpF : Frame α) (rest : Ctx α) (h : Nat),
          (paF :: gpF :: rest : Ctx α).length ≤ n + 1 →
          rootBlack t = false → redOk t = true → bh t = some h → paF.black = false →
          ctxRB (paF :: gpF :: rest) h →
          isRB (insert_case3 t (paF :: gpF :: rest)) := by
        intro t paF gpF rest h hlen ht htr hth hpb hctx
        obtain ⟨hpor, hpoh, hpc, hrest1⟩ := hctx
        have hpo : rootBlack paF.other = true := (hpc hpb).1
        have hgb : gpF.black = true := by
          have hx := (hpc hpb).2
          rwa [frBlack_cons] at hx
        have hrest1b : ctxRB (gpF :: rest) h := by
          rw [hpb] at hrest1
          simpa using hrest1
        obtain ⟨hgor, hgoh, _, hrest2⟩ := hrest1b
        have hrest2b : ctxRB rest (h + 1) := by
          rw [hgb] at hrest2
          simpa using hrest2
        rw [insert_case3]
        match hu : gpF.other with
        | .node false us ul uv ur =>
            rw [hu] at hgor hgoh
            obtain ⟨hu1, hu2, hu3⟩ := redOk_node_elim hgor
            obtain ⟨mu, hul, hur, hueq⟩ := bh_node_elim hgoh
            have hmu : mu = h := by
              rw [if_neg Bool.false_ne_true] at hueq
              omega
            rw [hmu] at hul hur
            obtain ⟨hA1, hA2, hA3⟩ := assemble_rb
              (f := ⟨paF.dir, true, paF.size, paF.value, paF.other⟩) htr hth hpor hpoh
              (fun hcon => Bool.noConfusion hcon)
            have hA2b : bh (assemble ⟨paF.dir, true, paF.size, paF.value, paF.other⟩ t) =
                some (h + 1) := by simpa using hA2
            have hub : bh (.node true us ul uv ur : RBNode α) = some (h + 1) := by
              simpa using bh_node_of (b := true) hul hur
            have hur2 : redOk (.node true us ul uv ur : RBNode α) = true := by
              simp [redOk_node, hu1, hu2]
            obtain ⟨hB1, hB2, hB3⟩ := assemble_rb
              (f := ⟨gpF.dir, false, gpF.size, gpF.value, .node true us ul uv ur⟩)
              hA1 hA2b hur2 hub (fun _ => ⟨rfl, hA3⟩)
            have hB2b : bh (assemble ⟨gpF.dir, false, gpF.size, gpF.value,
                .node true us ul uv ur⟩
                (assemble ⟨paF.dir, true, paF.size, paF.value, paF.other⟩ t)) =
                some (h + 1) := by simpa using hB2
            have hlen2 : rest.length ≤ n := by simp at hlen; omega
            exact ih1 _ rest (h + 1) hlen2 hB3 hB1 hB2b hrest2b
        | .leaf =>
            exact insert_case4_rb ht htr hth hpb hpo hpor hpoh hgb
              (by rw [hu]; rfl) (by rw [hu]; rfl) hgoh hrest2b
        | .node true us ul uv ur =>
            exact insert_case4_rb ht htr hth hpb hpo hpor hpoh hgb
              (by rw [hu]; rfl) hgor hgoh hrest2b
      refine ⟨h3, ?_⟩
      intro t ctx h hlen ht htr hth hctx
      match ctx with
      | [] =>
          rw [insert_case1]
          exact ⟨rootBlack_blacken t, redOk_blacken htr, bh_blacken hth⟩
      | f :: fs =>
          rw [insert_case1]
          by_cases hb : f.black = true
          · rw [hb, if_pos rfl]
            exact plug_rb htr hth hctx (fun _ => by rw [frBlack_cons, hb])
              (fun hcon => List.noConfusion hcon)
          · have hfb : f.black = false := by
              revert hb
              cases f.black <;> simp
            rw [hfb, if_neg Bool.false_ne_true]
            match fs with
            | [] =>
                obtain ⟨_, _, hc3, _⟩ := hctx
                exact absurd ((hc3 hfb).2) (by simp)
            | gpF :: rest =>
                exact h3 t f gpF rest h hlen ht htr hth hfb hctx

lemma insert_case1_rb {t : RBNode α} {ctx : Ctx α} {h : Nat}
    (ht : rootBlack t = false) (htr : redOk t = true) (hth : bh t = some h)
    (hctx : ctxRB ctx h) : isRB (insert_case1 t ctx) :=
  (insert_case13_rb ctx.length).2 t ctx h le_rfl ht htr hth hctx

lemma frBlack_bumpSizes (ctx : Ctx α) : frBlack (bumpSizes ctx) = frBlack ctx := by
  cases ctx <;> rfl

lemma ctxRB_bumpSizes {ctx : Ctx α} : ∀ {h : Nat}, ctxRB ctx h → ctxRB (bumpSizes ctx) h := by
  induction ctx with
  | nil => intro h _; trivial
  | cons f fs ih =>
      intro h hc
      obtain ⟨h1, h2, h3, h4⟩ := hc
      refine ⟨h1, h2, fun hfb => ⟨(h3 hfb).1, ?_⟩, ih h4⟩
      show frBlack (bumpSizes fs) = true
      rw [frBlack_bumpSizes]
      exact (h3 hfb).2

lemma insertGo_rb (lt eq : α → α → Bool) (item : α) (ms : Bool) :
    ∀ (t : RBNode α) (ctx : Ctx α) (h : Nat),
      redOk t = true → bh t = some h → ctxRB ctx h →
      (rootBlack t = false → frBlack ctx = true) →
      (ctx = [] → rootBlack t = true) →
      isRB (insertGo lt eq item ms t ctx) := by
  intro t
  induction t with
  | leaf =>
      intro ctx h hred hbh hctx hcr hroot
      rw [insertGo.eq_def]
      exact plug_rb hred hbh hctx hcr hroot
  | node b s l v r ihl ihr =>
      intro ctx h hred hbh hctx hcr hroot
      obtain ⟨m, hbl, hbr, hbeq⟩ := bh_node_elim hbh
      obtain ⟨hrl, hrr, hrc⟩ := redOk_node_elim hred
      have hnew : bh (.node false 1 .leaf item .leaf : RBNode α) = some 1 := by
        have hx := bh_node_of (b := false) (s := 1) (v := item)
          (bh_leaf (α := α)) (bh_leaf (α := α))
        simpa using hx
      rw [insertGo.eq_def]
      simp only
      by_cases hc1 : (!ms && eq item v) = true
      · simp only [hc1, if_true]
        exact plug_rb hred hbh hctx hcr hroot
      · simp only [hc1, Bool.false_eq_true, if_false]
        by_cases hc2 : lt item v = true
        · simp only [hc2, if_true]
          match l, hbl, hrl, hrc with
          | .leaf, hbl, _, hrc =>
              have hm : m = 1 := (Option.some.inj hbl).symm
              subst hm
              refine insert_case1_rb rfl (by simp) hnew
                (ctxRB_bumpSizes (ctxRB_cons (f := ⟨.left, b, s, v, r⟩) hrr hbr ?_ ?_))
              · intro hfb
                exact ⟨(hrc hfb).2, hcr (by rw [rootBlack_node]; exact hfb)⟩
              · rw [← hbeq]
                exact hctx
          | .node lb ls ll lv2 lr, hbl, hrl, hrc =>
              refine ihl (⟨.left, b, s, v, r⟩ :: ctx) m hrl hbl
                (ctxRB_cons (f := ⟨.left, b, s, v, r⟩) hrr hbr ?_ (hbeq ▸ hctx)) ?_
                (fun hcon => List.noConfusion hcon)
              · intro hfb
                exact ⟨(hrc hfb).2, hcr (by rw [rootBlack_node]; exact hfb)⟩
              · intro hcon
                rw [frBlack_cons]
                by_contra hcon2
                have hx := (hrc (Bool.not_eq_true _ ▸ hcon2)).1
                rw [hcon] at hx
                exact Bool.noConfusion hx
        · simp only [hc2, Bool.false_eq_true, if_false]
          match r, hbr, hrr, hrc with
          | .leaf, hbr, _, hrc =>
              have hm : m = 1 := (Option.some.inj hbr).symm
              subst hm
              refine insert_case1_rb rfl (by simp) hnew
                (ctxRB_bumpSizes (ctxRB_cons (f := ⟨.right, b, s, v, l⟩) hrl hbl ?_ ?_))
              · intro hfb
                exact ⟨(hrc hfb).1, hcr (by rw [rootBlack_node]; exact hfb)⟩
              · rw [← hbeq]
                exact hctx
          | .node rb2 rs2 rl2 rv2 rr2, hbr, hrr, hrc =>
              refine ihr (⟨.right, b, s, v, l⟩ :: ctx) m hrr hbr
                (ctxRB_cons (f := ⟨.right, b, s, v, l⟩) hrl hbl ?_ (hbeq ▸ hctx)) ?_
                (fun hcon => List.noConfusion hcon)
              · intro hfb
                exact ⟨(hrc hfb).1, hcr (by rw [rootBlack_node]; exact hfb)⟩
              · intro hcon
                rw [frBlack_cons]
                by_contra hcon2
                have hx := (hrc (Bool.not_eq_true _ ▸ hcon2)).2
                rw [hcon] at hx
                exact Bool.noConfusion hx

/-- `insert` keeps invariants 2, 4 and 5. -/
lemma insert_rb (lt eq : α → α → Bool) (item : α) (ms : Bool) {t : RBNode α}
    (hrb : isRB t) : isRB (insert lt eq item ms t) := by
  rw [insert]
  by_cases h0 : len t = 0
  · rw [if_pos h0]
    refine ⟨rfl, by simp, ?_⟩
    rw [bh_node_of (b := true) (m := 1) bh_leaf bh_leaf]
    rfl
  · rw [if_neg h0]
    obtain ⟨hroot, hred, hbh⟩ := hrb
    obtain ⟨h, hh⟩ := Option.isSome_iff_exists.mp hbh
    exact insertGo_rb lt eq item ms t [] h hred hh trivial
      (fun hcon => Bool.noConfusion (hroot.symm.trans hcon))
      (fun _ => hroot)

lemma delete_case6_rb {t : RBNode α} {pd : Dir} {pb : Bool} {psz : Nat} {pv : α}
    {rest : Ctx α} {h ss : Nat} {sl : RBNode α} {sv : α} {sr : RBNode α}
    (ht : rootBlack t = true) (htr : redOk t = true) (hth : bh t = some h)
    (hsor : redOk (.node true ss sl sv sr : RBNode α) = true)
    (hsoh : bh (.node true ss sl sv sr : RBNode α) = some (h + 1))
    (hfar : (match pd with | .left => rootBlack sr | .right => rootBlack sl) = false)
    (hpimp : pb = false → frBlack rest = true)
    (hrest : ctxRB rest (h + 1 + (if pb then 1 else 0))) :
    isRB (delete_case6 t (⟨pd, pb, psz, pv, .node true ss sl sv sr⟩ :: rest)) := by
  obtain ⟨hslr, hsrr, _⟩ := redOk_node_elim hsor
  obtain ⟨m, hslh, hsrh, hmeq⟩ := bh_node_elim hsoh
  have hm : m = h := by rw [if_pos rfl] at hmeq; omega
  rw [hm] at hslh hsrh
  cases pd with
  | left =>
      simp only at hfar
      match sr, hfar, hsrh, hsrr with
      | .node false srs srl srv srr, _, hsrh, hsrr =>
          obtain ⟨hsrlr, hsrrr, _⟩ := redOk_node_elim hsrr
          obtain ⟨m2, hsrlh, hsrrh, hm2eq⟩ := bh_node_elim hsrh
          have hm2 : m2 = h := by rw [if_neg Bool.false_ne_true] at hm2eq; omega
          rw [hm2] at hsrlh hsrrh
          have hstep : delete_case6 t
              (⟨Dir.left, pb, psz, pv,
                .node true ss sl sv (.node false srs srl srv srr)⟩ :: rest) =
              plug (.node pb ((len t + 1 + len sl) + 1 + srs)
                (.node true (len t + 1 + len sl) t pv sl) sv
                (.node true srs srl srv srr)) rest := rfl
          rw [hstep]
          have hbL : bh (.node true (len t + 1 + len sl) t pv sl : RBNode α) =
              some (h + 1) := by
            simpa using bh_node_of (b := true) hth hslh
          have hbF : bh (.node true srs srl srv srr : RBNode α) = some (h + 1) := by
            simpa using bh_node_of (b := true) hsrlh hsrrh
          have hbR := bh_node_of (b := pb) (s := (len t + 1 + len sl) + 1 + srs)
            (v := sv) hbL hbF
          have hrR : redOk (.node pb ((len t + 1 + len sl) + 1 + srs)
              (.node true (len t + 1 + len sl) t pv sl) sv
              (.node true srs srl srv srr) : RBNode α) = true := by
            simp [redOk_node, htr, hslr, hsrlr, hsrrr]
          refine plug_rb hrR hbR hrest (fun hcon => hpimp hcon) ?_
          intro hnil
          show pb = true
          cases pb with
          | true => rfl
          | false =>
              have hx := hpimp rfl
              rw [hnil] at hx
              exact Bool.noConfusion hx
      | .leaf, hfar, _, _ => exact Bool.noConfusion hfar
      | .node true srs srl srv srr, hfar, _, _ => exact Bool.noConfusion hfar
  | right =>
      simp only at hfar
      match sl, hfar, hslh, hslr with
      | .node false sls sll slv slr, _, hslh, hslr =>
          obtain ⟨hsllr, hslrr, _⟩ := redOk_node_elim hslr
          obtain ⟨m2, hsllh, hslrh, hm2eq⟩ := bh_node_elim hslh
          have hm2 : m2 = h := by rw [if_neg Bool.false_ne_true] at hm2eq; omega
          rw [hm2] at hsllh hslrh
          have hstep : delete_case6 t
              (⟨Dir.right, pb, psz, pv,
                .node true ss (.node false sls sll slv slr) sv sr⟩ :: rest) =
              plug (.node pb (sls + 1 + (len sr + 1 + len t))
                (.node true sls sll slv slr) sv
                (.node true (len sr + 1 + len t) sr pv t)) rest := rfl
          rw [hstep]
          have hbL : bh (.node true sls sll slv slr : RBNode α) = some (h + 1) := by
            simpa using bh_node_of (b := true) hsllh hslrh
          have hbF : bh (.node true (len sr + 1 + len t) sr pv t : RBNode α) =
              some (h + 1) := by
            simpa using bh_node_of (b := true) hsrh hth
          have hbR := bh_node_of (b := pb) (s := sls + 1 + (len sr + 1 + len t))
            (v := sv) hbL hbF
          have hrR : redOk (.node pb (sls + 1 + (len sr + 1 + len t))
              (.node true sls sll slv slr) sv
              (.node true (len sr + 1 + len t) sr pv t) : RBNode α) = true := by
            simp [redOk_node, htr, hsrr, hsllr, hslrr]
          refine plug_rb hrR hbR hrest (fun hcon => hpimp hcon) ?_
          intro hnil
          show pb = true
          cases pb with
          | true => rfl
          | false =>
              have hx := hpimp rfl
              rw [hnil] at hx
              exact Bool.noConfusion hx
      | .leaf, hfar, _, _ => exact Bool.noConfusion hfar
      | .node true sls sll slv slr, hfar, _, _ => exact Bool.noConfusion hfar

lemma delete_case5_rb {t : RBNode α} {pd : Dir} {pb : Bool} {psz : Nat} {pv : α}
    {rest : Ctx α} {h ss : Nat} {sl : RBNode α} {sv : α} {sr : RBNode α}
    (ht : rootBlack t = true) (htr : redOk t = true) (hth : bh t = some h)
    (hsor : redOk (.node true ss sl sv sr : RBNode α) = true)
    (hsoh : bh (.node true ss sl sv sr : RBNode α) = some (h + 1))
    (hnotbb : ¬(rootBlack sl = true ∧ rootBlack sr = true))
    (hpimp : pb = false → frBlack rest = true)
    (hrest : ctxRB rest (h + 1 + (if pb then 1 else 0))) :
    isRB (delete_case5 t (⟨pd, pb, psz, pv, .node true ss sl sv sr⟩ :: rest)) := by
  obtain ⟨hslr, hsrr, _⟩ := redOk_node_elim hsor
  obtain ⟨m, hslh, hsrh, hmeq⟩ := bh_node_elim hsoh
  have hm : m = h := by rw [if_pos rfl] at hmeq; omega
  rw [hm] at hslh hsrh
  rw [delete_case5]
  simp only
  simp only [if_true]
  cases pd with
  | left =>
      by_cases hcond : (rootBlack sr && rootRed sl) = true
      · rw [if_pos hcond]
        simp only [Bool.and_eq_true, rootRed, Bool.not_eq_true'] at hcond
        obtain ⟨hsrB, hslF⟩ := hcond
        match sl, hslF, hslh, hslr with
        | .node false sls sll slv slr, _, hslh, hslr =>
            obtain ⟨hsllr, hslrr, hslc⟩ := redOk_node_elim hslr
            obtain ⟨m2, hsllh, hslrh, hm2eq⟩ := bh_node_elim hslh
            have hm2 : m2 = h := by rw [if_neg Bool.false_ne_true] at hm2eq; omega
            rw [hm2] at hsllh hslrh
            show isRB (delete_case6 t
              (⟨Dir.left, pb, psz, pv,
                .node true (len sll + 1 + (len slr + 1 + len sr)) sll slv
                  (.node false (len slr + 1 + len sr) slr sv sr)⟩ :: rest))
            have hbI : bh (.node false (len slr + 1 + len sr) slr sv sr : RBNode α) =
                some h := by
              simpa using bh_node_of (b := false) hslrh hsrh
            refine delete_case6_rb ht htr hth ?_ ?_ rfl hpimp hrest
            · simp [redOk_node, hsllr, hslrr, hsrr, (hslc rfl).2, hsrB]
            · simpa using bh_node_of (b := true)
                (s := len sll + 1 + (len slr + 1 + len sr)) (v := slv) hsllh hbI
      · rw [if_neg hcond]
        have hsrf : rootBlack sr = false := by
          by_contra hc2
          have hsrb : rootBlack sr = true := by
            revert hc2
            cases rootBlack sr <;> simp
          have hslf : rootBlack sl = false := by
            by_contra hc3
            refine hnotbb ⟨?_, hsrb⟩
            revert hc3
            cases rootBlack sl <;> simp
          apply hcond
          rw [hsrb]
          simp [rootRed, hslf]
        exact delete_case6_rb ht htr hth hsor hsoh hsrf hpimp hrest
  | right =>
      by_cases hcond : (rootBlack sl && rootRed sr) = true
      · rw [if_pos hcond]
        simp only [Bool.and_eq_true, rootRed, Bool.not_eq_true'] at hcond
        obtain ⟨hslB, hsrF⟩ := hcond
        match sr, hsrF, hsrh, hsrr with
        | .node false srs srl srv srr, _, hsrh, hsrr =>
            obtain ⟨hsrlr, hsrrr, hsrc⟩ := redOk_node_elim hsrr
            obtain ⟨m2, hsrlh, hsrrh, hm2eq⟩ := bh_node_elim hsrh
            have hm2 : m2 = h := by rw [if_neg Bool.false_ne_true] at hm2eq; omega
            rw [hm2] at hsrlh hsrrh
            show isRB (delete_case6 t
              (⟨Dir.right, pb, psz, pv,
                .node true ((len sl + 1 + len srl) + 1 + len srr)
                  (.node false (len sl + 1 + len srl) sl sv srl) srv srr⟩ :: rest))
            have hbI : bh (.node false (len sl + 1 + len srl) sl sv srl : RBNode α) =
                some h := by
              simpa using bh_node_of (b := false) hslh hsrlh
            refine delete_case6_rb ht htr hth ?_ ?_ rfl hpimp hrest
            · simp [redOk_node, hslr, hsrlr, hsrrr, (hsrc rfl).1, hslB]
            · simpa using bh_node_of (b := true)
                (s := (len sl + 1 + len srl) + 1 + len srr) (v := srv) hbI hsrrh
      · rw [if_neg hcond]
        have hslf : rootBlack sl = false := by
          by_contra hc2
          have hslb : rootBlack sl = true := by
            revert hc2
            cases rootBlack sl <;> simp
          have hsrf2 : rootBlack sr = false := by
            by_contra hc3
            refine hnotbb ⟨hslb, ?_⟩
            revert hc3
            cases rootBlack sr <;> simp
          apply hcond
          rw [hslb]
          simp [rootRed, hsrf2]
        exact delete_case6_rb ht htr hth hsor hsoh hslf hpimp hrest

lemma delete_case4_rb {t : RBNode α} {pd : Dir} {pb : Bool} {psz : Nat} {pv : α}
    {rest : Ctx α} {h ss : Nat} {sl : RBNode α} {sv : α} {sr : RBNode α}
    (ht : rootBlack t = true) (htr : redOk t = true) (hth : bh t = some h)
    (hsor : redOk (.node true ss sl sv sr : RBNode α) = true)
    (hsoh : bh (.node true ss sl sv sr : RBNode α) = some (h + 1))
    (hnot3 : ¬(pb = true ∧ rootBlack sl = true ∧ rootBlack sr = true))
    (hpimp : pb = false → frBlack rest = true)
    (hrest : ctxRB rest (h + 1 + (if pb then 1 else 0))) :
    isRB (delete_case4 t (⟨pd, pb, psz, pv, .node true ss sl sv sr⟩ :: rest)) := by
  obtain ⟨hslr, hsrr, _⟩ := redOk_node_elim hsor
  obtain ⟨m, hslh, hsrh, hmeq⟩ := bh_node_elim hsoh
  have hm : m = h := by rw [if_pos rfl] at hmeq; omega
  rw [hm] at hslh hsrh
  rw [delete_case4]
  simp only
  by_cases hc : (!pb && true && rootBlack sl && rootBlack sr) = true
  · rw [if_pos hc]
    simp only [Bool.and_eq_true, Bool.not_eq_true'] at hc
    obtain ⟨⟨⟨hpbF, _⟩, hslB⟩, hsrB⟩ := hc
    subst hpbF
    have hsib : redOk (.node false ss sl sv sr : RBNode α) = true := by
      simp [redOk_node, hslr, hsrr, hslB, hsrB]
    have hsibh : bh (.node false ss sl sv sr : RBNode α) = some h := by
      simpa using bh_node_of (b := false) hslh hsrh
    obtain ⟨hA1, hA2, hA3⟩ := assemble_rb
      (f := ⟨pd, true, psz, pv, .node false ss sl sv sr⟩) htr hth hsib hsibh
      (fun hf => Bool.noConfusion hf)
    have hA2b : bh (assemble ⟨pd, true, psz, pv, .node false ss sl sv sr⟩ t) =
        some (h + 1) := by simpa using hA2
    have hrest2 : ctxRB rest (h + 1) := by simpa using hrest
    exact plug_rb hA1 hA2b hrest2
      (fun hcon => Bool.noConfusion (hA3.symm.trans hcon)) (fun _ => hA3)
  · rw [if_neg hc]
    have hnotbb : ¬(rootBlack sl = true ∧ rootBlack sr = true) := by
      intro hboth
      have hpbT : pb = true := by
        by_contra hc2
        have hpf : pb = false := by
          revert hc2
          cases pb <;> simp
        apply hc
        rw [hpf, hboth.1, hboth.2]
        rfl
      exact hnot3 ⟨hpbT, hboth⟩
    exact delete_case5_rb ht htr hth hsor hsoh hnotbb hpimp hrest

/-- Color of the innermost pending frame's other child (`true` at the root). -/
def headOtherBlack : Ctx α → Bool
  | [] => true
  | f :: _ => rootBlack f.other

lemma delete_case23_rb (fuel : Nat) :
    (∀ (t : RBNode α) (ctx : Ctx α) (h : Nat), ctx.length + 1 ≤ fuel →
      rootBlack t = true → redOk t = true → bh t = some h → ctxRB ctx (h + 1) →
      isRB (delete_case2 fuel t ctx)) ∧
    (∀ (t : RBNode α) (ctx : Ctx α) (h : Nat),
      frBlack ctx = false ∨ ctx.length ≤ fuel →
      headOtherBlack ctx = true →
      rootBlack t = true → redOk t = true → bh t = some h → ctxRB ctx (h + 1) →
      isRB (delete_case3 fuel t ctx)) := by
  induction fuel with
  | zero =>
      have h2 : ∀ (t : RBNode α) (ctx : Ctx α) (h : Nat), ctx.length + 1 ≤ 0 →
          rootBlack t = true → redOk t = true → bh t = some h → ctxRB ctx (h + 1) →
          isRB (delete_case2 0 t ctx) := by
        intro t ctx h hlen
        exact absurd hlen (by omega)
      refine ⟨h2, ?_⟩
      intro t ctx h hfuel hhob ht htr hth hctx
      match ctx with
      | [] =>
          rw [delete_case3]
          exact ⟨ht, htr, by rw [hth]; rfl⟩
      | paF :: rest =>
          obtain ⟨pd, pb, psz, pv, po⟩ := paF
          obtain ⟨hp1, hp2, hp3, hp4⟩ := hctx
          simp only at hp1 hp2 hp3 hp4 hhob hfuel
          match po, hp1, hp2, hp3, hp4, hhob with
          | .leaf, _, hp2, _, _, _ =>
              rw [bh_leaf] at hp2
              exact absurd (Option.some.inj hp2) (by have hx := bh_pos hth; omega)
          | .node sb ss sl sv sr, hp1, hp2, hp3, hp4, hhob =>
              have hsb : sb = true := hhob
              subst hsb
              rw [delete_case3]
              simp only
              by_cases hcond : (pb && true && rootBlack sl && rootBlack sr) = true
              · simp only [Bool.and_eq_true] at hcond
                have hpbT : pb = true := hcond.1.1.1
                rcases hfuel with hf | hf
                · rw [hpbT] at hf
                  exact Bool.noConfusion hf
                · exact absurd hf (by simp)
              · rw [if_neg hcond]
                have hnot3 : ¬(pb = true ∧ rootBlack sl = true ∧ rootBlack sr = true) := by
                  intro hx
                  exact hcond (by rw [hx.1, hx.2.1, hx.2.2]; rfl)
                exact delete_case4_rb ht htr hth hp1 hp2 hnot3
                  (fun hfb => (hp3 hfb).2) hp4
  | succ fuel ih =>
      have h2 : ∀ (t : RBNode α) (ctx : Ctx α) (h : Nat), ctx.length + 1 ≤ fuel + 1 →
          rootBlack t = true → redOk t = true → bh t = some h → ctxRB ctx (h + 1) →
          isRB (delete_case2 (fuel + 1) t ctx) := by
        intro t ctx h hlen ht htr hth hctx
        match ctx with
        | [] =>
            rw [delete_case2]
            exact ⟨ht, htr, by rw [hth]; rfl⟩
        | paF :: rest =>
            obtain ⟨pd, pb, psz, pv, po⟩ := paF
            obtain ⟨hp1, hp2, hp3, hp4⟩ := hctx
            simp only at hp1 hp2 hp3 hp4
            rw [delete_case2]
            simp only
            match po, hp1, hp2, hp3, hp4 with
            | .leaf, _, hp2, _, _ =>
                rw [bh_leaf] at hp2
                exact absurd (Option.some.inj hp2) (by have hx := bh_pos hth; omega)
            | .node false ss sl sv sr, hp1, hp2, hp3, hp4 =>
                have hpb : pb = true := by
                  by_contra hc2
                  have hpf : pb = false := by
                    revert hc2
                    cases pb <;> simp
                  exact Bool.noConfusion ((hp3 hpf).1)
                subst hpb
                obtain ⟨hslr, hsrr, hsc⟩ := redOk_node_elim hp1
                obtain ⟨m, hslh, hsrh, hmeq⟩ := bh_node_elim hp2
                have hm : m = h + 1 := by rw [if_neg Bool.false_ne_true] at hmeq; omega
                rw [hm] at hslh hsrh
                have hscc := hsc rfl
                cases pd with
                | left =>
                    refine (ih.2) t _ h (Or.inl rfl) hscc.1 ht htr hth ?_
                    refine ctxRB_cons hslr hslh (fun _ => ⟨hscc.1, rfl⟩) ?_
                    simp only [Bool.false_eq_true, if_false, Nat.add_zero]
                    refine ctxRB_cons hsrr hsrh (fun hf => Bool.noConfusion hf) ?_
                    exact hp4
                | right =>
                    refine (ih.2) t _ h (Or.inl rfl) hscc.2 ht htr hth ?_
                    refine ctxRB_cons hsrr hsrh (fun _ => ⟨hscc.2, rfl⟩) ?_
                    simp only [Bool.false_eq_true, if_false, Nat.add_zero]
                    refine ctxRB_cons hslr hslh (fun hf => Bool.noConfusion hf) ?_
                    exact hp4
            | .node true ss sl sv sr, hp1, hp2, hp3, hp4 =>
                refine (ih.2) t _ h (Or.inr ?_) rfl ht htr hth ⟨hp1, hp2, hp3, hp4⟩
                simp at hlen ⊢
                omega
      refine ⟨h2, ?_⟩
      intro t ctx h hfuel hhob ht htr hth hctx
      match ctx with
      | [] =>
          rw [delete_case3]
          exact ⟨ht, htr, by rw [hth]; rfl⟩
      | paF :: rest =>
          obtain ⟨pd, pb, psz, pv, po⟩ := paF
          obtain ⟨hp1, hp2, hp3, hp4⟩ := hctx
          simp only at hp1 hp2 hp3 hp4 hhob hfuel
          match po, hp1, hp2, hp3, hp4, hhob with
          | .leaf, _, hp2, _, _, _ =>
              rw [bh_leaf] at hp2
              exact absurd (Option.some.inj hp2) (by have hx := bh_pos hth; omega)
          | .node sb ss sl sv sr, hp1, hp2, hp3, hp4, hhob =>
              have hsb : sb = true := hhob
              subst hsb
              rw [delete_case3]
              simp only
              by_cases hcond : (pb && true && rootBlack sl && rootBlack sr) = true
              · rw [if_pos hcond]
                simp only [Bool.and_eq_true] at hcond
                obtain ⟨⟨⟨hpbT, _⟩, hslB⟩, hsrB⟩ := hcond
                subst hpbT
                obtain ⟨hslr, hsrr, _⟩ := redOk_node_elim hp1
                obtain ⟨m, hslh, hsrh, hmeq⟩ := bh_node_elim hp2
                have hm : m = h := by rw [if_pos rfl] at hmeq; omega
                rw [hm] at hslh hsrh
                have hsib : redOk (.node false ss sl sv sr : RBNode α) = true := by
                  simp [redOk_node, hslr, hsrr, hslB, hsrB]
                have hsibh : bh (.node false ss sl sv sr : RBNode α) = some h := by
                  simpa using bh_node_of (b := false) hslh hsrh
                obtain ⟨hA1, hA2, hA3⟩ := assemble_rb
                  (f := ⟨pd, true, psz, pv, .node false ss sl sv sr⟩) htr hth hsib hsibh
                  (fun hf => Bool.noConfusion hf)
                have hA2b : bh (assemble ⟨pd, true, psz, pv, .node false ss sl sv sr⟩ t) =
                    some (h + 1) := by simpa using hA2
                have hlen2 : rest.length + 1 ≤ fuel + 1 := by
                  rcases hfuel with hf | hf
                  · exact Bool.noConfusion hf
                  · simpa using hf
                refine h2 _ rest (h + 1) hlen2 hA3 hA1 hA2b ?_
                simpa using hp4
              · rw [if_neg hcond]
                have hnot3 : ¬(pb = true ∧ rootBlack sl = true ∧ rootBlack sr = true) := by
                  intro hx
                  exact hcond (by rw [hx.1, hx.2.1, hx.2.2]; rfl)
                exact delete_case4_rb ht htr hth hp1 hp2 hnot3
                  (fun hfb => (hp3 hfb).2) hp4

lemma delete_one_child_rb {b : Bool} {s : Nat} {l : RBNode α} {v : α} {r : RBNode α}
    {ctx : Ctx α} {n : Nat}
    (hshape : l = .leaf ∨ r = .leaf)
    (hred : redOk (.node b s l v r : RBNode α) = true)
    (hbh : bh (.node b s l v r : RBNode α) = some n)
    (hctx : ctxRB ctx n)
    (hcr : b = false → frBlack ctx = true)
    (hroot : ctx = [] → b = true) :
    isRB (delete_one_child (.node b s l v r) ctx) := by
  obtain ⟨hrl, hrr, hrc⟩ := redOk_node_elim hred
  obtain ⟨m, hbl, hbr, hmeq⟩ := bh_node_elim hbh
  match r, hbr, hrr, hrc, hshape with
  | .leaf, hbr, _, hrc, _ =>
      have hm1 : m = 1 := by
        rw [bh_leaf] at hbr
        exact (Option.some.inj hbr).symm
      subst hm1
      rw [delete_one_child.eq_def]
      simp only
      cases b with
      | false =>
          have hlf : l = .leaf := eq_leaf_of_bh_one hbl ((hrc rfl).1)
          subst hlf
          have hv1 : n = 1 := by rw [if_neg Bool.false_ne_true] at hmeq; omega
          subst hv1
          exact plug_rb rfl bh_leaf hctx (fun hcon => Bool.noConfusion hcon) (fun _ => rfl)
      | true =>
          have hv2 : n = 2 := by rw [if_pos rfl] at hmeq; omega
          subst hv2
          match l, hbl, hrl with
          | .leaf, _, _ =>
              exact (delete_case23_rb (ctx.length + 1)).1 .leaf ctx 1 le_rfl rfl rfl
                bh_leaf hctx
          | .node false cs cl cv cr, hbl, hrl =>
              obtain ⟨mc, hcl2, hcr2, hceq⟩ := bh_node_elim hbl
              have hmc : mc = 1 := by rw [if_neg Bool.false_ne_true] at hceq; omega
              rw [hmc] at hcl2 hcr2
              obtain ⟨hrcl, hrcr, _⟩ := redOk_node_elim hrl
              have hbB : bh (.node true cs cl cv cr : RBNode α) = some 2 := by
                simpa using bh_node_of (b := true) hcl2 hcr2
              have hrB : redOk (.node true cs cl cv cr : RBNode α) = true := by
                simp [redOk_node, hrcl, hrcr]
              exact plug_rb hrB hbB hctx (fun hcon => Bool.noConfusion hcon) (fun _ => rfl)
          | .node true cs cl cv cr, hbl, _ =>
              exact absurd (eq_leaf_of_bh_one hbl rfl) (fun hx => RBNode.noConfusion hx)
  | .node rb2 rs2 rl2 rv2 rr2, hbr, hrr, hrc, hshape =>
      have hlf : l = .leaf := by
        rcases hshape with hx | hx
        · exact hx
        · exact absurd hx (fun hy => RBNode.noConfusion hy)
      subst hlf
      have hm1 : m = 1 := by
        rw [bh_leaf] at hbl
        exact (Option.some.inj hbl).symm
      subst hm1
      rw [delete_one_child.eq_def]
      simp only
      cases b with
      | false =>
          exact absurd (eq_leaf_of_bh_one hbr ((hrc rfl).2))
            (fun hx => RBNode.noConfusion hx)
      | true =>
          have hv2 : n = 2 := by rw [if_pos rfl] at hmeq; omega
          subst hv2
          cases rb2 with
          | false =>
              obtain ⟨mc, hc1, hc2, hceq⟩ := bh_node_elim hbr
              have hmc : mc = 1 := by rw [if_neg Bool.false_ne_true] at hceq; omega
              rw [hmc] at hc1 hc2
              obtain ⟨hr1, hr2, _⟩ := redOk_node_elim hrr
              have hbB : bh (.node true rs2 rl2 rv2 rr2 : RBNode α) = some 2 := by
                simpa using bh_node_of (b := true) hc1 hc2
              have hrB : redOk (.node true rs2 rl2 rv2 rr2 : RBNode α) = true := by
                simp [redOk_node, hr1, hr2]
              exact plug_rb hrB hbB hctx (fun hcon => Bool.noConfusion hcon) (fun _ => rfl)
          | true =>
              exact absurd (eq_leaf_of_bh_one hbr rfl) (fun hx => RBNode.noConfusion hx)

lemma frBlack_decCtx (ctx : Ctx α) : frBlack (decCtx ctx) = frBlack ctx := by
  cases ctx <;> rfl

lemma decCtx_eq_nil {ctx : Ctx α} (h : decCtx ctx = []) : ctx = [] := by
  cases ctx with
  | nil => rfl
  | cons f fs =>
      rw [decCtx_cons] at h
      exact List.noConfusion h

lemma ctxRB_decCtx {ctx : Ctx α} : ∀ {h : Nat}, ctxRB ctx h → ctxRB (decCtx ctx) h := by
  induction ctx with
  | nil => intro h _; trivial
  | cons f fs ih =>
      intro h hc
      obtain ⟨h1, h2, h3, h4⟩ := hc
      refine ⟨h1, h2, fun hfb => ⟨(h3 hfb).1, ?_⟩, ih h4⟩
      show frBlack (decCtx fs) = true
      rw [frBlack_decCtx]
      exact (h3 hfb).2

lemma rootBlack_setValueAt : ∀ (t : RBNode α) (p : Path) (x : α),
    rootBlack (setValueAt t p x) = rootBlack t
  | .leaf, _, _ => rfl
  | .node b s l v r, [], x => rfl
  | .node b s l v r, .left :: p, x => rfl
  | .node b s l v r, .right :: p, x => rfl

lemma redOk_setValueAt : ∀ (t : RBNode α) (p : Path) (x : α),
    redOk (setValueAt t p x) = redOk t
  | .leaf, _, _ => rfl
  | .node b s l v r, [], x => rfl
  | .node b s l v r, .left :: p, x => by
      rw [setValueAt, redOk_node, redOk_node, redOk_setValueAt l p x,
        rootBlack_setValueAt l p x]
  | .node b s l v r, .right :: p, x => by
      rw [setValueAt, redOk_node, redOk_node, redOk_setValueAt r p x,
        rootBlack_setValueAt r p x]

lemma bh_setValueAt : ∀ (t : RBNode α) (p : Path) (x : α),
    bh (setValueAt t p x) = bh t
  | .leaf, _, _ => rfl
  | .node b s l v r, [], x => rfl
  | .node b s l v r, .left :: p, x => by
      rw [setValueAt, bh_node, bh_node, bh_setValueAt l p x]
  | .node b s l v r, .right :: p, x => by
      rw [setValueAt, bh_node, bh_node, bh_setValueAt r p x]

/-- `_delete_node` on a node present in the tree keeps invariants 2, 4
and 5. -/
lemma delete_node_rb {t : RBNode α} {p : Path} {b : Bool} {s : Nat}
    {l : RBNode α} {v : α} {r : RBNode α} {ctxT : Ctx α}
    (hrb : isRB t)
    (hu : unzip t p = some (.node b s l v r, ctxT)) :
    isRB (delete_node t p) := by
  match l, r, hu with
  | .leaf, .leaf, hu =>
      rw [delete_node_caseC hu]
      obtain ⟨h1, hredv, hbhv, hctx, hcrv, hrootv⟩ := ctxRB_of_unzip hrb hu
      refine delete_one_child_rb (Or.inl rfl) hredv hbhv (ctxRB_decCtx hctx) ?_ ?_
      · intro hfb
        rw [frBlack_decCtx]
        exact hcrv hfb
      · intro hnil
        exact hrootv (decCtx_eq_nil hnil)
  | .node lb ls ll lv lr, _, hu =>
      obtain ⟨b2, s2, l2, m, lctx, hL1, hL2, hu2, heq⟩ := delete_node_caseA hu
      rw [heq]
      have hrb2 : isRB (setValueAt t p m) := by
        obtain ⟨ha, hb2, hc⟩ := hrb
        refine ⟨?_, ?_, ?_⟩
        · rw [rootBlack_setValueAt]
          exact ha
        · rw [redOk_setValueAt]
          exact hb2
        · rw [bh_setValueAt]
          exact hc
      obtain ⟨h1, hredv, hbhv, hctx, hcrv, hrootv⟩ := ctxRB_of_unzip hrb2 hu2
      refine delete_one_child_rb (Or.inr rfl) hredv hbhv (ctxRB_decCtx hctx) ?_ ?_
      · intro hfb
        rw [frBlack_decCtx]
        exact hcrv hfb
      · intro hnil
        exact hrootv (decCtx_eq_nil hnil)
  | .leaf, .node rb2 rs2 rl2 rv2 rr2, hu =>
      obtain ⟨b2, s2, r2, m, rctx, hR1, hR2, hu2, heq⟩ := delete_node_caseB hu
      rw [heq]
      have hrb2 : isRB (setValueAt t p m) := by
        obtain ⟨ha, hb2, hc⟩ := hrb
        refine ⟨?_, ?_, ?_⟩
        · rw [rootBlack_setValueAt]
          exact ha
        · rw [redOk_setValueAt]
          exact hb2
        · rw [bh_setValueAt]
          exact hc
      obtain ⟨h1, hredv, hbhv, hctx, hcrv, hrootv⟩ := ctxRB_of_unzip hrb2 hu2
      refine delete_one_child_rb (Or.inl rfl) hredv hbhv (ctxRB_decCtx hctx) ?_ ?_
      · intro hfb
        rw [frBlack_decCtx]
        exact hcrv hfb
      · intro hnil
        exact hrootv (decCtx_eq_nil hnil)

/-! ### In-order characterization of insertion and sortedness (invariant 8) -/

/-- List-level model of the descent of `insert`: where the item lands in the
in-order sequence (replacement on an equal value in set mode, otherwise
between the values it compares between). -/
def insList (lt eq : α → α → Bool) (item : α) (ms : Bool) : RBNode α → List α
  | .leaf => [item]
  | .node _ _ l v r =>
      if !ms && eq item v then inorder l ++ item :: inorder r
      else if lt item v then insList lt eq item ms l ++ v :: inorder r
      else inorder l ++ v :: insList lt eq item ms r

lemma ctxInL_bumpSizes (ctx : Ctx α) : ctxInL (bumpSizes ctx) = ctxInL ctx := by
  induction ctx with
  | nil => rfl
  | cons f fs ih =>
      obtain ⟨d, b, sz, v, o⟩ := f
      rw [show bumpSizes (⟨d, b, sz, v, o⟩ :: fs) =
        (⟨d, b, sz + 1, v, o⟩ :: bumpSizes fs : Ctx α) from rfl]
      rw [ctxInL_cons, ctxInL_cons, ih]

lemma ctxInR_bumpSizes (ctx : Ctx α) : ctxInR (bumpSizes ctx) = ctxInR ctx := by
  induction ctx with
  | nil => rfl
  | cons f fs ih =>
      obtain ⟨d, b, sz, v, o⟩ := f
      rw [show bumpSizes (⟨d, b, sz, v, o⟩ :: fs) =
        (⟨d, b, sz + 1, v, o⟩ :: bumpSizes fs : Ctx α) from rfl]
      rw [ctxInR_cons, ctxInR_cons, ih]

lemma inorder_insertGo (lt eq : α → α → Bool) (item : α) (ms : Bool) :
    ∀ (t : RBNode α) (ctx : Ctx α), t ≠ .leaf →
      inorder (insertGo lt eq item ms t ctx) =
        ctxInL ctx ++ insList lt eq item ms t ++ ctxInR ctx := by
  intro t
  induction t with
  | leaf =>
      intro ctx hne
      exact absurd rfl hne
  | node b s l v r ihl ihr =>
      intro ctx _
      rw [insertGo.eq_def, insList]
      simp only
      by_cases hc1 : (!ms && eq item v) = true
      · simp only [hc1, if_true]
        rw [inorder_plug]
        simp only [inorder_node]
      · simp only [hc1, Bool.false_eq_true, if_false]
        by_cases hc2 : lt item v = true
        · simp only [hc2, if_true]
          match l with
          | .leaf =>
              rw [inorder_insert_case1, inorder_plug, ctxInL_bumpSizes, ctxInR_bumpSizes,
                ctxInL_cons, ctxInR_cons, insList]
              simp [List.append_assoc]
          | .node lb ls ll lv2 lr =>
              rw [ihl _ (fun hx => RBNode.noConfusion hx), ctxInL_cons, ctxInR_cons]
              simp [List.append_assoc]
        · simp only [hc2, Bool.false_eq_true, if_false]
          match r with
          | .leaf =>
              rw [inorder_insert_case1, inorder_plug, ctxInL_bumpSizes, ctxInR_bumpSizes,
                ctxInL_cons, ctxInR_cons, insList]
              simp [List.append_assoc]
          | .node rb2 rs2 rl2 rv2 rr2 =>
              rw [ihr _ (fun hx => RBNode.noConfusion hx), ctxInL_cons, ctxInR_cons]
              simp [List.append_assoc]

lemma inorder_insert (lt eq : α → α → Bool) (item : α) (ms : Bool) {t : RBNode α}
    (hs : sizeOk t = true) :
    inorder (insert lt eq item ms t) = insList lt eq item ms t := by
  rw [insert]
  by_cases h0 : len t = 0
  · rw [if_pos h0]
    match t, hs, h0 with
    | .leaf, _, _ => rfl
    | .node b s l v r, hs, h0 =>
        obtain ⟨hss, _, _⟩ := sizeOk_node_iff.mp hs
        rw [len_node] at h0
        exact absurd hss (by omega)
  · rw [if_neg h0]
    have hne : t ≠ .leaf := by
      intro hx
      subst hx
      exact h0 rfl
    rw [inorder_insertGo lt eq item ms t [] hne]
    simp

lemma mem_insList (lt eq : α → α → Bool) (item : α) (ms : Bool) :
    ∀ (t : RBNode α) (x : α), x ∈ insList lt eq item ms t → x ∈ inorder t ∨ x = item := by
  intro t
  induction t with
  | leaf =>
      intro x hx
      rw [insList] at hx
      exact Or.inr (List.mem_singleton.mp hx)
  | node b s l v r ihl ihr =>
      intro x hx
      rw [insList] at hx
      by_cases hc1 : (!ms && eq item v) = true
      · rw [if_pos hc1] at hx
        rw [List.mem_append, List.mem_cons] at hx
        rcases hx with hx | hx | hx
        · exact Or.inl (by simp [hx])
        · exact Or.inr hx
        · exact Or.inl (by simp [hx])
      · rw [if_neg hc1] at hx
        by_cases hc2 : lt item v = true
        · rw [if_pos hc2] at hx
          rw [List.mem_append, List.mem_cons] at hx
          rcases hx with hx | hx | hx
          · rcases ihl x hx with hy | hy
            · exact Or.inl (by simp [hy])
            · exact Or.inr hy
          · exact Or.inl (by simp [hx])
          · exact Or.inl (by simp [hx])
        · rw [if_neg hc2] at hx
          rw [List.mem_append, List.mem_cons] at hx
          rcases hx with hx | hx | hx
          · exact Or.inl (by simp [hx])
          · exact Or.inl (by simp [hx])
          · rcases ihr x hx with hy | hy
            · exact Or.inl (by simp [hy])
            · exact Or.inr hy

lemma sorted_insList [LinearOrder α] {lt eq : α → α → Bool}
    (hlt : ∀ a b : α, lt a b = true ↔ a < b)
    (heq : ∀ a b : α, eq a b = true ↔ a = b)
    (item : α) (ms : Bool) :
    ∀ (t : RBNode α), List.Sorted (· ≤ ·) (inorder t) →
      List.Sorted (· ≤ ·) (insList lt eq item ms t) := by
  intro t
  induction t with
  | leaf =>
      intro _
      rw [insList]
      simp
  | node b s l v r ihl ihr =>
      intro hs
      rw [inorder_node] at hs
      rw [List.Sorted, List.pairwise_append] at hs
      obtain ⟨hsl, hvr, hcross⟩ := hs
      have hvler : ∀ y ∈ inorder r, v ≤ y := (List.pairwise_cons.mp hvr).1
      have hsr : List.Sorted (· ≤ ·) (inorder r) := (List.pairwise_cons.mp hvr).2
      rw [insList]
      by_cases hc1 : (!ms && eq item v) = true
      · rw [if_pos hc1]
        have hiv : item = v := by
          refine (heq _ _).mp ?_
          have hx := (Bool.and_eq_true _ _).mp hc1
          exact hx.2
        rw [hiv]
        rw [List.Sorted, List.pairwise_append]
        exact ⟨hsl, hvr, hcross⟩
      · rw [if_neg hc1]
        by_cases hc2 : lt item v = true
        · rw [if_pos hc2]
          have hltv : item < v := (hlt _ _).mp hc2
          rw [List.Sorted, List.pairwise_append]
          refine ⟨ihl hsl, hvr, ?_⟩
          intro x hx y hy
          rcases mem_insList lt eq item ms l x hx with hm | hm
          · exact hcross x hm y hy
          · subst hm
            rcases List.mem_cons.mp hy with hy2 | hy2
            · rw [hy2]
              exact le_of_lt hltv
            · exact le_trans (le_of_lt hltv) (hvler y hy2)
        · rw [if_neg hc2]
          have hvle : v ≤ item := by
            have hx : ¬(item < v) := fun hcon => hc2 ((hlt _ _).mpr hcon)
            exact le_of_not_lt hx
          rw [List.Sorted, List.pairwise_append]
          refine ⟨hsl, ?_, ?_⟩
          · rw [List.pairwise_cons]
            refine ⟨?_, ihr hsr⟩
            intro y hy
            rcases mem_insList lt eq item ms r y hy with hm | hm
            · exact hvler y hm
            · rw [hm]
              exact hvle
          · intro x hx y hy
            have hxv : x ≤ v := hcross x hx v (List.mem_cons_self v _)
            rcases List.mem_cons.mp hy with hy2 | hy2
            · rw [hy2]
              exact hxv
            · rcases mem_insList lt eq item ms r y hy2 with hm | hm
              · exact hcross x hx y (List.mem_cons.mpr (Or.inr hm))
              · rw [hm]
                exact le_trans hxv hvle

lemma intLt_iff (a b : Int) : intLt a b = true ↔ a < b := by
  simp [intLt]

lemma intEq_iff (a b : Int) : intEq a b = true ↔ a = b := by
  simp [intEq]

/-! ### The iterator enumerates the in-order sequence (invariant 7) -/

/-- Paths of all internal nodes, in in-order order. -/
def pathsInorder : RBNode α → List Path
  | .leaf => []
  | .node _ _ l _ r =>
      (pathsInorder l).map (Dir.left :: ·) ++ ([] : Path) :: (pathsInorder r).map (Dir.right :: ·)

@[simp] lemma pathsInorder_leaf : pathsInorder (.leaf : RBNode α) = [] := rfl

lemma pathsInorder_node (b : Bool) (s : Nat) (l : RBNode α) (v : α) (r : RBNode α) :
    pathsInorder (.node b s l v r : RBNode α) =
      (pathsInorder l).map (Dir.left :: ·) ++
        ([] : Path) :: (pathsInorder r).map (Dir.right :: ·) := rfl

lemma inorder_length : ∀ t : RBNode α, (inorder t).length = count t := by
  intro t
  induction t with
  | leaf => rfl
  | node b s l v r ihl ihr => simp [ihl, ihr]; omega

lemma map_valueAt_pathsInorder : ∀ t : RBNode α,
    (pathsInorder t).map (valueAt t) = (inorder t).map some := by
  intro t
  induction t with
  | leaf => rfl
  | node b s l v r ihl ihr =>
      rw [pathsInorder_node, inorder_node]
      rw [List.map_append, List.map_cons, List.map_map, List.map_map]
      have hfl : valueAt (.node b s l v r : RBNode α) ∘ (Dir.left :: ·) = valueAt l :=
        funext fun p => rfl
      have hfr : valueAt (.node b s l v r : RBNode α) ∘ (Dir.right :: ·) = valueAt r :=
        funext fun p => rfl
      rw [hfl, hfr, ihl, ihr]
      simp
      rfl

lemma pathsInorder_subtree : ∀ (t : RBNode α) (p : Path),
    p ∈ pathsInorder t → subtreeAt t p ≠ .leaf := by
  intro t
  induction t with
  | leaf => intro p hp; simp at hp
  | node b s l v r ihl ihr =>
      intro p hp
      rw [pathsInorder_node, List.mem_append, List.mem_cons] at hp
      rcases hp with hp | hp | hp
      · obtain ⟨p2, hp2, rfl⟩ := List.mem_map.mp hp
        exact ihl p2 hp2
      · subst hp
        exact fun hx => RBNode.noConfusion hx
      · obtain ⟨p2, hp2, rfl⟩ := List.mem_map.mp hp
        exact ihr p2 hp2

lemma pathsInorder_head : ∀ (l : RBNode α) (b : Bool) (s : Nat) (v : α) (r : RBNode α),
    (pathsInorder (.node b s l v r : RBNode α)).head? =
      some (leftSpine (.node b s l v r)) := by
  intro l
  induction l with
  | leaf => intro b s v r; rfl
  | node lb ls ll lv lr ihl ihr =>
      intro b s v r
      have hx := ihl lb ls lv lr
      rw [pathsInorder_node]
      rcases hP : pathsInorder (.node lb ls ll lv lr : RBNode α) with _ | ⟨p0, rest⟩
      · rw [hP] at hx
        exact Option.noConfusion hx
      · rw [hP] at hx
        have hp0 : p0 = leftSpine (.node lb ls ll lv lr) := Option.some.inj hx
        rw [List.map_cons]
        show some (Dir.left :: p0) = some (leftSpine (.node b s (.node lb ls ll lv lr) v r))
        rw [hp0]
        rfl

lemma pathsInorder_eq_nil : ∀ {t : RBNode α}, pathsInorder t = [] → t = .leaf := by
  intro t h
  cases t with
  | leaf => rfl
  | node b s l v r =>
      rw [pathsInorder_node] at h
      exact absurd h (by simp)

lemma climbRev_append_some (d : Dir) : ∀ (xs ys q : Path),
    climbRev d xs = some q → climbRev d (xs ++ ys) = some (q ++ ys) := by
  intro xs
  induction xs with
  | nil =>
      intro ys q h
      exact Option.noConfusion h
  | cons e rest ih =>
      intro ys q h
      rw [climbRev] at h
      by_cases he : e = d
      · rw [if_pos he] at h
        show climbRev d (e :: (rest ++ ys)) = some (q ++ ys)
        rw [climbRev, if_pos he]
        exact ih ys q h
      · rw [if_neg he] at h
        have hq : rest = q := Option.some.inj h
        subst hq
        show climbRev d (e :: (rest ++ ys)) = some (rest ++ ys)
        rw [climbRev, if_neg he]

lemma climbRev_append_none (d : Dir) : ∀ (xs ys : Path),
    climbRev d xs = none → climbRev d (xs ++ ys) = climbRev d ys := by
  intro xs
  induction xs with
  | nil => intro ys _; rfl
  | cons e rest ih =>
      intro ys h
      rw [climbRev] at h
      by_cases he : e = d
      · rw [if_pos he] at h
        show climbRev d (e :: (rest ++ ys)) = climbRev d ys
        rw [climbRev, if_pos he]
        exact ih ys h
      · rw [if_neg he] at h
        exact Option.noConfusion h

lemma nextPath_left_lift {l : RBNode α} {p q : Path} (b : Bool) (s : Nat) (v : α)
    (r : RBNode α) (h : nextPath true l p = some q) :
    nextPath true (.node b s l v r) (Dir.left :: p) = some (Dir.left :: q) := by
  have hsub : subtreeAt (.node b s l v r : RBNode α) (Dir.left :: p) = subtreeAt l p := rfl
  rw [nextPath] at h ⊢
  rw [hsub]
  cases hS : subtreeAt l p with
  | leaf =>
      rw [hS] at h
      exact Option.noConfusion h
  | node nb ns nl nv nr =>
      rw [hS] at h
      cases nr with
      | node nrb nrs nrl nrv nrr =>
          simp only [if_true] at h ⊢
          have hq : p ++ Dir.right :: leftSpine (.node nrb nrs nrl nrv nrr) = q :=
            Option.some.inj h
          rw [← hq]
          rfl
      | leaf =>
          simp only [if_true] at h ⊢
          cases hc : climbRev Dir.right p.reverse with
          | none =>
              rw [hc] at h
              exact Option.noConfusion h
          | some q0 =>
              rw [hc] at h
              have hq : q0.reverse = q := Option.some.inj (by simpa using h)
              rw [List.reverse_cons, climbRev_append_some Dir.right p.reverse [Dir.left] q0 hc]
              simp [← hq]

lemma nextPath_right_lift {r : RBNode α} {p q : Path} (b : Bool) (s : Nat) (l : RBNode α)
    (v : α) (h : nextPath true r p = some q) :
    nextPath true (.node b s l v r) (Dir.right :: p) = some (Dir.right :: q) := by
  have hsub : subtreeAt (.node b s l v r : RBNode α) (Dir.right :: p) = subtreeAt r p := rfl
  rw [nextPath] at h ⊢
  rw [hsub]
  cases hS : subtreeAt r p with
  | leaf =>
      rw [hS] at h
      exact Option.noConfusion h
  | node nb ns nl nv nr =>
      rw [hS] at h
      cases nr with
      | node nrb nrs nrl nrv nrr =>
          simp only [if_true] at h ⊢
          have hq : p ++ Dir.right :: leftSpine (.node nrb nrs nrl nrv nrr) = q :=
            Option.some.inj h
          rw [← hq]
          rfl
      | leaf =>
          simp only [if_true] at h ⊢
          cases hc : climbRev Dir.right p.reverse with
          | none =>
              rw [hc] at h
              exact Option.noConfusion h
          | some q0 =>
              rw [hc] at h
              have hq : q0.reverse = q := Option.some.inj (by simpa using h)
              rw [List.reverse_cons,
                climbRev_append_some Dir.right p.reverse [Dir.right] q0 hc]
              simp [← hq]

lemma nextPath_left_none {l : RBNode α} {p : Path} (b : Bool) (s : Nat) (v : α)
    (r : RBNode α) (h : nextPath true l p = none) (hne : subtreeAt l p ≠ .leaf) :
    nextPath true (.node b s l v r) (Dir.left :: p) = some ([] : Path) := by
  have hsub : subtreeAt (.node b s l v r : RBNode α) (Dir.left :: p) = subtreeAt l p := rfl
  rw [nextPath] at h ⊢
  rw [hsub]
  cases hS : subtreeAt l p with
  | leaf => exact absurd hS hne
  | node nb ns nl nv nr =>
      rw [hS] at h
      cases nr with
      | node nrb nrs nrl nrv nrr =>
          simp only [if_true] at h
          exact Option.noConfusion h
      | leaf =>
          simp only [if_true] at h ⊢
          have hc : climbRev Dir.right p.reverse = none := by
            cases hc2 : climbRev Dir.right p.reverse with
            | none => rfl
            | some q0 =>
                rw [hc2] at h
                exact Option.noConfusion h
          rw [List.reverse_cons, climbRev_append_none Dir.right p.reverse [Dir.left] hc]
          rfl

lemma nextPath_right_none {r : RBNode α} {p : Path} (b : Bool) (s : Nat) (l : RBNode α)
    (v : α) (h : nextPath true r p = none) (hne : subtreeAt r p ≠ .leaf) :
    nextPath true (.node b s l v r) (Dir.right :: p) = none := by
  have hsub : subtreeAt (.node b s l v r : RBNode α) (Dir.right :: p) = subtreeAt r p := rfl
  rw [nextPath] at h ⊢
  rw [hsub]
  cases hS : subtreeAt r p with
  | leaf => exact absurd hS hne
  | node nb ns nl nv nr =>
      rw [hS] at h
      cases nr with
      | node nrb nrs nrl nrv nrr =>
          simp only [if_true] at h
          exact Option.noConfusion h
      | leaf =>
          simp only [if_true] at h ⊢
          have hc : climbRev Dir.right p.reverse = none := by
            cases hc2 : climbRev Dir.right p.reverse with
            | none => rfl
            | some q0 =>
                rw [hc2] at h
                exact Option.noConfusion h
          rw [List.reverse_cons, climbRev_append_none Dir.right p.reverse [Dir.right] hc]
          rfl

lemma nextPath_root_right (b : Bool) (s : Nat) (l : RBNode α) (v : α)
    (rb : Bool) (rs : Nat) (rl : RBNode α) (rv : α) (rr : RBNode α) :
    nextPath true (.node b s l v (.node rb rs rl rv rr)) ([] : Path) =
      some (Dir.right :: leftSpine (.node rb rs rl rv rr)) := rfl

lemma nextPath_root_leaf (b : Bool) (s : Nat) (l : RBNode α) (v : α) :
    nextPath true (.node b s l v .leaf) ([] : Path) = none := rfl


lemma mem_of_getLastEq {β : Type} {l : List β} {x : β} (h : l.getLast? = some x) : x ∈ l := by
  obtain ⟨hne2, heq2⟩ := List.mem_getLast?_eq_getLast (show x ∈ l.getLast? from h)
  rw [heq2]
  exact List.getLast_mem hne2

lemma pathsInorder_chain : ∀ (t : RBNode α),
    List.Chain' (fun p q => nextPath true t p = some q) (pathsInorder t) ∧
    (∀ pl, (pathsInorder t).getLast? = some pl → nextPath true t pl = none) := by
  intro t
  induction t with
  | leaf => exact ⟨List.chain'_nil, fun pl h => Option.noConfusion h⟩
  | node b s l v r ihl ihr =>
      obtain ⟨hcl, hll⟩ := ihl
      obtain ⟨hcr, hlr⟩ := ihr
      have hchainA : List.Chain' (fun p q => nextPath true (.node b s l v r) p = some q)
          ((pathsInorder l).map (Dir.left :: ·)) := by
        rw [List.chain'_map]
        exact hcl.imp (fun p q hpq => nextPath_left_lift b s v r hpq)
      have hchainB : List.Chain' (fun p q => nextPath true (.node b s l v r) p = some q)
          ((pathsInorder r).map (Dir.right :: ·)) := by
        rw [List.chain'_map]
        exact hcr.imp (fun p q hpq => nextPath_right_lift b s l v hpq)
      have hrootB : ∀ y ∈ ((pathsInorder r).map (Dir.right :: ·)).head?,
          nextPath true (.node b s l v r) ([] : Path) = some y := by
        intro y hy
        cases r with
        | leaf => simp at hy
        | node rb rs rl rv rr =>
            rw [List.head?_map, pathsInorder_head] at hy
            have hy2 : Dir.right :: leftSpine (.node rb rs rl rv rr) = y := by
              simpa using hy
            rw [← hy2]
            exact nextPath_root_right b s l v rb rs rl rv rr
      have hchainB2 : List.Chain' (fun p q => nextPath true (.node b s l v r) p = some q)
          (([] : Path) :: (pathsInorder r).map (Dir.right :: ·)) := by
        rw [List.chain'_cons']
        exact ⟨hrootB, hchainB⟩
      constructor
      · rw [pathsInorder_node]
        rw [List.chain'_append]
        refine ⟨hchainA, hchainB2, ?_⟩
        intro x hx y hy
        have hy2 : y = ([] : Path) := by
          simp at hy
          exact hy
        subst hy2
        rw [List.getLast?_map] at hx
        cases hPL : (pathsInorder l).getLast? with
        | none => rw [hPL] at hx; simp at hx
        | some pl =>
            rw [hPL] at hx
            have hx2 : Dir.left :: pl = x := by simpa using hx
            rw [← hx2]
            have hmem : pl ∈ pathsInorder l := mem_of_getLastEq hPL
            exact nextPath_left_none b s v r (hll pl hPL) (pathsInorder_subtree l pl hmem)
      · intro pl hpl
        rw [pathsInorder_node] at hpl
        rw [List.getLast?_append_cons] at hpl
        cases hPR : pathsInorder r with
        | nil =>
            have hr : r = .leaf := pathsInorder_eq_nil hPR
            subst hr
            rw [hPR] at hpl
            have hpl2 : ([] : Path) = pl := by simpa using hpl
            rw [← hpl2]
            exact nextPath_root_leaf b s l v
        | cons p0 rest =>
            rw [hPR] at hpl
            rw [List.map_cons, List.getLast?_cons_cons, ← List.map_cons,
              List.getLast?_map] at hpl
            cases hPL2 : (p0 :: rest).getLast? with
            | none => simp at hPL2
            | some plr =>
                rw [hPL2] at hpl
                have hpl3 : Dir.right :: plr = pl := by simpa using hpl
                rw [← hpl3]
                have hmem : plr ∈ pathsInorder r := by
                  rw [hPR]
                  exact mem_of_getLastEq hPL2
                refine nextPath_right_none b s l v ?_ (pathsInorder_subtree r plr hmem)
                apply hlr
                rw [hPR, hPL2]

lemma iterFrom_run (t : RBNode α) : ∀ (ps : List Path) (vs : List α) (fuel : Nat),
    vs.length ≤ fuel →
    ps.map (valueAt t) = vs.map some →
    List.Chain' (fun p q => nextPath true t p = some q) ps →
    (∀ pl, ps.getLast? = some pl → nextPath true t pl = none) →
    iterFrom true t fuel ps.head? = vs := by
  intro ps
  induction ps with
  | nil =>
      intro vs fuel _ hmap _ _
      have hvs : vs = [] := by
        cases vs with
        | nil => rfl
        | cons a as => simp at hmap
      subst hvs
      cases fuel <;> rfl
  | cons p0 rest ih =>
      intro vs fuel hlen hmap hchain hlast
      cases vs with
      | nil => simp at hmap
      | cons v0 vrest =>
          simp only [List.map_cons, List.cons.injEq] at hmap
          obtain ⟨hv0, hmap2⟩ := hmap
          cases fuel with
          | zero => simp at hlen
          | succ fuel =>
              show iterFrom true t (fuel + 1) (some p0) = v0 :: vrest
              rw [iterFrom]
              rw [hv0]
              show v0 :: iterFrom true t fuel (nextPath true t p0) = v0 :: vrest
              cases rest with
              | nil =>
                  have hnone := hlast p0 rfl
                  rw [hnone]
                  have hvrest : vrest = [] := by
                    cases vrest with
                    | nil => rfl
                    | cons a as => simp at hmap2
                  subst hvrest
                  cases fuel <;> rfl
              | cons p1 rest2 =>
                  have hstep : nextPath true t p0 = some p1 :=
                    (List.chain'_cons.mp hchain).1
                  rw [hstep]
                  have hres := ih vrest fuel (by simp at hlen; omega) hmap2
                    (List.chain'_cons.mp hchain).2
                    (fun pl hpl => hlast pl (by rw [List.getLast?_cons_cons]; exact hpl))
                  show v0 :: iterFrom true t fuel ((p1 :: rest2).head?) = v0 :: vrest
                  rw [hres]

/-- The forward iteration visits exactly the in-order values, on every tree
shape. -/
lemma iterList_eq_inorder : ∀ t : RBNode α, iterList t = inorder t := by
  intro t
  rw [iterList]
  have hchain := pathsInorder_chain t
  have hmap := map_valueAt_pathsInorder t
  have hhead : seedPath true t = (pathsInorder t).head? := by
    cases t with
    | leaf => rfl
    | node b s l v r =>
        rw [seedPath, pathsInorder_head]
        rfl
  rw [hhead]
  refine iterFrom_run t (pathsInorder t) (inorder t) (count t) ?_ hmap hchain.1 hchain.2
  rw [inorder_length]

/-! ### `getnode`: index descent by stored sizes (claims C3, C7, C9) -/

lemma len_eq_inorder_length {t : RBNode α} (hs : sizeOk t = true) :
    (inorder t).length = len t := by
  rw [inorder_length, ← len_eq_count hs]

lemma getnodeGo_spec : ∀ (t : RBNode α), sizeOk t = true → ∀ i : Nat, i < len t →
    ∃ p v, getnodeGo t i = .ok (p, v) ∧
      ∃ b s l r ctx, unzip t p = some (.node b s l v r, ctx) ∧
        (ctxInL ctx).length + (inorder l).length = i := by
  intro t
  induction t with
  | leaf =>
      intro _ i hi
      rw [len_leaf] at hi
      exact absurd hi (by omega)
  | node b s l v r ihl ihr =>
      intro hs i hi
      obtain ⟨hss, hsl, hsr⟩ := sizeOk_node_iff.mp hs
      rw [getnodeGo]
      by_cases h1 : i < len l
      · rw [if_pos h1]
        obtain ⟨p, w, hgo, b2, s2, l2, r2, ctx, hu, hlen⟩ := ihl hsl i h1
        refine ⟨.left :: p, w, ?_, b2, s2, l2, r2, ctx ++ [⟨.left, b, s, v, r⟩], ?_, ?_⟩
        · rw [hgo]
          rfl
        · rw [unzip_cons_left, hu]
          rfl
        · rw [ctxInL_append]
          have hx : ctxInL [(⟨.left, b, s, v, r⟩ : Frame α)] = [] := rfl
          rw [hx]
          simpa using hlen
      · rw [if_neg h1]
        by_cases h2 : i = len l
        · rw [if_pos h2]
          refine ⟨[], v, rfl, b, s, l, r, [], unzip_nil _, ?_⟩
          rw [← len_eq_inorder_length hsl] at h2
          simpa using h2.symm
        · rw [if_neg h2]
          have h3 : i - (len l + 1) < len r := by
            rw [len_node] at hi
            omega
          obtain ⟨p, w, hgo, b2, s2, l2, r2, ctx, hu, hlen⟩ := ihr hsr _ h3
          refine ⟨.right :: p, w, ?_, b2, s2, l2, r2, ctx ++ [⟨.right, b, s, v, l⟩], ?_, ?_⟩
          · rw [hgo]
            rfl
          · rw [unzip_cons_right, hu]
            rfl
          · rw [ctxInL_append]
            have hx : ctxInL [(⟨.right, b, s, v, l⟩ : Frame α)] = inorder l ++ [v] := rfl
            rw [hx]
            have hLl : (inorder l).length = len l := len_eq_inorder_length hsl
            simp only [List.length_append, List.length_cons, List.length_nil]
            omega

/-- The value `getnode` returns is the `i`-th in-order value, and the in-order
sequence splits around it at position `i`. -/
lemma getnodeGo_value {t : RBNode α} (hs : sizeOk t = true) {i : Nat} (hi : i < len t) :
    ∃ p v A B, getnodeGo t i = .ok (p, v) ∧ inorder t = A ++ v :: B ∧ A.length = i ∧
      ∃ b s l r ctx, unzip t p = some (.node b s l v r, ctx) ∧
        A = ctxInL ctx ++ inorder l ∧ B = inorder r ++ ctxInR ctx := by
  obtain ⟨p, v, hgo, b, s, l, r, ctx, hu, hlen⟩ := getnodeGo_spec t hs i hi
  refine ⟨p, v, ctxInL ctx ++ inorder l, inorder r ++ ctxInR ctx, hgo, ?_, ?_,
    b, s, l, r, ctx, hu, rfl, rfl⟩
  · rw [← unzip_plug hu, inorder_plug, inorder_node]
    simp [List.append_assoc]
  · rw [List.length_append]
    exact hlen

lemma getnodeLoc_norm {t : RBNode α} (i : Int) (hneg : i < 0)
    (hge : -(len t : Int) ≤ i) :
    getnodeLoc t i = getnodeLoc t (i + (len t : Int)) := by
  rw [getnodeLoc, getnodeLoc]
  rw [if_pos hneg, if_neg (by omega : ¬i + (len t : Int) < 0)]

lemma getnodeLoc_err_iff {t : RBNode α} (hs : sizeOk t = true) (i : Int) :
    getnodeLoc t i = .error .indexOutOfRange ↔
      (i < -(len t : Int) ∨ (len t : Int) ≤ i) := by
  rw [getnodeLoc]
  set j : Int := if i < 0 then i + (len t : Int) else i with hj
  by_cases hout : (j < 0 || j ≥ (len t : Int)) = true
  · rw [if_pos hout]
    simp only [Bool.or_eq_true, decide_eq_true_eq, ge_iff_le] at hout
    constructor
    · intro _
      rw [hj] at hout
      by_cases hneg : i < 0
      · rw [if_pos hneg] at hout
        rcases hout with hx | hx
        · exact Or.inl (by omega)
        · exact Or.inr (by omega)
      · rw [if_neg hneg] at hout
        rcases hout with hx | hx
        · exact absurd hx (by omega)
        · exact Or.inr hx
    · intro _
      rfl
  · rw [if_neg hout]
    simp only [Bool.or_eq_true, decide_eq_true_eq, ge_iff_le, not_or, not_lt, not_le] at hout
    obtain ⟨hj0, hjn⟩ := hout
    have hjlen : j.toNat < len t := by omega
    obtain ⟨p, v, hgo, _⟩ := getnodeGo_spec t hs j.toNat hjlen
    rw [hgo]
    constructor
    · intro hx
      exact Except.noConfusion hx
    · intro hx
      rw [hj] at hj0 hjn
      by_cases hneg : i < 0
      · rw [if_pos hneg] at hj0 hjn
        rcases hx with hx | hx
        · exact absurd hj0 (by omega)
        · exact absurd hjn (by omega)
      · rw [if_neg hneg] at hj0 hjn
        rcases hx with hx | hx
        · exact absurd hx (by omega)
        · exact absurd hjn (by omega)

lemma getnodeLoc_ok {t : RBNode α} (hs : sizeOk t = true) (i : Int)
    (h0 : 0 ≤ i) (hn : i < (len t : Int)) :
    ∃ p v A B, getnodeLoc t i = .ok (p, v) ∧ inorder t = A ++ v :: B ∧
      (A.length : Int) = i ∧
      ∃ b s l r ctx, unzip t p = some (.node b s l v r, ctx) ∧
        A = ctxInL ctx ++ inorder l ∧ B = inorder r ++ ctxInR ctx := by
  have hi : i.toNat < len t := by omega
  obtain ⟨p, v, A, B, hgo, hsplit, hA, hrest⟩ := getnodeGo_value hs hi
  refine ⟨p, v, A, B, ?_, hsplit, by omega, hrest⟩
  rw [getnodeLoc]
  rw [if_neg (by omega : ¬i < 0)]
  rw [if_neg (by simp; omega)]
  exact hgo

/-! ### `index`: leftmost matching position (claim C4) -/

/-- Position of the first (leftmost) element the comparator calls equal. -/
def idxOf? (eq : α → α → Bool) (x : α) : List α → Option Nat
  | [] => none
  | y :: ys => if eq x y then some 0 else (idxOf? eq x ys).map (· + 1)

lemma idxOf?_append (eq : α → α → Bool) (x : α) : ∀ (A B : List α),
    idxOf? eq x (A ++ B) =
      match idxOf? eq x A with
      | some j => some j
      | none => (idxOf? eq x B).map (· + A.length) := by
  intro A
  induction A with
  | nil =>
      intro B
      cases hB : idxOf? eq x B <;> simp [hB, idxOf?]
  | cons y ys ih =>
      intro B
      show idxOf? eq x (y :: (ys ++ B)) = _
      rw [idxOf?, idxOf?]
      by_cases hy : eq x y = true
      · rw [if_pos hy, if_pos hy]
      · rw [if_neg hy, if_neg hy, ih B]
        cases hA : idxOf? eq x ys with
        | some j => simp
        | none =>
            cases hB : idxOf? eq x B with
            | none => simp
            | some k =>
                simp [List.length_cons]
                omega

lemma idxOf?_none (eq : α → α → Bool) (x : α) : ∀ (L : List α),
    (∀ y ∈ L, eq x y = false) → idxOf? eq x L = none := by
  intro L
  induction L with
  | nil => intro _; rfl
  | cons y ys ih =>
      intro h
      rw [idxOf?, if_neg (by rw [h y (List.mem_cons_self y ys)]; exact Bool.false_ne_true),
        ih (fun z hz => h z (List.mem_cons_of_mem y hz))]
      rfl

lemma idxOf?_mem (eq : α → α → Bool) (x : α) : ∀ (L : List α),
    (∃ y ∈ L, eq x y = true) → ∃ j, idxOf? eq x L = some j := by
  intro L
  induction L with
  | nil => intro ⟨y, hy, _⟩; simp at hy
  | cons y ys ih =>
      intro ⟨z, hz, hez⟩
      rw [idxOf?]
      by_cases hy : eq x y = true
      · exact ⟨0, by rw [if_pos hy]⟩
      · rcases List.mem_cons.mp hz with hz2 | hz2
        · subst hz2
          exact absurd hez hy
        · obtain ⟨j, hj⟩ := ih ⟨z, hz2, hez⟩
          exact ⟨j + 1, by rw [if_neg hy, hj]; rfl⟩

lemma idxOf?_get (eq : α → α → Bool) (x : α) : ∀ (L : List α) (j : Nat),
    idxOf? eq x L = some j →
      ∃ hj : j < L.length, eq x (L.get ⟨j, hj⟩) = true ∧
        ∀ k (hk : k < L.length), k < j → eq x (L.get ⟨k, hk⟩) = false := by
  intro L
  induction L with
  | nil => intro j h; exact Option.noConfusion h
  | cons y ys ih =>
      intro j h
      rw [idxOf?] at h
      by_cases hy : eq x y = true
      · rw [if_pos hy] at h
        have hj : j = 0 := (Option.some.inj h).symm
        subst hj
        exact ⟨by simp, hy, fun k hk hk0 => absurd hk0 (by omega)⟩
      · rw [if_neg hy] at h
        cases hA : idxOf? eq x ys with
        | none =>
            rw [hA] at h
            exact Option.noConfusion h
        | some j0 =>
            rw [hA] at h
            have hj : j0 + 1 = j := Option.some.inj h
            subst hj
            obtain ⟨hj0, hget, hbefore⟩ := ih j0 hA
            refine ⟨by simp; omega, hget, ?_⟩
            intro k hk hklt
            cases k with
            | zero =>
                rw [show (y :: ys).get ⟨0, hk⟩ = y from rfl]
                revert hy
                cases eq x y <;> simp
            | succ k2 =>
                rw [show (y :: ys).get ⟨k2 + 1, hk⟩ = ys.get ⟨k2, by simp at hk; omega⟩
                  from rfl]
                exact hbefore k2 _ (by omega)

lemma indexGo_spec : ∀ (t : RBNode Int), sizeOk t = true →
    List.Sorted (· ≤ ·) (inorder t) →
    ∀ (item : Int) (i : Nat) (idx : Option Nat),
      indexGo intLt intEq item t i idx =
        match idxOf? intEq item (inorder t) with
        | some j => some (i + j)
        | none => idx := by
  intro t
  induction t with
  | leaf => intro _ _ item i idx; rfl
  | node b s l v r ihl ihr =>
      intro hs hsort item i idx
      obtain ⟨hss, hsl, hsr⟩ := sizeOk_node_iff.mp hs
      rw [inorder_node] at hsort
      rw [List.Sorted, List.pairwise_append] at hsort
      obtain ⟨hsortl, hvr, hcross⟩ := hsort
      have hvler : ∀ y ∈ inorder r, v ≤ y := (List.pairwise_cons.mp hvr).1
      have hsortr : List.Sorted (· ≤ ·) (inorder r) := (List.pairwise_cons.mp hvr).2
      have hlenA : (inorder l).length = len l := len_eq_inorder_length hsl
      rw [indexGo, inorder_node, idxOf?_append]
      by_cases hc1 : intLt item v = true
      · rw [if_pos hc1]
        have hiv : item < v := by
          rw [intLt, decide_eq_true_eq] at hc1
          exact hc1
        rw [ihl hsl hsortl item i idx]
        cases hA : idxOf? intEq item (inorder l) with
        | some j => rfl
        | none =>
            have hB : idxOf? intEq item (v :: inorder r) = none := by
              refine idxOf?_none _ _ _ ?_
              intro y hy
              rcases List.mem_cons.mp hy with hy2 | hy2
              · rw [intEq, hy2]
                simp
                omega
              · rw [intEq]
                simp
                have := hvler y hy2
                omega
            rw [hB]
            rfl
      · rw [if_neg hc1]
        have hvle : v ≤ item := by
          rw [intLt, decide_eq_true_eq] at hc1
          omega
        by_cases hc2 : intEq item v = true
        · rw [if_pos hc2]
          have hiv : item = v := by
            rw [intEq, beq_iff_eq] at hc2
            exact hc2
          rw [ihl hsl hsortl item i (some (i + len l))]
          cases hA : idxOf? intEq item (inorder l) with
          | some j => rfl
          | none =>
              have hB : idxOf? intEq item (v :: inorder r) = some 0 := by
                rw [idxOf?, if_pos hc2]
              rw [hB]
              show some (i + len l) = some (i + (0 + (inorder l).length))
              rw [hlenA, Nat.zero_add]
        · rw [if_neg hc2]
          have hiv : v < item := by
            rw [intEq, beq_iff_eq] at hc2
            omega
          rw [ihr hsr hsortr item (i + len l + 1) idx]
          have hA : idxOf? intEq item (inorder l) = none := by
            refine idxOf?_none _ _ _ ?_
            intro y hy
            have hyv : y ≤ v := hcross y hy v (List.mem_cons_self v _)
            rw [intEq]
            simp
            omega
          rw [hA]
          have hhead : intEq item v = false := by
            revert hc2
            cases intEq item v <;> simp
          rw [idxOf?, hhead]
          simp only [Bool.false_eq_true, if_false]
          cases hB : idxOf? intEq item (inorder r) with
          | none => rfl
          | some j =>
              show some (i + len l + 1 + j) = some (i + (j + 1 + (inorder l).length))
              rw [hlenA]
              congr 1
              omega

lemma index_spec {t : RBNode Int} (hs : sizeOk t = true)
    (hsort : List.Sorted (· ≤ ·) (inorder t)) (item : Int) :
    index intLt intEq t item =
      match idxOf? intEq item (inorder t) with
      | some j => .ok j
      | none => .error .keyMissing := by
  rw [index, indexGo_spec t hs hsort item 0 none]
  cases hA : idxOf? intEq item (inorder t) with
  | none => rfl
  | some j =>
      show Except.ok (0 + j) = Except.ok j
      rw [Nat.zero_add]

/-! ### `findnode` (claims C6, C10) -/

lemma valueAt_mem : ∀ (t : RBNode α) (p : Path) (w : α),
    valueAt t p = some w → w ∈ inorder t
  | .leaf, _, w, h => Option.noConfusion h
  | .node b s l v r, [], w, h => by
      have hv : v = w := Option.some.inj h
      subst hv
      simp
  | .node b s l v r, .left :: p, w, h => by
      have hm := valueAt_mem l p w h
      simp [hm]
  | .node b s l v r, .right :: p, w, h => by
      have hm := valueAt_mem r p w h
      simp [hm]

lemma findnodePath_unzip (lt eq : α → α → Bool) : ∀ (t : RBNode α) (q : α) (p : Path),
    findnodePath lt eq t q = some p →
    ∃ b s l v r ctx, unzip t p = some (.node b s l v r, ctx) ∧ eq q v = true := by
  intro t
  induction t with
  | leaf =>
      intro q p h
      exact Option.noConfusion h
  | node b s l v r ihl ihr =>
      intro q p h
      rw [findnodePath] at h
      by_cases hc1 : eq q v = true
      · rw [if_pos hc1] at h
        have hp : [] = p := Option.some.inj h
        subst hp
        exact ⟨b, s, l, v, r, [], unzip_nil _, hc1⟩
      · rw [if_neg hc1] at h
        by_cases hc2 : lt q v = true
        · rw [if_pos hc2] at h
          cases hF : findnodePath lt eq l q with
          | none =>
              rw [hF] at h
              exact Option.noConfusion h
          | some p2 =>
              rw [hF] at h
              have hp : .left :: p2 = p := Option.some.inj h
              subst hp
              obtain ⟨b2, s2, l2, v2, r2, ctx, hu, he⟩ := ihl q p2 hF
              refine ⟨b2, s2, l2, v2, r2, ctx ++ [⟨.left, b, s, v, r⟩], ?_, he⟩
              rw [unzip_cons_left, hu]
              rfl
        · rw [if_neg hc2] at h
          cases hF : findnodePath lt eq r q with
          | none =>
              rw [hF] at h
              exact Option.noConfusion h
          | some p2 =>
              rw [hF] at h
              have hp : .right :: p2 = p := Option.some.inj h
              subst hp
              obtain ⟨b2, s2, l2, v2, r2, ctx, hu, he⟩ := ihr q p2 hF
              refine ⟨b2, s2, l2, v2, r2, ctx ++ [⟨.right, b, s, v, l⟩], ?_, he⟩
              rw [unzip_cons_right, hu]
              rfl

lemma findnodePath_of_mem : ∀ (t : RBNode Int),
    List.Sorted (· ≤ ·) (inorder t) → ∀ v : Int, v ∈ inorder t →
    ∃ p, findnodePath intLt intEq t v = some p := by
  intro t
  induction t with
  | leaf =>
      intro _ v hv
      simp at hv
  | node b s l v0 r ihl ihr =>
      intro hsort v hv
      rw [inorder_node] at hsort hv
      rw [List.Sorted, List.pairwise_append] at hsort
      obtain ⟨hsortl, hvr, hcross⟩ := hsort
      have hvler : ∀ y ∈ inorder r, v0 ≤ y := (List.pairwise_cons.mp hvr).1
      have hsortr : List.Sorted (· ≤ ·) (inorder r) := (List.pairwise_cons.mp hvr).2
      rw [findnodePath]
      by_cases hc1 : intEq v v0 = true
      · rw [if_pos hc1]
        exact ⟨[], rfl⟩
      · have hne : v ≠ v0 := by
          rw [intEq, beq_iff_eq] at hc1
          exact hc1
        rw [if_neg hc1]
        by_cases hc2 : intLt v v0 = true
        · rw [if_pos hc2]
          have hlt2 : v < v0 := by
            rw [intLt, decide_eq_true_eq] at hc2
            exact hc2
          have hvl : v ∈ inorder l := by
            rw [List.mem_append, List.mem_cons] at hv
            rcases hv with hx | hx | hx
            · exact hx
            · exact absurd hx hne
            · exact absurd (hvler v hx) (by omega)
          obtain ⟨p, hp⟩ := ihl hsortl v hvl
          exact ⟨.left :: p, by rw [hp]; rfl⟩
        · rw [if_neg hc2]
          have hlt2 : v0 < v := by
            rw [intLt, decide_eq_true_eq] at hc2
            omega
          have hvrm : v ∈ inorder r := by
            rw [List.mem_append, List.mem_cons] at hv
            rcases hv with hx | hx | hx
            · exact absurd (hcross v hx v0 (List.mem_cons_self v0 _)) (by omega)
            · exact absurd hx hne
            · exact hx
          obtain ⟨p, hp⟩ := ihr hsortr v hvrm
          exact ⟨.right :: p, by rw [hp]; rfl⟩

lemma findnode_eq (lt eq : α → α → Bool) : ∀ (t : RBNode α) (q : α),
    findnode lt eq t q = (findnodePath lt eq t q).bind (valueAt t) := by
  intro t
  induction t with
  | leaf => intro q; rfl
  | node b s l v r ihl ihr =>
      intro q
      rw [findnode, findnodePath]
      by_cases hc1 : eq q v = true
      · rw [if_pos hc1, if_pos hc1]
        rfl
      · rw [if_neg hc1, if_neg hc1]
        by_cases hc2 : lt q v = true
        · rw [if_pos hc2, if_pos hc2, ihl]
          cases hF : findnodePath lt eq l q <;> rfl
        · rw [if_neg hc2, if_neg hc2, ihr]
          cases hF : findnodePath lt eq r q <;> rfl

/-- On a tree whose in-order keys are strictly increasing, `findnode` with a
query whose key matches a stored element returns exactly that element. -/
lemma findnode_strict_sorted {β : Type} [LinearOrder β] (κ : α → β)
    {lt eq : α → α → Bool}
    (hlt : ∀ a b : α, lt a b = true ↔ κ a < κ b)
    (heq : ∀ a b : α, eq a b = true ↔ κ a = κ b) :
    ∀ (t : RBNode α), List.Pairwise (fun a b => κ a < κ b) (inorder t) →
      ∀ (e q : α), e ∈ inorder t → κ q = κ e → findnode lt eq t q = some e := by
  intro t
  induction t with
  | leaf =>
      intro _ e q he _
      simp at he
  | node b s l v r ihl ihr =>
      intro hsort e q he hk
      rw [inorder_node] at hsort he
      rw [List.pairwise_append] at hsort
      obtain ⟨hsortl, hvr, hcross⟩ := hsort
      have hvler : ∀ y ∈ inorder r, κ v < κ y := (List.pairwise_cons.mp hvr).1
      have hsortr : List.Pairwise (fun a b => κ a < κ b) (inorder r) :=
        (List.pairwise_cons.mp hvr).2
      rw [findnode]
      rcases lt_trichotomy (κ q) (κ v) with hcmp | hcmp | hcmp
      · rw [if_neg (fun hcon => absurd ((heq q v).mp hcon) (ne_of_lt hcmp))]
        rw [if_pos ((hlt q v).mpr hcmp)]
        have hel : e ∈ inorder l := by
          rw [List.mem_append, List.mem_cons] at he
          rcases he with hx | hx | hx
          · exact hx
          · rw [hx] at hk
            exact absurd hk (ne_of_lt hcmp)
          · have hx2 := hvler e hx
            rw [← hk] at hx2
            exact absurd (lt_trans hcmp hx2) (lt_irrefl _)
        exact ihl hsortl e q hel hk
      · rw [if_pos ((heq q v).mpr hcmp)]
        have hev : e = v := by
          rw [List.mem_append, List.mem_cons] at he
          rcases he with hx | hx | hx
          · have hx2 := hcross e hx v (List.mem_cons_self v _)
            rw [← hk, hcmp] at hx2
            exact absurd hx2 (lt_irrefl _)
          · exact hx
          · have hx2 := hvler e hx
            rw [← hk, hcmp] at hx2
            exact absurd hx2 (lt_irrefl _)
        rw [hev]
      · rw [if_neg (fun hcon => absurd ((heq q v).mp hcon) (ne_of_gt hcmp))]
        rw [if_neg (fun hcon => absurd ((hlt q v).mp hcon) (not_lt_of_gt hcmp))]
        have her : e ∈ inorder r := by
          rw [List.mem_append, List.mem_cons] at he
          rcases he with hx | hx | hx
          · have hx2 := hcross e hx v (List.mem_cons_self v _)
            rw [← hk] at hx2
            exact absurd (lt_trans hcmp hx2) (lt_irrefl _)
          · rw [hx] at hk
            exact absurd hk (ne_of_gt hcmp)
          · exact hx
        exact ihr hsortr e q her hk

/-! ### Spine endpoints (claim C2) -/

lemma inorder_ne_nil {b : Bool} {s : Nat} {l : RBNode α} {v : α} {r : RBNode α} :
    inorder (.node b s l v r : RBNode α) ≠ [] := by
  simp

lemma valueAt_rightSpine : ∀ (r : RBNode α) (b : Bool) (s : Nat) (l : RBNode α) (v : α),
    valueAt (.node b s l v r) (rightSpine (.node b s l v r)) =
      (inorder (.node b s l v r)).getLast? := by
  intro r
  induction r with
  | leaf =>
      intro b s l v
      have h1 : rightSpine (.node b s l v (.leaf : RBNode α)) = [] := rfl
      rw [h1]
      show some v = (inorder l ++ [v]).getLast?
      rw [List.getLast?_append_cons]
      rfl
  | node rb rs rl rv rr ihl ihr =>
      intro b s l v
      have h1 : rightSpine (.node b s l v (.node rb rs rl rv rr)) =
          .right :: rightSpine (.node rb rs rl rv rr : RBNode α) := rfl
      rw [h1]
      have h2 : valueAt (.node b s l v (.node rb rs rl rv rr))
          (.right :: rightSpine (.node rb rs rl rv rr : RBNode α)) =
          valueAt (.node rb rs rl rv rr) (rightSpine (.node rb rs rl rv rr : RBNode α)) :=
        rfl
      rw [h2, ihr rb rs rl rv]
      show _ = (inorder l ++ v :: inorder (.node rb rs rl rv rr)).getLast?
      rw [List.getLast?_append_cons]
      rw [show (v :: inorder (.node rb rs rl rv rr) : List α) =
        [v] ++ inorder (.node rb rs rl rv rr) from rfl]
      rw [List.getLast?_append_of_ne_nil _ inorder_ne_nil]

lemma valueAt_leftSpine : ∀ (l : RBNode α) (b : Bool) (s : Nat) (v : α) (r : RBNode α),
    valueAt (.node b s l v r) (leftSpine (.node b s l v r)) =
      (inorder (.node b s l v r)).head? := by
  intro l
  induction l with
  | leaf =>
      intro b s v r
      have h1 : leftSpine (.node b s (.leaf : RBNode α) v r) = [] := rfl
      rw [h1]
      show some v = (([] : List α) ++ v :: inorder r).head?
      rfl
  | node lb ls ll lv lr ihl ihr =>
      intro b s v r
      have h1 : leftSpine (.node b s (.node lb ls ll lv lr) v r) =
          .left :: leftSpine (.node lb ls ll lv lr : RBNode α) := rfl
      rw [h1]
      have h2 : valueAt (.node b s (.node lb ls ll lv lr) v r)
          (.left :: leftSpine (.node lb ls ll lv lr : RBNode α)) =
          valueAt (.node lb ls ll lv lr) (leftSpine (.node lb ls ll lv lr : RBNode α)) :=
        rfl
      rw [h2, ihl lb ls lv lr]
      show _ = (inorder (.node lb ls ll lv lr) ++ v :: inorder r).head?
      rw [List.head?_append_of_ne_nil _ inorder_ne_nil]

/-! ### `__hash__` and `__cmp__` (claim C8) -/

lemma pyhash_eq_djb2 (hv : α → Nat) (t : RBNode α) :
    pyhash hv t = if len t = 0 then 0 else djb2 hv (inorder t) := by
  rw [pyhash, iterList_eq_inorder]
  rfl

lemma cmpZip_zero : ∀ (A B : List Int), A.length = B.length →
    cmpZip intLt intEq (A.zip B) = 0 → A = B := by
  intro A
  induction A with
  | nil =>
      intro B hlen _
      cases B with
      | nil => rfl
      | cons b bs => simp at hlen
  | cons a as ih =>
      intro B hlen hz
      cases B with
      | nil => simp at hlen
      | cons b bs =>
          rw [List.zip_cons_cons, cmpZip] at hz
          by_cases he : intEq a b = true
          · have hab : a = b := by
              rw [intEq, beq_iff_eq] at he
              exact he
            rw [he] at hz
            simp only [Bool.not_true, Bool.false_eq_true, if_false] at hz
            rw [hab, ih bs (by simpa using hlen) hz]
          · have he2 : intEq a b = false := by
              revert he
              cases intEq a b <;> simp
            rw [he2] at hz
            simp only [Bool.not_false, if_true] at hz
            by_cases hl : intLt a b = true
            · rw [if_pos hl] at hz
              exact absurd hz (by omega)
            · rw [if_neg hl] at hz
              exact absurd hz (by omega)

lemma cmp_zero_same_inorder {x y : RBNode Int} (hsx : sizeOk x = true)
    (hsy : sizeOk y = true) (h : cmp intLt intEq x y = 0) :
    len x = len y ∧ inorder x = inorder y := by
  rw [cmp] at h
  by_cases hlen : len x ≠ len y
  · rw [if_pos hlen] at h
    exact absurd h (by omega)
  · rw [if_neg hlen] at h
    have hlen2 : len x = len y := by omega
    refine ⟨hlen2, ?_⟩
    rw [iterList_eq_inorder, iterList_eq_inorder] at h
    refine cmpZip_zero _ _ ?_ h
    rw [len_eq_inorder_length hsx, len_eq_inorder_length hsy, hlen2]

/-! ### `pop` with the index omitted removes the last element (claim C9) -/

lemma pop_none_spec {t : RBNode α} (hs : sizeOk t = true) (hne : 0 < len t) :
    ∃ v t2, pop t none = (.ok v, t2) ∧ (inorder t).getLast? = some v ∧
      inorder t2 = (inorder t).dropLast := by
  obtain ⟨p, v, A, B, hloc, hsplit, hA, b, s, l, r, ctx, hu, hAeq, hBeq⟩ :=
    getnodeLoc_ok hs ((len t : Int) - 1) (by omega) (by omega)
  have hlenT : (inorder t).length = len t := len_eq_inorder_length hs
  have hB : B = [] := by
    have hx : (inorder t).length = A.length + 1 + B.length := by
      rw [hsplit]
      simp
      omega
    have hy : B.length = 0 := by omega
    exact List.length_eq_zero.mp hy
  subst hB
  refine ⟨v, delete_node t p, ?_, ?_, ?_⟩
  · rw [pop, hloc]
  · rw [hsplit, List.getLast?_append_cons]
    rfl
  · rw [inorder_delete_node hu, hsplit]
    rw [show (A ++ [v]).dropLast = A from by simp]
    rw [hAeq]
    have hBr : inorder r ++ ctxInR ctx = [] := hBeq.symm
    rw [List.append_assoc, hBr, List.append_nil]

/-! ### Preservation of the full invariant bundle (claim C1) -/

lemma invariantsHold_leaf : invariantsHold .leaf :=
  ⟨rfl, rfl, rfl, rfl, rfl, rfl, List.sorted_nil⟩

lemma invariantsHold_delete {t : RBNode Int} (h : invariantsHold t) {p : Path}
    {b : Bool} {s : Nat} {l : RBNode Int} {v : Int} {r : RBNode Int} {ctxT : Ctx Int}
    (hu : unzip t p = some (.node b s l v r, ctxT)) :
    invariantsHold (delete_node t p) := by
  obtain ⟨h1, h2, h3, h4, h5, h6, h7⟩ := h
  have hrb := delete_node_rb ⟨h1, h2, h3⟩ hu
  have hsz := sizeOk_delete_node h4 hu
  exact ⟨hrb.1, hrb.2.1, hrb.2.2, hsz, (len_eq_count hsz).symm, iterList_eq_inorder _,
    List.Pairwise.sublist (inorder_delete_node_sublist hu) h7⟩

lemma invariantsHold_insert {t : RBNode Int} (h : invariantsHold t) (v : Int)
    (ms : Bool) : invariantsHold (insert intLt intEq v ms t) := by
  obtain ⟨h1, h2, h3, h4, h5, h6, h7⟩ := h
  have hrb := insert_rb intLt intEq v ms ⟨h1, h2, h3⟩
  have hsz := sizeOk_insert intLt intEq v ms h4
  refine ⟨hrb.1, hrb.2.1, hrb.2.2, hsz, (len_eq_count hsz).symm, iterList_eq_inorder _, ?_⟩
  rw [inorder_insert intLt intEq v ms h4]
  exact sorted_insList intLt_iff intEq_iff v ms t h7

lemma getnodeLoc_ok_unzip {t : RBNode α} (hs : sizeOk t = true) {i : Int} {p : Path}
    {v : α} (h : getnodeLoc t i = .ok (p, v)) :
    ∃ b s l r ctx, unzip t p = some (.node b s l v r, ctx) := by
  rw [getnodeLoc] at h
  set j : Int := if i < 0 then i + (len t : Int) else i with hj
  by_cases hc : (j < 0 || j ≥ (len t : Int)) = true
  · rw [if_pos hc] at h
    exact Except.noConfusion h
  · rw [if_neg hc] at h
    simp only [Bool.or_eq_true, decide_eq_true_eq, ge_iff_le, not_or, not_lt, not_le] at hc
    have hlt : j.toNat < len t := by omega
    obtain ⟨p2, v2, hgo, b, s, l, r, ctx, hu, _⟩ := getnodeGo_spec t hs j.toNat hlt
    rw [hgo] at h
    have hpv : (p2, v2) = (p, v) := Except.ok.inj h
    have hp : p2 = p := congrArg Prod.fst hpv
    have hv : v2 = v := congrArg Prod.snd hpv
    subst hp
    subst hv
    exact ⟨b, s, l, r, ctx, hu⟩

lemma invariantsHold_applyMut {t : RBNode Int} (h : invariantsHold t) (m : Mutation) :
    invariantsHold (applyMut t m) := by
  cases m with
  | ins v ms => exact invariantsHold_insert h v ms
  | ext l ms =>
      show invariantsHold (extend intLt intEq l ms t)
      rw [extend]
      induction l generalizing t with
      | nil => exact h
      | cons x xs ih => exact ih (invariantsHold_insert h x ms)
  | rem v =>
      show invariantsHold (remove intLt intEq t v).2
      rw [remove]
      cases hF : findnodePath intLt intEq t v with
      | none => exact h
      | some p =>
          obtain ⟨b, s, l, w, r, ctx, hu, _⟩ := findnodePath_unzip intLt intEq t v p hF
          exact invariantsHold_delete h hu
  | popAt oi =>
      show invariantsHold (pop t oi).2
      rw [pop.eq_def]
      split
      all_goals
        lift_lets
        extract_lets i
        cases hG : getnodeLoc t i with
        | error e => exact h
        | ok pv =>
            obtain ⟨p, v⟩ := pv
            obtain ⟨b, s, l, r, ctx, hu⟩ := getnodeLoc_ok_unzip h.2.2.2.1 hG
            exact invariantsHold_delete h hu
  | clear => exact invariantsHold_leaf
  | iterDel p =>
      show invariantsHold (applyMut t (.iterDel p))
      rw [applyMut]
      cases hu : unzip t p with
      | none => exact h
      | some sc =>
          obtain ⟨sub, ctx⟩ := sc
          cases sub with
          | leaf => exact h
          | node b s l v r => exact invariantsHold_delete h hu

lemma invariantsHold_applyMuts (ms : List Mutation) :
    invariantsHold (applyMuts ms .leaf) := by
  rw [applyMuts]
  have hgen : ∀ (ms2 : List Mutation) (t : RBNode Int), invariantsHold t →
      invariantsHold (ms2.foldl applyMut t) := by
    intro ms2
    induction ms2 with
    | nil => intro t h; exact h
    | cons m rest ih =>
        intro t h
        exact ih _ (invariantsHold_applyMut h m)
  exact hgen ms .leaf invariantsHold_leaf

/-! ### Iterator-scoped deletion (claim C5) -/

lemma idPath_unzip : ∀ (t : RBNode Nat) (x : Nat) (p : Path),
    idPath t x = some p →
    ∃ b s l r ctx, unzip t p = some (.node b s l x r, ctx) := by
  intro t
  induction t with
  | leaf =>
      intro x p h
      exact Option.noConfusion h
  | node b s l v r ihl ihr =>
      intro x p h
      rw [idPath] at h
      cases hL : idPath l x with
      | some p2 =>
          rw [hL] at h
          have hp : .left :: p2 = p := Option.some.inj h
          subst hp
          obtain ⟨b2, s2, l2, r2, ctx, hu⟩ := ihl x p2 hL
          refine ⟨b2, s2, l2, r2, ctx ++ [⟨.left, b, s, v, r⟩], ?_⟩
          rw [unzip_cons_left, hu]
          rfl
      | none =>
          rw [hL] at h
          by_cases hv : v = x
          · rw [if_pos hv] at h
            have hp : [] = p := Option.some.inj h
            subst hp
            subst hv
            exact ⟨b, s, l, r, [], unzip_nil _⟩
          · rw [if_neg hv] at h
            cases hR : idPath r x with
            | none =>
                rw [hR] at h
                exact Option.noConfusion h
            | some p2 =>
                rw [hR] at h
                have hp : .right :: p2 = p := Option.some.inj h
                subst hp
                obtain ⟨b2, s2, l2, r2, ctx, hu⟩ := ihr x p2 hR
                refine ⟨b2, s2, l2, r2, ctx ++ [⟨.right, b, s, v, l⟩], ?_⟩
                rw [unzip_cons_right, hu]
                rfl

lemma idPath_of_mem : ∀ (t : RBNode Nat) (x : Nat), x ∈ inorder t →
    ∃ p, idPath t x = some p := by
  intro t
  induction t with
  | leaf =>
      intro x hx
      simp at hx
  | node b s l v r ihl ihr =>
      intro x hx
      rw [idPath]
      cases hL : idPath l x with
      | some p2 => exact ⟨.left :: p2, rfl⟩
      | none =>
          by_cases hv : v = x
          · rw [if_pos hv]
            exact ⟨[], rfl⟩
          · rw [if_neg hv]
            have hxr : x ∈ inorder r := by
              rw [inorder_node, List.mem_append, List.mem_cons] at hx
              rcases hx with hx | hx | hx
              · obtain ⟨p2, hp2⟩ := ihl x hx
                rw [hp2] at hL
                exact Option.noConfusion hL
              · exact absurd hx.symm hv
              · exact hx
            obtain ⟨p2, hp2⟩ := ihr x hxr
            rw [hp2]
            exact ⟨.right :: p2, rfl⟩

lemma valueAt_some_mem_paths : ∀ (t : RBNode α) (p : Path) (w : α),
    valueAt t p = some w → p ∈ pathsInorder t
  | .leaf, _, _, h => Option.noConfusion h
  | .node b s l v r, [], w, _ => by
      rw [pathsInorder_node]
      simp
  | .node b s l v r, .left :: p2, w, h => by
      have hm := valueAt_some_mem_paths l p2 w h
      rw [pathsInorder_node, List.mem_append]
      exact Or.inl (List.mem_map.mpr ⟨p2, hm, rfl⟩)
  | .node b s l v r, .right :: p2, w, h => by
      have hm := valueAt_some_mem_paths r p2 w h
      rw [pathsInorder_node, List.mem_append, List.mem_cons]
      exact Or.inr (Or.inr (List.mem_map.mpr ⟨p2, hm, rfl⟩))

lemma pathsInorder_length (t : RBNode α) :
    (pathsInorder t).length = (inorder t).length := by
  have h := congrArg List.length (map_valueAt_pathsInorder t)
  simpa using h

lemma valueAt_pathsInorder_get (t : RBNode α) {j : Nat} (hj : j < (pathsInorder t).length) :
    valueAt t ((pathsInorder t).get ⟨j, hj⟩) = (inorder t)[j]? := by
  have h := congrArg (fun L => L[j]?) (map_valueAt_pathsInorder t)
  simp only [List.getElem?_map, List.getElem?_eq_getElem hj, Option.map_some'] at h
  cases hg : (inorder t)[j]? with
  | none =>
      rw [hg] at h
      simp at h
  | some y =>
      rw [hg] at h
      simp only [Option.map_some', Option.some.injEq] at h
      exact h

lemma nextPath_get (t : RBNode α) {j : Nat} (hj : j < (pathsInorder t).length) :
    nextPath true t ((pathsInorder t).get ⟨j, hj⟩) =
      if h2 : j + 1 < (pathsInorder t).length then
        some ((pathsInorder t).get ⟨j + 1, h2⟩)
      else none := by
  obtain ⟨hchain, hlast⟩ := pathsInorder_chain t
  by_cases h2 : j + 1 < (pathsInorder t).length
  · rw [dif_pos h2]
    exact List.chain'_iff_get.mp hchain j (by omega)
  · rw [dif_neg h2]
    refine hlast _ ?_
    rw [List.getLast?_eq_getElem?]
    have hjeq : (pathsInorder t).length - 1 = j := by omega
    rw [hjeq, List.getElem?_eq_getElem hj]
    rfl

lemma nodup_split_eq {x : α} : ∀ (A C B D : List α),
    A ++ x :: B = C ++ x :: D → (A ++ x :: B).Nodup → A = C ∧ B = D := by
  intro A
  induction A with
  | nil =>
      intro C B D heq hnd
      cases C with
      | nil =>
          refine ⟨rfl, ?_⟩
          have hx := List.cons.inj heq
          exact hx.2
      | cons c cs =>
          have hx := List.cons.inj (by simpa using heq)
          obtain ⟨hxc, htail⟩ := hx
          simp only [List.nil_append] at hnd
          rw [List.nodup_cons] at hnd
          exfalso
          refine hnd.1 ?_
          rw [htail]
          simp
  | cons a A2 ih =>
      intro C B D heq hnd
      cases C with
      | nil =>
          have hx := List.cons.inj (by simpa using heq)
          obtain ⟨hxc, htail⟩ := hx
          simp only [List.cons_append] at hnd
          rw [List.nodup_cons] at hnd
          exfalso
          refine hnd.1 ?_
          rw [hxc]
          simp
      | cons c cs =>
          have hx := List.cons.inj (by simpa using heq)
          obtain ⟨hac, htail⟩ := hx
          simp only [List.cons_append] at hnd
          rw [List.nodup_cons] at hnd
          obtain ⟨hA, hB⟩ := ih cs B D htail hnd.2
          exact ⟨by rw [hac, hA], hB⟩

/-- Locating a label in a duplicate-free tree: the unique path, the split of
the in-order sequence it induces, and the in-order successor the iterator
computes from it. -/
lemma idPath_succ {t : RBNode Nat} (hnd : (inorder t).Nodup) {K R : List Nat} {x : Nat}
    (hdec : inorder t = K ++ x :: R) :
    ∃ p, idPath t x = some p ∧
      (nextPath true t p).bind (valueAt t) = R.head? ∧
      ∃ b s l r ctx, unzip t p = some (.node b s l x r, ctx) ∧
        ctxInL ctx ++ inorder l = K ∧ inorder r ++ ctxInR ctx = R := by
  have hx : x ∈ inorder t := by
    rw [hdec]
    simp
  obtain ⟨p, hp⟩ := idPath_of_mem t x hx
  obtain ⟨b, s, l, r, ctx, hu⟩ := idPath_unzip t x p hp
  have hval : valueAt t p = some x := valueAt_of_unzip hu
  have hio : inorder t = (ctxInL ctx ++ inorder l) ++ x :: (inorder r ++ ctxInR ctx) := by
    rw [← unzip_plug hu, inorder_plug, inorder_node]
    simp [List.append_assoc]
  have hsplit : ctxInL ctx ++ inorder l = K ∧ inorder r ++ ctxInR ctx = R := by
    have hx2 := nodup_split_eq (ctxInL ctx ++ inorder l) K (inorder r ++ ctxInR ctx) R
      (by rw [← hio, hdec]) (by rw [← hio]; exact hnd)
    exact hx2
  refine ⟨p, hp, ?_, b, s, l, r, ctx, hu, hsplit.1, hsplit.2⟩
  have hmem : p ∈ pathsInorder t := valueAt_some_mem_paths t p x hval
  obtain ⟨⟨j, hj⟩, hget⟩ := List.mem_iff_get.mp hmem
  have hj2 : j < (inorder t).length := by
    rw [← pathsInorder_length]
    exact hj
  have hjx : (inorder t)[j]? = some x := by
    rw [← valueAt_pathsInorder_get t hj, hget, hval]
  have hKx : (inorder t)[K.length]? = some x := by
    rw [hdec, List.getElem?_append_right (le_refl K.length), Nat.sub_self]
    simp
  have hjK : j = K.length := List.getElem?_inj hj2 hnd (by rw [hjx, hKx])
  subst hjK
  cases R with
  | nil =>
      have hlen : (inorder t).length = K.length + 1 := by
        rw [hdec]
        simp
      have h2 : ¬ (K.length + 1 < (pathsInorder t).length) := by
        rw [pathsInorder_length, hlen]
        omega
      rw [← hget, nextPath_get t hj, dif_neg h2]
      rfl
  | cons r0 R2 =>
      have hlen2 : K.length + 1 < (inorder t).length := by
        rw [hdec]
        simp only [List.length_append, List.length_cons]
        omega
      have h2 : K.length + 1 < (pathsInorder t).length := by
        rw [pathsInorder_length]
        exact hlen2
      rw [← hget, nextPath_get t hj, dif_pos h2]
      have hsucc : (inorder t)[K.length + 1]? = some r0 := by
        rw [hdec, List.getElem?_append_right (by omega : K.length ≤ K.length + 1)]
        have h3 : K.length + 1 - K.length = 1 := by omega
        rw [h3]
        simp
      show valueAt t ((pathsInorder t).get ⟨K.length + 1, h2⟩) = (r0 :: R2).head?
      rw [valueAt_pathsInorder_get t h2, hsucc]
      rfl

/-- `__init__`'s pending first node is the head of the in-order sequence. -/
lemma seedPath_head (t : RBNode Nat) :
    (seedPath true t).bind (valueAt t) = (inorder t).head? := by
  cases t with
  | leaf => rfl
  | node b s l v r => exact valueAt_leftSpine l b s v r

lemma eq_leaf_of_inorder_nil : ∀ {t : RBNode α}, inorder t = [] → t = .leaf
  | .leaf, _ => rfl
  | .node _ _ _ _ _, h => absurd h inorder_ne_nil

lemma survivors_replicate_true : ∀ xs : List Nat,
    survivors xs (List.replicate xs.length true) = []
  | [] => rfl
  | x :: xs => by
      rw [List.length_cons, List.replicate_succ]
      show survivors xs (List.replicate xs.length true) = []
      exact survivors_replicate_true xs

/-- `iterPeek` with no current node reads the pending one. -/
lemma iterPeek_pending (t : RBNode Nat) (o : Option Nat) :
    iterPeek t ⟨none, o⟩ = o := rfl

/-- `iterPeek` at a current node is the in-order successor. -/
lemma iterPeek_current {t : RBNode Nat} (hnd : (inorder t).Nodup) {K R : List Nat} {x : Nat}
    (hdec : inorder t = K ++ x :: R) :
    iterPeek t ⟨some x, none⟩ = R.head? := by
  obtain ⟨p, hp, hnext, _⟩ := idPath_succ hnd hdec
  simp only [iterPeek, hp]
  exact hnext

lemma driveDel_stop (policy : List Bool) (fuel : Nat) (t : RBNode Nat) (s : IterSt)
    (h : iterPeek t s = none) :
    driveDel policy (fuel + 1) t s = ([], t) := by
  have hstep : iterStepNode t s = (none, ⟨none, s.nxt⟩) := by
    rw [iterStepNode, h]
  rw [driveDel, hstep]

lemma driveDel_step_true {t : RBNode Nat} {s : IterSt} {x : Nat} {s1 : IterSt}
    {t2 : RBNode Nat} {s2 : IterSt} (rest : List Bool) (fuel : Nat)
    (hstep : iterStepNode t s = (some x, s1)) (hdel : iterDeleteOp t s1 = (t2, s2)) :
    driveDel (true :: rest) (fuel + 1) t s =
      (x :: (driveDel rest fuel t2 s2).1, (driveDel rest fuel t2 s2).2) := by
  simp only [driveDel, hstep, hdel]

lemma driveDel_step_false {t : RBNode Nat} {s : IterSt} {x : Nat} {s1 : IterSt}
    (rest : List Bool) (fuel : Nat) (hstep : iterStepNode t s = (some x, s1)) :
    driveDel (false :: rest) (fuel + 1) t s =
      (x :: (driveDel rest fuel t s1).1, (driveDel rest fuel t s1).2) := by
  simp only [driveDel, hstep]

lemma driveDel_step_nil {t : RBNode Nat} {s : IterSt} {x : Nat} {s1 : IterSt}
    (fuel : Nat) (hstep : iterStepNode t s = (some x, s1)) :
    driveDel [] (fuel + 1) t s =
      (x :: (driveDel [] fuel t s1).1, (driveDel [] fuel t s1).2) := by
  simp only [driveDel, hstep]

/-- The driver invariant: the visited-and-kept prefix `K`, the remaining
suffix `R`, and the two shapes the iterator state can take between steps. -/
lemma driveDel_go : ∀ (R : List Nat) (policy : List Bool) (fuel : Nat) (t : RBNode Nat)
    (K : List Nat) (s : IterSt),
    (inorder t).Nodup →
    inorder t = K ++ R →
    (s = ⟨none, R.head?⟩ ∨ ∃ K0 x, K = K0 ++ [x] ∧ s = ⟨some x, none⟩) →
    R.length ≤ fuel →
    ∃ tfin, driveDel policy fuel t s = (R, tfin) ∧
      inorder tfin = K ++ survivors R policy := by
  intro R
  induction R with
  | nil =>
      intro policy fuel t K s hnd hdec hs _
      cases fuel with
      | zero => exact ⟨t, rfl, hdec⟩
      | succ f =>
          rcases hs with rfl | ⟨K0, x, rfl, rfl⟩
          · exact ⟨t, driveDel_stop policy f t _ rfl, hdec⟩
          · have hdec2 : inorder t = K0 ++ x :: [] := by
              rw [hdec]
              simp
            have hpeek : iterPeek t ⟨some x, none⟩ = none :=
              iterPeek_current hnd hdec2
            exact ⟨t, driveDel_stop policy f t _ hpeek, hdec⟩
  | cons r0 R2 ih =>
      intro policy fuel t K s hnd hdec hs hfuel
      cases fuel with
      | zero => simp at hfuel
      | succ f =>
          have hf2 : R2.length ≤ f := by
            simp only [List.length_cons] at hfuel
            omega
          have hpeek1 : iterPeek t s = some r0 := by
            rcases hs with rfl | ⟨K0, x, rfl, rfl⟩
            · rfl
            · have hdec2 : inorder t = K0 ++ x :: (r0 :: R2) := by
                rw [hdec]
                simp
              have h5 : iterPeek t ⟨some x, none⟩ = (r0 :: R2).head? :=
                iterPeek_current hnd hdec2
              exact h5
          have hstep : iterStepNode t s = (some r0, ⟨some r0, none⟩) := by
            rw [iterStepNode, hpeek1]
          cases policy with
          | nil =>
              obtain ⟨tfin, hrun, hfin⟩ := ih [] f t (K ++ [r0]) ⟨some r0, none⟩ hnd
                (by rw [hdec]; simp) (Or.inr ⟨K, r0, rfl, rfl⟩) hf2
              refine ⟨tfin, ?_, ?_⟩
              · rw [driveDel_step_nil f hstep, hrun]
              · rw [hfin]
                show (K ++ [r0]) ++ survivors R2 [] = K ++ r0 :: survivors R2 []
                simp
          | cons bPol rest =>
              cases bPol with
              | false =>
                  obtain ⟨tfin, hrun, hfin⟩ := ih rest f t (K ++ [r0]) ⟨some r0, none⟩ hnd
                    (by rw [hdec]; simp) (Or.inr ⟨K, r0, rfl, rfl⟩) hf2
                  refine ⟨tfin, ?_, ?_⟩
                  · rw [driveDel_step_false rest f hstep, hrun]
                  · rw [hfin]
                    show (K ++ [r0]) ++ survivors R2 rest = K ++ r0 :: survivors R2 rest
                    simp
              | true =>
                  obtain ⟨p, hp, hnext, b2, s2, l2, r2, ctx, hu, hKeq, hReq⟩ :=
                    idPath_succ hnd hdec
                  have hpeek2 : iterPeek t ⟨some r0, none⟩ = R2.head? := by
                    simp only [iterPeek, hp]
                    exact hnext
                  have hdel : iterDeleteOp t ⟨some r0, none⟩ =
                      (delete_node t p, ⟨none, R2.head?⟩) := by
                    simp only [iterDeleteOp, hp, hpeek2]
                  have ht2 : inorder (delete_node t p) = K ++ R2 := by
                    rw [inorder_delete_node hu, ← hKeq, ← hReq]
                    simp [List.append_assoc]
                  have hnd2 : (inorder (delete_node t p)).Nodup := by
                    rw [ht2]
                    refine List.Nodup.sublist ?_ (hdec ▸ hnd)
                    exact (List.sublist_cons_self r0 R2).append_left K
                  obtain ⟨tfin, hrun, hfin⟩ := ih rest f (delete_node t p) K
                    ⟨none, R2.head?⟩ hnd2 ht2 (Or.inl rfl) hf2
                  refine ⟨tfin, ?_, ?_⟩
                  · rw [driveDel_step_true rest f hstep hdel, hrun]
                  · rw [hfin]
                    rfl

/-! ### The claims -/

/-- C1: every sequence of public mutations (insert, extend, remove, pop,
clear, iterator-scoped delete) applied to the initially empty tree leaves a
tree satisfying invariants 1-8 as `check()` verifies them: black root, no
red node with a red child, equal black height on all paths, consistent
stored sizes (`nnodes == len(self)`), parent-link iteration enumerating the
in-order values, and a non-decreasing in-order value sequence.  Applying it
to every prefix of the sequence gives the invariant after every mutation. -/
theorem c1_invariants_after_mutations (ms : List Mutation) :
    invariantsHold (applyMuts ms .leaf) :=
  invariantsHold_applyMuts ms

/-- C2, counterexample: on a target node with BOTH children non-sentinel,
`_adjacent_node` of `pyrbt.py` descends into the LEFT subtree (maximum of
the left subtree), while the old `pyRBT.py` delete engine - and the claim -
take the minimum of the RIGHT subtree.  The two paths differ on the
smallest such tree. -/
theorem c2_adjacent_counterexample :
    adjacentSub (.node true 3 (.node false 1 .leaf (1 : Int) .leaf) 2
        (.node false 1 .leaf 3 .leaf) : RBNode Int) = [.left] ∧
    oldAdjacentSub (.node true 3 (.node false 1 .leaf (1 : Int) .leaf) 2
        (.node false 1 .leaf 3 .leaf) : RBNode Int) = [.right] ∧
    ([.left] : Path) ≠ [.right] :=
  ⟨rfl, rfl, by decide⟩

/-- C2 (amended): in the delete engine of `pyrbt.py`, the in-order neighbor
spliced out in place of the target is chosen LEFT subtree first: the maximum
of the left subtree when it is non-sentinel (the in-order predecessor), else
the minimum of the right subtree when that is non-sentinel (the in-order
successor), else the target itself. -/
theorem c2_victim_left_first {b : Bool} {s : Nat} {l : RBNode Int} {v : Int}
    {r : RBNode Int} :
    (l ≠ .leaf → adjacentSub (.node b s l v r) = .left :: rightSpine l ∧
      valueAt (.node b s l v r) (adjacentSub (.node b s l v r)) =
        (inorder l).getLast?) ∧
    (l = .leaf → r ≠ .leaf → adjacentSub (.node b s l v r) = .right :: leftSpine r ∧
      valueAt (.node b s l v r) (adjacentSub (.node b s l v r)) =
        (inorder r).head?) ∧
    (l = .leaf → r = .leaf → adjacentSub (.node b s l v r) = []) := by
  refine ⟨?_, ?_, ?_⟩
  · intro hl
    cases l with
    | leaf => exact absurd rfl hl
    | node lb ls ll lv lr =>
        refine ⟨rfl, ?_⟩
        show valueAt (.node lb ls ll lv lr) (rightSpine (.node lb ls ll lv lr)) = _
        exact valueAt_rightSpine lr lb ls ll lv
  · intro hl hr
    subst hl
    cases r with
    | leaf => exact absurd rfl hr
    | node rb rs rl rv rr =>
        refine ⟨rfl, ?_⟩
        show valueAt (.node rb rs rl rv rr) (leftSpine (.node rb rs rl rv rr)) = _
        exact valueAt_leftSpine rl rb rs rv rr
  · intro hl hr
    subst hl
    subst hr
    rfl

/-- Witness for the amended C2 theorem at a concrete two-child target. -/
theorem c2_victim_left_first_witness :
    ((.node false 1 .leaf (1 : Int) .leaf : RBNode Int) ≠ .leaf) ∧
    (adjacentSub (.node true 3 (.node false 1 .leaf (1 : Int) .leaf) 2
          (.node false 1 .leaf 3 .leaf) : RBNode Int) =
        .left :: rightSpine (.node false 1 .leaf (1 : Int) .leaf) ∧
      valueAt (.node true 3 (.node false 1 .leaf (1 : Int) .leaf) 2
          (.node false 1 .leaf 3 .leaf) : RBNode Int)
        (adjacentSub (.node true 3 (.node false 1 .leaf (1 : Int) .leaf) 2
          (.node false 1 .leaf 3 .leaf) : RBNode Int)) =
        (inorder (.node false 1 .leaf (1 : Int) .leaf : RBNode Int)).getLast?) :=
  ⟨by decide, (c2_victim_left_first).1 (by decide)⟩

/-- C3: on a tree with consistent stored sizes, for every index
`0 <= i < len`, `get(i)` succeeds and returns the `i`-th element (0-based)
of the in-order value sequence (which is the sorted sequence of the stored
values). -/
theorem c3_get_sorted_index {t : RBNode Int} (hs : sizeOk t = true) {i : Int}
    (h0 : 0 ≤ i) (hn : i < (len t : Int)) :
    ∃ v, get t i = .ok v ∧ (inorder t)[i.toNat]? = some v := by
  obtain ⟨p, v, A, B, hloc, hsplit, hA, _⟩ := getnodeLoc_ok hs i h0 hn
  refine ⟨v, ?_, ?_⟩
  · rw [get, hloc]
    rfl
  · have hAlen : A.length = i.toNat := by omega
    rw [hsplit, ← hAlen, List.getElem?_append_right (le_refl A.length), Nat.sub_self]
    simp

/-- Witness for C3 on a one-node tree. -/
theorem c3_get_sorted_index_witness :
    (sizeOk (.node true 1 .leaf (7 : Int) .leaf : RBNode Int) = true ∧
      (0 : Int) ≤ 0 ∧
      (0 : Int) < (len (.node true 1 .leaf (7 : Int) .leaf : RBNode Int) : Int)) ∧
    ∃ v, get (.node true 1 .leaf (7 : Int) .leaf : RBNode Int) 0 = .ok v ∧
      (inorder (.node true 1 .leaf (7 : Int) .leaf : RBNode Int))[(0 : Int).toNat]? =
        some v :=
  ⟨by decide, c3_get_sorted_index (by decide) (by decide) (by decide)⟩

/-- C4: on a size-consistent tree with a non-decreasing in-order sequence
(which includes multiset-mode trees with duplicates), `index(v)` returns
the LEFTMOST 0-based in-order position of `v` when `v` is present, and
errors with `KeyError` when it is absent. -/
theorem c4_index_leftmost {t : RBNode Int} (hs : sizeOk t = true)
    (hsort : List.Sorted (· ≤ ·) (inorder t)) (v : Int) :
    (v ∈ inorder t → ∃ j, index intLt intEq t v = .ok j ∧
        (inorder t)[j]? = some v ∧ ∀ k, k < j → (inorder t)[k]? ≠ some v) ∧
    (v ∉ inorder t → index intLt intEq t v = .error .keyMissing) := by
  rw [index_spec hs hsort v]
  constructor
  · intro hv
    obtain ⟨j, hj⟩ := idxOf?_mem intEq v (inorder t)
      ⟨v, hv, by rw [intEq]; simp⟩
    obtain ⟨hjlen, hjeq, hlt⟩ := idxOf?_get intEq v (inorder t) j hj
    rw [hj]
    refine ⟨j, rfl, ?_, ?_⟩
    · rw [List.getElem?_eq_getElem hjlen]
      have hveq : v = (inorder t).get ⟨j, hjlen⟩ := by
        rw [intEq, beq_iff_eq] at hjeq
        exact hjeq
      exact congrArg some hveq.symm
    · intro k hk hcon
      have hklen : k < (inorder t).length := lt_trans hk hjlen
      rw [List.getElem?_eq_getElem hklen] at hcon
      have hkv : (inorder t).get ⟨k, hklen⟩ = v := Option.some.inj hcon
      have hfalse := hlt k hklen hk
      rw [intEq, beq_eq_false_iff_ne] at hfalse
      exact hfalse hkv.symm
  · intro hnv
    have hnone : idxOf? intEq v (inorder t) = none := by
      refine idxOf?_none intEq v (inorder t) ?_
      intro y hy
      rw [intEq, beq_eq_false_iff_ne]
      rintro rfl
      exact hnv hy
    rw [hnone]

/-- Witness for C4 on a two-node multiset tree holding `1` twice. -/
theorem c4_index_leftmost_witness :
    (sizeOk (.node true 2 (.node false 1 .leaf (1 : Int) .leaf) 1 .leaf :
        RBNode Int) = true ∧
      List.Sorted (· ≤ ·) (inorder (.node true 2
        (.node false 1 .leaf (1 : Int) .leaf) 1 .leaf : RBNode Int))) ∧
    (((1 : Int) ∈ inorder (.node true 2 (.node false 1 .leaf (1 : Int) .leaf) 1 .leaf :
        RBNode Int) → ∃ j, index intLt intEq (.node true 2
          (.node false 1 .leaf (1 : Int) .leaf) 1 .leaf : RBNode Int) 1 = .ok j ∧
        (inorder (.node true 2 (.node false 1 .leaf (1 : Int) .leaf) 1 .leaf :
          RBNode Int))[j]? = some 1 ∧
        ∀ k, k < j → (inorder (.node true 2 (.node false 1 .leaf (1 : Int) .leaf) 1
          .leaf : RBNode Int))[k]? ≠ some 1) ∧
    ((1 : Int) ∉ inorder (.node true 2 (.node false 1 .leaf (1 : Int) .leaf) 1 .leaf :
        RBNode Int) → index intLt intEq (.node true 2
          (.node false 1 .leaf (1 : Int) .leaf) 1 .leaf : RBNode Int) 1 =
        .error .keyMissing)) :=
  ⟨by decide, c4_index_leftmost (by decide) (by decide) 1⟩

/-- C5: driving a forward iterator over a tree with pairwise-distinct node
labels to exhaustion, calling the iterator-scoped `delete()` after a visit
exactly where the policy says so, visits every node that was in the tree at
iterator creation exactly once (the deleted ones included, since deletion
happens after the visit and the next node is computed BEFORE the structural
change); the final tree holds exactly the values whose visit was not
followed by a delete, and with a delete at every step the tree ends empty. -/
theorem c5_iterator_delete {t : RBNode Nat} (hnd : (inorder t).Nodup)
    (policy : List Bool) {fuel : Nat} (hfuel : (inorder t).length ≤ fuel) :
    ∃ tfin, driveDel policy fuel t
        ⟨none, (seedPath true t).bind (valueAt t)⟩ = (inorder t, tfin) ∧
      inorder tfin = survivors (inorder t) policy ∧
      (policy = List.replicate (inorder t).length true → tfin = .leaf) := by
  obtain ⟨tfin, hrun, hfin⟩ := driveDel_go (inorder t) policy fuel t []
    ⟨none, (inorder t).head?⟩ hnd (by simp) (Or.inl rfl) hfuel
  rw [seedPath_head]
  refine ⟨tfin, hrun, by simpa using hfin, ?_⟩
  intro hpol
  refine eq_leaf_of_inorder_nil ?_
  rw [hfin, hpol, survivors_replicate_true]
  simp

/-- Witness for C5 on a one-node tree with a delete at the only step. -/
theorem c5_iterator_delete_witness :
    ((inorder (.node true 1 .leaf (0 : Nat) .leaf : RBNode Nat)).Nodup ∧
      (inorder (.node true 1 .leaf (0 : Nat) .leaf : RBNode Nat)).length ≤ 1) ∧
    ∃ tfin, driveDel [true] 1 (.node true 1 .leaf (0 : Nat) .leaf : RBNode Nat)
        ⟨none, (seedPath true (.node true 1 .leaf (0 : Nat) .leaf : RBNode Nat)).bind
          (valueAt (.node true 1 .leaf (0 : Nat) .leaf : RBNode Nat))⟩ =
        (inorder (.node true 1 .leaf (0 : Nat) .leaf : RBNode Nat), tfin) ∧
      inorder tfin =
        survivors (inorder (.node true 1 .leaf (0 : Nat) .leaf : RBNode Nat)) [true] ∧
      ([true] = List.replicate
          (inorder (.node true 1 .leaf (0 : Nat) .leaf : RBNode Nat)).length true →
        tfin = .leaf) :=
  ⟨by decide, c5_iterator_delete (by decide) [true] (by decide)⟩

/-- C6: on a tree with a non-decreasing in-order sequence, `remove(v)`
returns the removed value and deletes exactly one in-order occurrence of
`v` when `v` is present; when `v` is absent it returns `KeyError` and the
tree it hands back is the UNCHANGED input tree (the error is raised before
any mutation). -/
theorem c6_remove_one_occurrence {t : RBNode Int}
    (hsort : List.Sorted (· ≤ ·) (inorder t)) (v : Int) :
    (v ∈ inorder t → ∃ t2 A B, remove intLt intEq t v = (.ok v, t2) ∧
        inorder t = A ++ v :: B ∧ inorder t2 = A ++ B) ∧
    (v ∉ inorder t → remove intLt intEq t v = (.error .keyMissing, t)) := by
  constructor
  · intro hv
    obtain ⟨p, hp⟩ := findnodePath_of_mem t hsort v hv
    obtain ⟨b, s, l, w, r, ctx, hu, hew⟩ := findnodePath_unzip intLt intEq t v p hp
    have hwv : v = w := by
      rw [intEq, beq_iff_eq] at hew
      exact hew
    subst hwv
    have hval : valueAt t p = some v := valueAt_of_unzip hu
    refine ⟨delete_node t p, ctxInL ctx ++ inorder l, inorder r ++ ctxInR ctx,
      ?_, ?_, ?_⟩
    · have hstep : remove intLt intEq t v =
          ((valueAt t p).elim (.error .internalError) .ok, delete_node t p) := by
        rw [remove, hp]
      rw [hstep, hval]
      rfl
    · rw [← unzip_plug hu, inorder_plug, inorder_node]
      simp [List.append_assoc]
    · rw [inorder_delete_node hu]
      simp [List.append_assoc]
  · intro hnv
    cases hp : findnodePath intLt intEq t v with
    | none =>
        rw [remove, hp]
    | some p =>
        obtain ⟨b, s, l, w, r, ctx, hu, hew⟩ := findnodePath_unzip intLt intEq t v p hp
        have hwv : v = w := by
          rw [intEq, beq_iff_eq] at hew
          exact hew
        exfalso
        refine hnv ?_
        rw [hwv]
        exact valueAt_mem t p w (valueAt_of_unzip hu)

/-- Witness for C6 on a one-node tree. -/
theorem c6_remove_one_occurrence_witness :
    (List.Sorted (· ≤ ·) (inorder (.node true 1 .leaf (5 : Int) .leaf : RBNode Int))) ∧
    (((5 : Int) ∈ inorder (.node true 1 .leaf (5 : Int) .leaf : RBNode Int) →
      ∃ t2 A B, remove intLt intEq (.node true 1 .leaf (5 : Int) .leaf : RBNode Int) 5 =
          (.ok 5, t2) ∧
        inorder (.node true 1 .leaf (5 : Int) .leaf : RBNode Int) = A ++ 5 :: B ∧
        inorder t2 = A ++ B) ∧
    ((5 : Int) ∉ inorder (.node true 1 .leaf (5 : Int) .leaf : RBNode Int) →
      remove intLt intEq (.node true 1 .leaf (5 : Int) .leaf : RBNode Int) 5 =
        (.error .keyMissing, (.node true 1 .leaf (5 : Int) .leaf : RBNode Int)))) :=
  ⟨by decide, c6_remove_one_occurrence (by decide) 5⟩

/-- C7: on a size-consistent tree of `len` elements, `get(i)` and `pop(i)`
normalize a negative index by adding `len`, and return `IndexError` exactly
when the given index lies outside `[-len, len)`. -/
theorem c7_index_bounds {t : RBNode Int} (hs : sizeOk t = true) (i : Int) :
    (i < 0 → -(len t : Int) ≤ i →
      get t i = get t (i + (len t : Int)) ∧
        pop t (some i) = pop t (some (i + (len t : Int)))) ∧
    ((get t i = .error .indexOutOfRange ↔
        i < -(len t : Int) ∨ (len t : Int) ≤ i) ∧
      ((pop t (some i)).1 = .error .indexOutOfRange ↔
        i < -(len t : Int) ∨ (len t : Int) ≤ i)) := by
  have hpopE : ∀ (j : Int) (e : Err), getnodeLoc t j = .error e →
      pop t (some j) = (.error e, t) := by
    intro j e hG
    simp only [pop, hG]
  have hpopOk : ∀ (j : Int) (p : Path) (v : Int), getnodeLoc t j = .ok (p, v) →
      pop t (some j) = (.ok v, delete_node t p) := by
    intro j p v hG
    simp only [pop, hG]
  have herr := getnodeLoc_err_iff hs i
  refine ⟨?_, ?_, ?_⟩
  · intro hneg hge
    have hnorm := getnodeLoc_norm i hneg hge
    refine ⟨by simp only [get, hnorm], ?_⟩
    cases hG : getnodeLoc t (i + (len t : Int)) with
    | error e =>
        rw [hpopE _ e (hnorm.trans hG), hpopE _ e hG]
    | ok pv =>
        obtain ⟨p, v⟩ := pv
        rw [hpopOk _ p v (hnorm.trans hG), hpopOk _ p v hG]
  · constructor
    · intro hg
      refine herr.mp ?_
      rw [get] at hg
      cases hG : getnodeLoc t i with
      | error e =>
          rw [hG] at hg
          have he : e = .indexOutOfRange := by
            simpa [Except.map] using hg
          rw [he]
      | ok pv =>
          rw [hG] at hg
          simp [Except.map] at hg
    · intro hrange
      rw [get, herr.mpr hrange]
      rfl
  · constructor
    · intro hp
      refine herr.mp ?_
      cases hG : getnodeLoc t i with
      | error e =>
          rw [hpopE _ e hG] at hp
          have he : e = .indexOutOfRange := by
            simpa using hp
          rw [he]
      | ok pv =>
          obtain ⟨p, v⟩ := pv
          rw [hpopOk _ p v hG] at hp
          simp at hp
    · intro hrange
      rw [hpopE _ _ (herr.mpr hrange)]

/-- Witness for C7 on a one-node tree at the negative index `-1`. -/
theorem c7_index_bounds_witness :
    (sizeOk (.node true 1 .leaf (3 : Int) .leaf : RBNode Int) = true) ∧
    (((-1 : Int) < 0 → -(len (.node true 1 .leaf (3 : Int) .leaf : RBNode Int) : Int) ≤ -1 →
      get (.node true 1 .leaf (3 : Int) .leaf : RBNode Int) (-1) =
          get (.node true 1 .leaf (3 : Int) .leaf : RBNode Int)
            (-1 + (len (.node true 1 .leaf (3 : Int) .leaf : RBNode Int) : Int)) ∧
        pop (.node true 1 .leaf (3 : Int) .leaf : RBNode Int) (some (-1)) =
          pop (.node true 1 .leaf (3 : Int) .leaf : RBNode Int)
            (some (-1 + (len (.node true 1 .leaf (3 : Int) .leaf : RBNode Int) : Int)))) ∧
    ((get (.node true 1 .leaf (3 : Int) .leaf : RBNode Int) (-1) =
        .error .indexOutOfRange ↔
        (-1 : Int) < -(len (.node true 1 .leaf (3 : Int) .leaf : RBNode Int) : Int) ∨
          (len (.node true 1 .leaf (3 : Int) .leaf : RBNode Int) : Int) ≤ -1) ∧
      ((pop (.node true 1 .leaf (3 : Int) .leaf : RBNode Int) (some (-1))).1 =
        .error .indexOutOfRange ↔
        (-1 : Int) < -(len (.node true 1 .leaf (3 : Int) .leaf : RBNode Int) : Int) ∨
          (len (.node true 1 .leaf (3 : Int) .leaf : RBNode Int) : Int) ≤ -1))) :=
  ⟨by decide, c7_index_bounds (by decide) (-1)⟩

/-- C8: the hash is 0 on the empty tree and otherwise the DJB2 fold
`h = ((h * 33) xor hash(v)) mod 2^64` over the in-order values starting at
5381; and two size-consistent trees that `compare` as equal (`cmp == 0`)
hash identically. -/
theorem c8_hash_djb2 (hv : Int → Nat) {x y : RBNode Int}
    (hsx : sizeOk x = true) (hsy : sizeOk y = true) :
    pyhash hv x = (if len x = 0 then 0 else djb2 hv (inorder x)) ∧
    (cmp intLt intEq x y = 0 → pyhash hv x = pyhash hv y) := by
  refine ⟨pyhash_eq_djb2 hv x, ?_⟩
  intro hc
  obtain ⟨hlen, hio⟩ := cmp_zero_same_inorder hsx hsy hc
  rw [pyhash_eq_djb2, pyhash_eq_djb2, hlen, hio]

/-- Witness for C8 on two equal one-node trees. -/
theorem c8_hash_djb2_witness :
    (sizeOk (.node true 1 .leaf (4 : Int) .leaf : RBNode Int) = true ∧
      sizeOk (.node true 1 .leaf (4 : Int) .leaf : RBNode Int) = true) ∧
    (pyhash (fun z : Int => z.toNat) (.node true 1 .leaf (4 : Int) .leaf : RBNode Int) =
      (if len (.node true 1 .leaf (4 : Int) .leaf : RBNode Int) = 0 then 0
        else djb2 (fun z : Int => z.toNat)
          (inorder (.node true 1 .leaf (4 : Int) .leaf : RBNode Int))) ∧
    (cmp intLt intEq (.node true 1 .leaf (4 : Int) .leaf : RBNode Int)
        (.node true 1 .leaf (4 : Int) .leaf : RBNode Int) = 0 →
      pyhash (fun z : Int => z.toNat) (.node true 1 .leaf (4 : Int) .leaf : RBNode Int) =
        pyhash (fun z : Int => z.toNat)
          (.node true 1 .leaf (4 : Int) .leaf : RBNode Int))) :=
  ⟨by decide, c8_hash_djb2 (fun z : Int => z.toNat) (by decide) (by decide)⟩

/-- C9: on a non-empty size-consistent tree, `pop()` with the index omitted
targets index `len - 1`: it returns the last element of the in-order
sequence and leaves the sequence with that last element removed. -/
theorem c9_pop_default_last {t : RBNode Int} (hs : sizeOk t = true)
    (hne : 0 < len t) :
    ∃ v t2, pop t none = (.ok v, t2) ∧ (inorder t).getLast? = some v ∧
      inorder t2 = (inorder t).dropLast :=
  pop_none_spec hs hne

/-- Witness for C9 on a one-node tree. -/
theorem c9_pop_default_last_witness :
    (sizeOk (.node true 1 .leaf (9 : Int) .leaf : RBNode Int) = true ∧
      0 < len (.node true 1 .leaf (9 : Int) .leaf : RBNode Int)) ∧
    ∃ v t2, pop (.node true 1 .leaf (9 : Int) .leaf : RBNode Int) none = (.ok v, t2) ∧
      (inorder (.node true 1 .leaf (9 : Int) .leaf : RBNode Int)).getLast? = some v ∧
      inorder t2 = (inorder (.node true 1 .leaf (9 : Int) .leaf : RBNode Int)).dropLast :=
  ⟨by decide, c9_pop_default_last (by decide) (by decide)⟩

/-- C10: on a tree with strictly increasing keys, `find` with a query that
merely key-matches a stored element returns the STORED element object, not
the query; hence the map view's `__getitem__(key)` - which queries with a
fresh `RBKeyValue(key)` carrying a dummy payload - returns the stored
entry's associated value. -/
theorem c10_find_returns_stored {t : RBNode KV}
    (hsort : List.Pairwise (fun a b => a.k < b.k) (inorder t))
    {e : KV} (he : e ∈ inorder t) (key : Int) (hk : key = e.k) :
    findnode kvLt kvEq t ⟨key, 0⟩ = some e ∧ mapGetitem t key = some e.payload := by
  have hlt : ∀ a b : KV, kvLt a b = true ↔ a.k < b.k := by
    intro a b
    rw [kvLt]
    exact decide_eq_true_iff
  have heq2 : ∀ a b : KV, kvEq a b = true ↔ a.k = b.k := by
    intro a b
    rw [kvEq]
    exact beq_iff_eq
  have hf := findnode_strict_sorted KV.k hlt heq2 t hsort e ⟨key, 0⟩ he hk
  refine ⟨hf, ?_⟩
  rw [mapGetitem, hf]
  rfl

/-- Witness for C10 on a one-entry map tree. -/
theorem c10_find_returns_stored_witness :
    (List.Pairwise (fun a b => a.k < b.k)
        (inorder (.node true 1 .leaf (⟨1, 42⟩ : KV) .leaf : RBNode KV)) ∧
      (⟨1, 42⟩ : KV) ∈ inorder (.node true 1 .leaf (⟨1, 42⟩ : KV) .leaf : RBNode KV) ∧
      (1 : Int) = (⟨1, 42⟩ : KV).k) ∧
    (findnode kvLt kvEq (.node true 1 .leaf (⟨1, 42⟩ : KV) .leaf : RBNode KV) ⟨1, 0⟩ =
        some ⟨1, 42⟩ ∧
      mapGetitem (.node true 1 .leaf (⟨1, 42⟩ : KV) .leaf : RBNode KV) 1 =
        some (⟨1, 42⟩ : KV).payload) :=
  ⟨by decide, c10_find_returns_stored (by decide) (by decide) 1 (by decide)⟩

end PyRBT
